import Mathlib

/-!
# godex: block ingestion pipeline (`cmd/main.go`)

A shallow embedding of the ingestion program: the decoded entity graph
(`Block`, `Transaction`, inputs, outputs), the text encoders used to build the
bulk-load payloads (`NullString`, `NullInt64`, `NullDecimal`, the row builders of
`CopyBlock`), the transactional bulk load `CopyBlock`, and the poll loop of `main`.

Conventions.
* Go `int64` values are `Int`; no arithmetic in the embedded code can overflow
  (the only arithmetic is `int64(highest.Int32) + 1`).
* Go `*T` is `Option T`; `nil` is `none`.
* Go `string` is `String`; the payload strings come out of `json.Unmarshal`, so they
  are sequences of Unicode code points.
* Calls that leave the process (RPC, SQL) take their answer from an explicit
  environment value, and every call is recorded in a trace of events.
* The store holds the rows it reads from the texts it is given: every text of a
  `CopyFrom` is cut into lines and fields by the rules of `COPY ... (FORMAT csv)`
  under the options of its statement.
-/

namespace Godex

/-! ## Entities (`type Block`, `type Transaction`) -/

/-- The value of a `decimal.Decimal`: the number `value * 10 ^ exp`. -/
structure Decimal where
  value : Int
  exp : Int
deriving DecidableEq, Repr

/-- The field `ScriptSig` of an input. -/
structure ScriptSig where
  Asm : Option String
  Hex : Option String
deriving DecidableEq, Repr

/-- The field `Prevout.ScriptPubKey` of an input. -/
structure PrevScriptPubKey where
  Asm : Option String
  Desc : Option String
  Hex : Option String
  Address : Option String
  Type_ : Option String
deriving DecidableEq, Repr

/-- The field `Prevout` of an input. -/
structure Prevout where
  Generated : Bool
  PrevHeight : Option Int
  Value : Option Decimal
  ScriptPubKey : PrevScriptPubKey
deriving DecidableEq, Repr

/-- One element of `Transaction.Vin`. -/
structure VinEntry where
  Coinbase : Option String
  TxID : Option String
  Vout : Int
  ScriptSig : ScriptSig
  TxInWitness : List String
  Prevout : Prevout
  Sequence : Int
deriving DecidableEq, Repr

/-- The field `ScriptPubKey` of an output. -/
structure ScriptPubKey where
  Asm : String
  Desc : String
  Hex : String
  Address : Option String
  Type_ : String
deriving DecidableEq, Repr

/-- One element of `Transaction.Vout`. -/
structure VoutEntry where
  Value : Decimal
  N : Int
  ScriptPubKey : ScriptPubKey
deriving DecidableEq, Repr

/-- The Go type `Transaction`. -/
structure Transaction where
  TxID : String
  Hash : String
  Version : Int
  Size : Int
  VSize : Int
  Weight : Int
  Locktime : Int
  Vin : List VinEntry
  Vout : List VoutEntry
  Fee : Decimal
  Hex : String
deriving DecidableEq, Repr

/-- The Go type `Block`. -/
structure Block where
  BlockHash : String
  Confirmations : Int
  Height : Int
  Version : Int
  VersionHex : String
  MerkleRoot : String
  Time : Int
  MedianTime : Int
  Nonce : Int
  Bits : String
  Difficulty : Decimal
  Chainwork : String
  NTX : Int
  PreviousBlockHash : Option String
  NextBlockHash : Option String
  StrippedSize : Int
  Size : Int
  Weight : Int
  Transactions : List Transaction
deriving DecidableEq, Repr

/-! ## Text encoders -/

/-- The verb `%d` applied to an `int64`. -/
def fmtInt (n : Int) : String := toString n

/-- The verb `%t`. -/
def fmtBool (b : Bool) : String := if b then "true" else "false"

/-- The text of `(*big.Int).String()` for a non-negative integer. -/
def natStr (n : Nat) : String := toString n

/-- The loop of `Decimal.string` that drops the trailing zeros of the fractional part
(`for ; i >= 0; i-- { if fractionalPart[i] != '0' { break } }`), on the reversed text. -/
def dropZeros : List Char → List Char
  | [] => []
  | c :: cs => if c = '0' then dropZeros cs else c :: cs

/-- The fractional part with its trailing zeros removed. -/
def trimTrailingZeros (frac : List Char) : List Char := (dropZeros frac.reverse).reverse

/-- The text `intPart` of `Decimal.string`, for the digits `str` of `|value|` and
`k = -exp`: the digits left of the last `k`, or `0` when there are none. -/
def intPart (str : List Char) (k : Nat) : List Char :=
  if k < str.length then str.take (str.length - k) else [ '0']

/-- The text `fractionalPart` of `Decimal.string` before trimming: the last `k` digits,
left-padded with zeros to `k` places. -/
def fractionalPart (str : List Char) (k : Nat) : List Char :=
  if k < str.length then str.drop (str.length - k)
  else List.replicate (k - str.length) '0' ++ str

/-- The text `number` of `Decimal.string`: the integer part, then a point and the trimmed
fractional part when one remains. -/
def decimalNumber (str : List Char) (k : Nat) : List Char :=
  let frac := trimTrailingZeros (fractionalPart str k)
  if 0 < frac.length then intPart str k ++ [ '.'] ++ frac else intPart str k

/-- `Decimal.String()` of shopspring/decimal, which is `d.string(true)`: the text of the
integer `value * 10 ^ exp` when `exp >= 0` (`d.rescale(0).value.String()`), else the
digits of `|value|` split `-exp` places from the right (left-padded with zeros under an
integer part `0`), trailing zeros of the fraction trimmed, a point only when a fraction
remains, and a leading `-` for a negative value. -/
def Decimal.String (d : Decimal) : String :=
  if 0 ≤ d.exp then
    fmtInt (d.value * 10 ^ d.exp.toNat)
  else
    let number := decimalNumber (natStr d.value.natAbs).data (-d.exp).toNat
    String.mk (if d.value < 0 then '-' :: number else number)

/-- The Go function `NullString`. -/
def NullString (s : Option String) : String :=
  match s with
  | none => ""
  | some v => v

/-- The Go function `NullInt64`. -/
def NullInt64 (n : Option Int) : String :=
  match n with
  | none => ""
  | some v => fmtInt v

/-- The Go function `NullDecimal`. -/
def NullDecimal (d : Option Decimal) : String :=
  match d with
  | none => ""
  | some v => v.String

/-! ### Quoted strings (`%q`) -/

/-- The digit table `"0123456789abcdef"` of `strconv`. -/
def hexDigit (n : Nat) : Char := Nat.digitChar (n % 16)

/-- `unicode.IsPrint` as `strconv` uses it. Up to `U+00FF` the rule is in the code of
`strconv.IsPrint`; above, it is a table lookup, and the table is the argument `tbl`. -/
def IsPrint (tbl : Char → Bool) (r : Char) : Bool :=
  if r.toNat ≤ 0xFF then
    if 0x20 ≤ r.toNat ∧ r.toNat < 0x7F then true
    else if 0xA1 ≤ r.toNat then r.toNat != 0xAD
    else false
  else tbl r

/-- `strconv.appendEscapedRune` with the double quote as quote character, neither
ASCII-only nor graphic-only: what `%q` appends for one rune. -/
def appendEscapedRune (tbl : Char → Bool) (r : Char) : List Char :=
  if r = Char.ofNat 34 ∨ r = Char.ofNat 92 then [Char.ofNat 92, r]
  else if IsPrint tbl r then [r]
  else if r.toNat = 7 then [Char.ofNat 92, 'a']
  else if r.toNat = 8 then [Char.ofNat 92, 'b']
  else if r.toNat = 12 then [Char.ofNat 92, 'f']
  else if r.toNat = 10 then [Char.ofNat 92, 'n']
  else if r.toNat = 13 then [Char.ofNat 92, 'r']
  else if r.toNat = 9 then [Char.ofNat 92, 't']
  else if r.toNat = 11 then [Char.ofNat 92, 'v']
  else if r.toNat < 0x20 ∨ r.toNat = 0x7F then
    [Char.ofNat 92, 'x', hexDigit (r.toNat / 16), hexDigit r.toNat]
  else if r.toNat < 0x10000 then
    [Char.ofNat 92, 'u', hexDigit (r.toNat / 4096), hexDigit (r.toNat / 256),
      hexDigit (r.toNat / 16), hexDigit r.toNat]
  else
    [Char.ofNat 92, 'U', hexDigit (r.toNat / 268435456), hexDigit (r.toNat / 16777216),
      hexDigit (r.toNat / 1048576), hexDigit (r.toNat / 65536), hexDigit (r.toNat / 4096),
      hexDigit (r.toNat / 256), hexDigit (r.toNat / 16), hexDigit r.toNat]

/-- The body of a quoted string: every rune escaped in turn. -/
def escapeRunes (tbl : Char → Bool) : List Char → List Char
  | [] => []
  | r :: rs => appendEscapedRune tbl r ++ escapeRunes tbl rs

/-- The verb `%q` applied to a string (`strconv.Quote`). -/
def fmtQuote (tbl : Char → Bool) (s : String) : String :=
  String.mk (Char.ofNat 34 :: (escapeRunes tbl s.data ++ [Char.ofNat 34]))

/-! ### Timestamps -/

/-- A non-negative number written with at least `width` digits, zero-padded. -/
def pad (width : Nat) (n : Nat) : String :=
  let s := toString n
  String.mk (List.replicate (width - s.length) '0') ++ s

/-- The civil date (year, month, day) of a day count since 1970-01-01 in the proleptic
Gregorian calendar. -/
def civilFromDays (days : Int) : Int × Int × Int :=
  let z := days + 719468
  let era := z / 146097
  let doe := z - era * 146097
  let yoe := (doe - doe / 1460 + doe / 36524 - doe / 146096) / 365
  let doy := doe - (365 * yoe + yoe / 4 - yoe / 100)
  let mp := (5 * doy + 2) / 153
  let d := doy - (153 * mp + 2) / 5 + 1
  let m := if mp < 10 then mp + 3 else mp - 9
  (if m ≤ 2 then yoe + era * 400 + 1 else yoe + era * 400, m, d)

/-- The text of `time.Unix(sec, 0).UTC().Format("2006-01-02 15:04:05-07:00")`, for the
seconds whose date Go computes without wrapping. -/
def formatTime (sec : Int) : String :=
  let days := sec / 86400
  let rem := (sec % 86400).toNat
  let (y, m, d) := civilFromDays days
  (if y < 0 then "-" else "") ++ pad 4 y.natAbs ++ "-" ++ pad 2 m.toNat ++ "-" ++ pad 2 d.toNat
    ++ " " ++ pad 2 (rem / 3600) ++ ":" ++ pad 2 (rem % 3600 / 60) ++ ":" ++ pad 2 (rem % 60)
    ++ "+00:00"

/-! ## The rows `CopyBlock` builds -/

/-- A `fmt.Sprintf` whose format is the verbs separated by commas and closed by a
newline: the rendered arguments, comma-separated, then `\n`. -/
def csvLine (fields : List String) : String := String.intercalate "," fields ++ "\n"

/-- The arguments of the `blocksCSV` format, each rendered by its verb. -/
def blockFields (block : Block) : List String :=
  [ block.BlockHash, fmtInt block.Confirmations, fmtInt block.Height, fmtInt block.Version,
    block.VersionHex, block.MerkleRoot, formatTime block.Time, formatTime block.MedianTime,
    fmtInt block.Nonce, block.Bits, block.Difficulty.String, block.Chainwork,
    fmtInt block.NTX, NullString block.PreviousBlockHash, NullString block.NextBlockHash,
    fmtInt block.StrippedSize, fmtInt block.Size, fmtInt block.Weight ]

/-- The text `blocksCSV`. -/
def blocksCSV (block : Block) : String := csvLine (blockFields block)

/-- The flag `segwit` of a transaction: set when `t.TxID != t.Hash`. -/
def segwit (t : Transaction) : Bool := if t.TxID ≠ t.Hash then true else false

/-- The loop over `t.Vin` that sets `rbf` and breaks at the first input whose sequence
is below `0xfffffffe`. -/
def rbfLoop : List VinEntry → Bool
  | [] => false
  | v :: vs => if v.Sequence < 0xfffffffe then true else rbfLoop vs

/-- The flag `rbf` of a transaction. -/
def rbf (t : Transaction) : Bool := rbfLoop t.Vin

/-- The arguments of the transactions row of `t`, each rendered by its verb. -/
def transactionFields (block : Block) (t : Transaction) : List String :=
  [ t.TxID, t.Hash, fmtBool (segwit t), fmtBool (rbf t), fmtInt t.Version, fmtInt t.Size,
    fmtInt t.VSize, fmtInt t.Weight, fmtInt t.Locktime, t.Fee.String, t.Hex,
    block.BlockHash, fmtInt block.Height, formatTime block.Time ]

/-- The line appended to `transactionsCSV` for `t`. -/
def transactionLine (block : Block) (t : Transaction) : String :=
  csvLine (transactionFields block t)

/-- The text `witness` of an input: its witness stack joined by commas, in braces. -/
def witness (v : VinEntry) : String := "\x7b" ++ String.intercalate "," v.TxInWitness ++ "\x7d"

/-- The arguments of the vins row of input `v` of `t`, each rendered by its verb
(`%q` for the witness, `%d` for `Vout` and `Sequence`, `%s` elsewhere). -/
def vinFields (tbl : Char → Bool) (t : Transaction) (v : VinEntry) : List String :=
  [ t.TxID, NullString v.TxID, NullString v.Coinbase, fmtInt v.Vout,
    NullString v.ScriptSig.Asm, NullString v.ScriptSig.Hex, fmtQuote tbl (witness v),
    NullInt64 v.Prevout.PrevHeight, NullDecimal v.Prevout.Value,
    NullString v.Prevout.ScriptPubKey.Asm, NullString v.Prevout.ScriptPubKey.Desc,
    NullString v.Prevout.ScriptPubKey.Hex, NullString v.Prevout.ScriptPubKey.Address,
    NullString v.Prevout.ScriptPubKey.Type_, fmtInt v.Sequence ]

/-- The line appended to `vinsCSV` for input `v` of `t`. -/
def vinLine (tbl : Char → Bool) (t : Transaction) (v : VinEntry) : String :=
  csvLine (vinFields tbl t v)

/-- The arguments of the vouts row of output `v` of `t`, each rendered by its verb. -/
def voutFields (t : Transaction) (v : VoutEntry) : List String :=
  [ t.TxID, v.Value.String, fmtInt v.N, v.ScriptPubKey.Asm, v.ScriptPubKey.Desc,
    v.ScriptPubKey.Hex, NullString v.ScriptPubKey.Address, v.ScriptPubKey.Type_ ]

/-- The line appended to `voutsCSV` for output `v` of `t`. -/
def voutLine (t : Transaction) (v : VoutEntry) : String := csvLine (voutFields t v)

/-- The text of the builder `vinsCSV` of a transaction: the lines of its inputs, in
order. -/
def vinsCSV (tbl : Char → Bool) (t : Transaction) : String :=
  String.join (t.Vin.map (vinLine tbl t))

/-- The text of the builder `voutsCSV` of a transaction: the lines of its outputs, in
order. -/
def voutsCSV (t : Transaction) : String := String.join (t.Vout.map (voutLine t))

/-! ## Decimal numerals -/

/-- The characters of a sequence of decimal digits, most significant first. -/
def digitsText (ds : List (Fin 10)) : List Char := ds.map (fun d => Nat.digitChar d.val)

/-- The number a sequence of decimal digits stands for, most significant first. -/
def digitsValue (ds : List (Fin 10)) : Nat := ds.foldl (fun a d => 10 * a + d.val) 0

/-- The decimal digit a character is, if it is one. -/
def digitOf (c : Char) : Option (Fin 10) :=
  if c = '0' then some 0 else if c = '1' then some 1 else if c = '2' then some 2
  else if c = '3' then some 3 else if c = '4' then some 4 else if c = '5' then some 5
  else if c = '6' then some 6 else if c = '7' then some 7 else if c = '8' then some 8
  else if c = '9' then some 9 else none

/-- The digit loop of `strconv.ParseInt` and `big.Int.SetString` in base 10. -/
def parseDigitsAux : Nat → List Char → Option Nat
  | acc, [] => some acc
  | acc, c :: cs =>
    match digitOf c with
    | none => none
    | some d => parseDigitsAux (10 * acc + d.val) cs

/-- A non-empty sequence of decimal digits read as a number. -/
def parseDigits (s : List Char) : Option Nat :=
  if s = [] then none else parseDigitsAux 0 s

/-- An integer written in decimal digits: an optional sign `+` or `-`, then at least one
digit, nothing else. This is `strconv.ParseInt(s, 10, _)` and `big.Int.SetString(s, 10)`
without a range check. -/
def parseSigned (s : List Char) : Option Int :=
  if s.head? = some '+' then (parseDigits (s.drop 1)).map Int.ofNat
  else if s.head? = some '-' then (parseDigits (s.drop 1)).map (fun n => -(Int.ofNat n))
  else (parseDigits s).map Int.ofNat

/-! ## How the store reads a COPY payload in CSV format

The rules of PostgreSQL for `COPY ... FROM STDIN WITH (FORMAT csv, ...)`: the data is cut
into lines at the line ends that are not inside quotes, and each line is cut into
fields at the delimiters that are not inside quotes. -/

/-- The line-end style the reader has settled on. -/
inductive EolType where
  | unknown
  | nl
  | cr
  | crnl
deriving DecidableEq, Repr

/-- The options of a COPY in CSV format: delimiter, quote, escape, and the text that
stands for NULL. -/
structure CsvOptions where
  delim : Char
  quote : Char
  escape : Char
  null : String
deriving DecidableEq, Repr

/-- The options `(FORMAT csv, NULL '', QUOTE '"', ESCAPE '\')` of the COPY statements for
`vins` and `vouts`; the delimiter is the default comma. -/
def vinsVoutsOptions : CsvOptions := ⟨',', Char.ofNat 34, Char.ofNat 92, ""⟩

/-- The cutting of the data into lines. A carriage return or a newline outside quotes
ends the line; a quote character not preceded by an escape inside quotes toggles the
quoting; the quoting starts afresh on every line; mixed line-end styles are an error
(`none`). `cur` holds the characters of the line read so far, last first. -/
def readLines (o : CsvOptions) :
    EolType → Bool → Bool → List Char → List Char → Option (List (List Char))
  | _, _, _, cur, [] => if cur = [] then some [] else some [cur.reverse]
  | eol, inQuote, lastWasEsc, cur, [c] =>
    let esc1 := if inQuote ∧ c = o.escape then !lastWasEsc else lastWasEsc
    let inQuote1 := if c = o.quote ∧ esc1 = false then !inQuote else inQuote
    if c = Char.ofNat 13 ∧ inQuote1 = false then
      if eol = EolType.crnl ∨ eol = EolType.nl then none else some [cur.reverse]
    else if c = Char.ofNat 10 ∧ inQuote1 = false then
      if eol = EolType.cr ∨ eol = EolType.crnl then none else some [cur.reverse]
    else some [(c :: cur).reverse]
  | eol, inQuote, lastWasEsc, cur, c :: d :: rest =>
    let esc1 := if inQuote ∧ c = o.escape then !lastWasEsc else lastWasEsc
    let inQuote1 := if c = o.quote ∧ esc1 = false then !inQuote else inQuote
    let esc2 := if c ≠ o.escape then false else esc1
    if c = Char.ofNat 13 ∧ inQuote1 = false then
      if eol = EolType.unknown ∨ eol = EolType.crnl then
        if d = Char.ofNat 10 then
          (readLines o EolType.crnl false false [] rest).map (fun ls => cur.reverse :: ls)
        else if eol = EolType.crnl then none
        else (readLines o EolType.cr false false [] (d :: rest)).map (fun ls => cur.reverse :: ls)
      else if eol = EolType.nl then none
      else (readLines o eol false false [] (d :: rest)).map (fun ls => cur.reverse :: ls)
    else if c = Char.ofNat 10 ∧ inQuote1 = false then
      if eol = EolType.cr ∨ eol = EolType.crnl then none
      else (readLines o EolType.nl false false [] (d :: rest)).map (fun ls => cur.reverse :: ls)
    else readLines o eol inQuote1 esc2 (c :: cur) (d :: rest)

/-- The field that ends here: NULL when it had no quote and its text is the NULL text. -/
def endField (o : CsvOptions) (sawQuote : Bool) (out : List Char) : Option String :=
  if sawQuote = false ∧ out.reverse = o.null.data then none else some (String.mk out.reverse)

/-- The cutting of a line into fields. Outside quotes a delimiter ends the field and a
quote character opens a quoted part; inside quotes an escape character followed by an
escape or a quote character stands for that character, a quote character closes the
quoted part, and the end of the line is an error (`none`). `out` holds the characters of
the field read so far, last first. -/
def readAttributes (o : CsvOptions) :
    Bool → Bool → List Char → List Char → Option (List (Option String))
  | false, sawQuote, out, [] => some [endField o sawQuote out]
  | false, sawQuote, out, c :: rest =>
    if c = o.delim then
      (readAttributes o false false [] rest).map (fun fs => endField o sawQuote out :: fs)
    else if c = o.quote then readAttributes o true true out rest
    else readAttributes o false sawQuote (c :: out) rest
  | true, _, _, [] => none
  | true, sawQuote, out, [c] =>
    if c = o.quote then readAttributes o false sawQuote out []
    else none
  | true, sawQuote, out, c :: n :: rest =>
    if c = o.escape ∧ (n = o.escape ∨ n = o.quote) then
      readAttributes o true sawQuote (n :: out) rest
    else if c = o.quote then readAttributes o false sawQuote out (n :: rest)
    else readAttributes o true sawQuote (c :: out) (n :: rest)

/-- Every line read as a list of fields, or `none` if one of them is in error. -/
def readAllAttributes (o : CsvOptions) : List (List Char) → Option (List (List (Option String)))
  | [] => some []
  | l :: ls =>
    match readAttributes o false false [] l, readAllAttributes o ls with
    | some fs, some rows => some (fs :: rows)
    | _, _ => none

/-- The rows the store reads from a payload under the options `o`. -/
def copyRead (o : CsvOptions) (data : String) : Option (List (List (Option String))) :=
  (readLines o EolType.unknown false false [] data.data).bind (readAllAttributes o)

/-! ## Texts the store reads as they were written -/

/-- A text without comma, double quote, carriage return or newline: one that the store
reads as it stands when it is a field written unquoted. -/
def Plain (s : List Char) : Prop :=
  ∀ c ∈ s, c ≠ ',' ∧ c ≠ Char.ofNat 34 ∧ c ≠ Char.ofNat 13 ∧ c ≠ Char.ofNat 10

/-- Whether a text is plain can be computed. -/
instance decidablePlain (s : List Char) : Decidable (Plain s) := by
  unfold Plain; infer_instance

/-- What the store reads for an unquoted field with the plain text `s`: NULL for the
empty text, else the text. -/
def readBack (s : String) : Option String := if s = "" then none else some s

/-- What the store reads for a field that stands alone on a line. -/
def fieldValue (o : CsvOptions) (f : List Char) : Option String :=
  match readAttributes o false false [] f with
  | some [v] => v
  | _ => none

/-- The body of a quoted string outside which no quote stands unescaped: a sequence of
single characters other than the quote and the escape character, and of pairs of an
escape character and any character. -/
inductive Escaped (o : CsvOptions) : List Char → Prop where
  | nil : Escaped o []
  | single (c : Char) (rest : List Char) :
      c ≠ o.quote → c ≠ o.escape → Escaped o rest → Escaped o (c :: rest)
  | pair (x : Char) (rest : List Char) : Escaped o rest → Escaped o (o.escape :: x :: rest)

/-- The texts of the fields of a line, separated by commas. -/
def joinFields : List (List Char) → List Char
  | [] => []
  | [f] => f
  | f :: g :: fs => f ++ ',' :: joinFields (g :: fs)

/-- A field the store reads as one field: a plain text, or a quoted string. -/
def FieldOK (f : List Char) : Prop :=
  Plain f ∨ ∃ body, Escaped vinsVoutsOptions body ∧
    f = Char.ofNat 34 :: (body ++ [Char.ofNat 34])

/-- A part of a line that the cutting into lines reads through outside quotes, and
leaves outside quotes. -/
def Neutral (o : CsvOptions) (s : List Char) : Prop :=
  ∀ (eol : EolType) (cur rest : List Char), rest ≠ [] →
    readLines o eol false false cur (s ++ rest) =
      readLines o eol false false (s.reverse ++ cur) rest

/-- A field that the cutting into fields reads as one field, whatever follows it on the
line. -/
def FieldReads (o : CsvOptions) (f : List Char) : Prop :=
  readAttributes o false false [] f = some [fieldValue o f] ∧
  ∀ rest, readAttributes o false false [] (f ++ ',' :: rest) =
    (readAttributes o false false [] rest).map (fun fs => fieldValue o f :: fs)

/-! ## The store and `CopyBlock` -/

/-- A row as the store holds it: one value for each column, `none` for NULL. -/
abbrev Row := List (Option String)

/-- The rows of the four relations, in the order they were copied. -/
structure Tables where
  blocks : List Row
  transactions : List Row
  vins : List Row
  vouts : List Row
deriving DecidableEq, Repr

/-- No row in any relation. -/
def Tables.empty : Tables := ⟨[], [], [], []⟩

/-- The rows of `b` added after the rows of `a`, relation by relation. -/
def Tables.append (a b : Tables) : Tables :=
  ⟨a.blocks ++ b.blocks, a.transactions ++ b.transactions, a.vins ++ b.vins,
    a.vouts ++ b.vouts⟩

/-- The store as every session sees it: the committed rows, and how many transactions
were committed so far. Rows copied inside an open transaction are not part of it. -/
structure Conn where
  committed : Tables
  commits : Nat
deriving DecidableEq, Repr

/-- The calls `CopyBlock` makes on the store. `copyVins i` and `copyVouts i` belong to the
transaction at position `i` of the block. -/
inductive WriteOp where
  | begin
  | copyBlocks
  | copyVins (i : Nat)
  | copyVouts (i : Nat)
  | copyTransactions
  | commit
  | rollback
deriving DecidableEq, Repr

/-- What the driver answers to each call: `some e` is the error `e`, `none` is success. -/
abbrev Faults := WriteOp → Option String

/-- The options `(FORMAT csv, NULL '')` of the COPY statements for `blocks` and
`transactions`: the delimiter is the default comma, the quote is the default `"`, and
the escape, which is not given, is the quote. -/
def blocksTransactionsOptions : CsvOptions := ⟨',', Char.ofNat 34, Char.ofNat 34, ""⟩

/-- The answer of the store to a `CopyFrom` of the text `data` under a COPY statement with
the options `o` and a list of `columns` columns. An error answer of `faults` is the
answer. Else the store reads the text: the COPY is refused when the text cannot be cut
into lines and fields, or when a line has not one field for each column; else every line
is a row. What else can make the store refuse (the type of a column, a constraint, a
lost connection) is an answer of `faults`. -/
def copyFrom (faults : Faults) (op : WriteOp) (o : CsvOptions) (columns : Nat)
    (data : String) : Except String (List Row) :=
  match faults op with
  | some e => Except.error e
  | none =>
    match copyRead o data with
    | none => Except.error "unterminated CSV quoted field"
    | some rows =>
      if ∀ r ∈ rows, r.length = columns then Except.ok rows
      else Except.error "missing or extra data for the columns"

/-- The value of column `height` of a blocks row, the third column of the COPY statement
for `blocks`, read as an integer. -/
def rowHeight (r : Row) : Option Int :=
  match r[2]? with
  | some (some s) => parseSigned s.data
  | _ => none

/-- The heights of the committed block rows. -/
def Tables.heights (t : Tables) : List Int := t.blocks.filterMap rowHeight

/-- Modelled from the spec: the schema of relation `blocks` is not part of the sources;
the spec gives it as `blocks(blockhash PK, height UNIQUE, ...)`, so the store refuses the
COPY when the `height` of a row it read is not an integer, is already committed, or
stands twice in the text. -/
def copyFromBlocks (faults : Faults) (committed : Tables) (data : String) :
    Except String (List Row) :=
  match copyFrom faults WriteOp.copyBlocks blocksTransactionsOptions 18 data with
  | Except.error e => Except.error e
  | Except.ok rows =>
    if ∃ r ∈ rows, rowHeight r = none then Except.error "invalid input for type integer"
    else if (rows.filterMap rowHeight).Nodup ∧
        ∀ h ∈ rows.filterMap rowHeight, h ∉ committed.heights then Except.ok rows
    else Except.error "duplicate key value violates unique constraint"

/-- The result of the `for _, t := range block.Transactions` loop of `CopyBlock`. -/
structure LoopResult where
  err : Option String
  pending : Tables
  transactionsCSV : String
  ops : List WriteOp
  sent : List (WriteOp × String)
deriving DecidableEq, Repr

/-- The loop over the transactions of the block, from position `i`: it appends the line
of `t` to `transactionsCSV`, copies the text `vinsCSV` of `t`, then its text `voutsCSV`,
and returns at the first failed copy. `pending` holds the rows the store read so far
inside the open transaction, `sent` the text given to each `CopyFrom`. -/
def copyLoop (tbl : Char → Bool) (faults : Faults) (block : Block) :
    Nat → List Transaction → Tables → String → LoopResult
  | _, [], pending, csv => ⟨none, pending, csv, [], []⟩
  | i, t :: ts, pending, csv =>
    let csv1 := csv ++ transactionLine block t
    match copyFrom faults (WriteOp.copyVins i) vinsVoutsOptions 15 (vinsCSV tbl t) with
    | Except.error e =>
      ⟨some ("ERROR: error COPY vins to db: " ++ e), pending, csv1, [WriteOp.copyVins i],
        [(WriteOp.copyVins i, vinsCSV tbl t)]⟩
    | Except.ok vinRows =>
      let pending1 := { pending with vins := pending.vins ++ vinRows }
      match copyFrom faults (WriteOp.copyVouts i) vinsVoutsOptions 8 (voutsCSV t) with
      | Except.error e =>
        ⟨some ("ERROR: error COPY vouts to db: " ++ e), pending1, csv1,
          [WriteOp.copyVins i, WriteOp.copyVouts i],
          [(WriteOp.copyVins i, vinsCSV tbl t), (WriteOp.copyVouts i, voutsCSV t)]⟩
      | Except.ok voutRows =>
        let pending2 := { pending1 with vouts := pending1.vouts ++ voutRows }
        let r := copyLoop tbl faults block (i + 1) ts pending2 csv1
        ⟨r.err, r.pending, r.transactionsCSV, WriteOp.copyVins i :: WriteOp.copyVouts i :: r.ops,
          (WriteOp.copyVins i, vinsCSV tbl t) :: (WriteOp.copyVouts i, voutsCSV t) :: r.sent⟩

/-- What `CopyBlock` returns, the store it leaves, the calls it made on the store, and
the text it gave to each `CopyFrom`. -/
structure CopyResult where
  err : Option String
  conn : Conn
  ops : List WriteOp
  sent : List (WriteOp × String)
deriving DecidableEq, Repr

/-- The Go method `Block.CopyBlock`. A failed `Begin` returns at once. After `Begin` the
deferred `Rollback` runs at every return: it discards the rows copied in the open
transaction, and does nothing after a successful `Commit`. A successful `Commit` makes
the rows the store read from the copied texts part of the committed store in one step.
The progress line logged at the end (the only use of `highestBlock`) is not part of the
result. -/
def CopyBlock (tbl : Char → Bool) (faults : Faults) (conn : Conn) (block : Block)
    (_highestBlock : Int) : CopyResult :=
  match faults WriteOp.begin with
  | some e =>
    ⟨some ("ERROR: error beginning pgx transaction: " ++ e), conn, [WriteOp.begin], []⟩
  | none =>
    match copyFromBlocks faults conn.committed (blocksCSV block) with
    | Except.error e =>
      ⟨some ("ERROR: error with COPY blocks: " ++ e), conn,
        [WriteOp.begin, WriteOp.copyBlocks, WriteOp.rollback],
        [(WriteOp.copyBlocks, blocksCSV block)]⟩
    | Except.ok blockRows =>
      let pending0 : Tables := ⟨blockRows, [], [], []⟩
      let r := copyLoop tbl faults block 0 block.Transactions pending0 ""
      match r.err with
      | some e =>
        ⟨some e, conn, [WriteOp.begin, WriteOp.copyBlocks] ++ r.ops ++ [WriteOp.rollback],
          (WriteOp.copyBlocks, blocksCSV block) :: r.sent⟩
      | none =>
        match copyFrom faults WriteOp.copyTransactions blocksTransactionsOptions 14
            r.transactionsCSV with
        | Except.error e =>
          ⟨some ("ERROR: error copying transactions: " ++ e), conn,
            [WriteOp.begin, WriteOp.copyBlocks] ++ r.ops
              ++ [WriteOp.copyTransactions, WriteOp.rollback],
            (WriteOp.copyBlocks, blocksCSV block) :: r.sent
              ++ [(WriteOp.copyTransactions, r.transactionsCSV)]⟩
        | Except.ok transactionRows =>
          let pending1 := { r.pending with
            transactions := r.pending.transactions ++ transactionRows }
          match faults WriteOp.commit with
          | some e =>
            ⟨some ("ERROR: error committing changes to db: " ++ e), conn,
              [WriteOp.begin, WriteOp.copyBlocks] ++ r.ops
                ++ [WriteOp.copyTransactions, WriteOp.commit, WriteOp.rollback],
              (WriteOp.copyBlocks, blocksCSV block) :: r.sent
                ++ [(WriteOp.copyTransactions, r.transactionsCSV)]⟩
          | none =>
            ⟨none, ⟨conn.committed.append pending1, conn.commits + 1⟩,
              [WriteOp.begin, WriteOp.copyBlocks] ++ r.ops
                ++ [WriteOp.copyTransactions, WriteOp.commit, WriteOp.rollback],
              (WriteOp.copyBlocks, blocksCSV block) :: r.sent
                ++ [(WriteOp.copyTransactions, r.transactionsCSV)]⟩

/-- The calls a complete `CopyBlock` of `block` makes on the store before the deferred
rollback, in order: every point at which a write of the block can fail. -/
def writePoints (block : Block) : List WriteOp :=
  [WriteOp.begin, WriteOp.copyBlocks]
    ++ (List.range block.Transactions.length).flatMap
        (fun i => [WriteOp.copyVins i, WriteOp.copyVouts i])
    ++ [WriteOp.copyTransactions, WriteOp.commit]

/-- The texts a complete run of `CopyBlock` gives to `CopyFrom`, in order: the blocks
text, for each transaction its vins text and then its vouts text, and the transactions
text at the end. -/
def payloads (tbl : Char → Bool) (block : Block) : List (WriteOp × String) :=
  (WriteOp.copyBlocks, blocksCSV block) ::
    (block.Transactions.enumFrom 0).flatMap
      (fun p => [(WriteOp.copyVins p.1, vinsCSV tbl p.2), (WriteOp.copyVouts p.1, voutsCSV p.2)])
    ++ [(WriteOp.copyTransactions, String.join (block.Transactions.map (transactionLine block)))]

/-- The rows the store reads from the texts given to a sequence of `CopyFrom` calls, each
text under the options of its COPY statement, relation by relation. -/
def rowsRead : List (WriteOp × String) → Tables
  | [] => Tables.empty
  | (op, text) :: rest =>
    let t := rowsRead rest
    match op with
    | WriteOp.copyBlocks =>
      { t with blocks := (copyRead blocksTransactionsOptions text).getD [] ++ t.blocks }
    | WriteOp.copyTransactions =>
      { t with transactions := (copyRead blocksTransactionsOptions text).getD [] ++ t.transactions }
    | WriteOp.copyVins _ =>
      { t with vins := (copyRead vinsVoutsOptions text).getD [] ++ t.vins }
    | WriteOp.copyVouts _ =>
      { t with vouts := (copyRead vinsVoutsOptions text).getD [] ++ t.vouts }
    | _ => t

/-! ## The rows of a block

The row each relation has for an entity, column by column of the column list of its
COPY statement; a text column holds NULL for the empty text. -/

/-- The row of relation `blocks` for a block: `blockhash, confirmations, height, version,
version_hex, merkle_root, time, median_time, nonce, bits, difficulty, chainwork, ntx,
previous_block_hash, next_block_hash, stripped_size, size, weight`. -/
def blockRow (block : Block) : Row :=
  [ readBack block.BlockHash, some (fmtInt block.Confirmations), some (fmtInt block.Height),
    some (fmtInt block.Version), readBack block.VersionHex, readBack block.MerkleRoot,
    some (formatTime block.Time), some (formatTime block.MedianTime),
    some (fmtInt block.Nonce), readBack block.Bits, some block.Difficulty.String,
    readBack block.Chainwork, some (fmtInt block.NTX),
    block.PreviousBlockHash.bind readBack, block.NextBlockHash.bind readBack,
    some (fmtInt block.StrippedSize), some (fmtInt block.Size), some (fmtInt block.Weight) ]

/-- The row of relation `transactions` for a transaction of a block: `txid, hash, segwit,
replace_by_fee, version, size, vsize, weight, locktime, fee, hex, blockhash, blockheight,
time`. The column `segwit` is true when the txid differs from the witness hash, the
column `replace_by_fee` when an input has a sequence below `0xfffffffe`. -/
def transactionRow (block : Block) (t : Transaction) : Row :=
  [ readBack t.TxID, readBack t.Hash,
    some (if t.TxID ≠ t.Hash then "true" else "false"),
    some (if ∃ v ∈ t.Vin, v.Sequence < 0xfffffffe then "true" else "false"),
    some (fmtInt t.Version), some (fmtInt t.Size), some (fmtInt t.VSize),
    some (fmtInt t.Weight), some (fmtInt t.Locktime), some t.Fee.String, readBack t.Hex,
    readBack block.BlockHash, some (fmtInt block.Height), some (formatTime block.Time) ]

/-- The row of relation `vins` for an input of a transaction: `txid, prev_txid, coinbase,
vout, scriptsig_asm, scriptsig_hex, txinwitness, prev_blockheight, value,
script_pubkey_asm, script_pubkey_desc, script_pubkey_hex, script_pubkey_address,
script_pubkey_type, sequence`. A pointer that is `nil` gives NULL; the column
`txinwitness` holds what the store reads from the quoted witness text. -/
def vinRow (tbl : Char → Bool) (t : Transaction) (v : VinEntry) : Row :=
  [ readBack t.TxID, v.TxID.bind readBack, v.Coinbase.bind readBack, some (fmtInt v.Vout),
    v.ScriptSig.Asm.bind readBack, v.ScriptSig.Hex.bind readBack,
    fieldValue vinsVoutsOptions (fmtQuote tbl (witness v)).data,
    v.Prevout.PrevHeight.map fmtInt, v.Prevout.Value.map Decimal.String,
    v.Prevout.ScriptPubKey.Asm.bind readBack, v.Prevout.ScriptPubKey.Desc.bind readBack,
    v.Prevout.ScriptPubKey.Hex.bind readBack, v.Prevout.ScriptPubKey.Address.bind readBack,
    v.Prevout.ScriptPubKey.Type_.bind readBack, some (fmtInt v.Sequence) ]

/-- The row of relation `vouts` for an output of a transaction: `txid, value, n,
script_pubkey_asm, script_pubkey_desc, script_pubkey_hex, script_pubkey_address,
script_pubkey_type`. -/
def voutRow (t : Transaction) (v : VoutEntry) : Row :=
  [ readBack t.TxID, some v.Value.String, some (fmtInt v.N), readBack v.ScriptPubKey.Asm,
    readBack v.ScriptPubKey.Desc, readBack v.ScriptPubKey.Hex,
    v.ScriptPubKey.Address.bind readBack, readBack v.ScriptPubKey.Type_ ]

/-- All the rows of a block, relation by relation, in the order of the block. -/
def blockRows (tbl : Char → Bool) (block : Block) : Tables :=
  ⟨[blockRow block],
    block.Transactions.map (transactionRow block),
    block.Transactions.flatMap (fun t => t.Vin.map (vinRow tbl t)),
    block.Transactions.flatMap (fun t => t.Vout.map (voutRow t))⟩

/-- The free-text fields of an output, and the txid of its transaction, are plain. -/
def PlainVout (t : Transaction) (v : VoutEntry) : Prop :=
  Plain t.TxID.data ∧ Plain v.ScriptPubKey.Asm.data ∧ Plain v.ScriptPubKey.Desc.data ∧
  Plain v.ScriptPubKey.Hex.data ∧ Plain (NullString v.ScriptPubKey.Address).data ∧
  Plain v.ScriptPubKey.Type_.data

/-- The free-text fields of an input, and the txid of its transaction, are plain. -/
def PlainVin (t : Transaction) (v : VinEntry) : Prop :=
  Plain t.TxID.data ∧ Plain (NullString v.TxID).data ∧ Plain (NullString v.Coinbase).data ∧
  Plain (NullString v.ScriptSig.Asm).data ∧ Plain (NullString v.ScriptSig.Hex).data ∧
  Plain (NullString v.Prevout.ScriptPubKey.Asm).data ∧
  Plain (NullString v.Prevout.ScriptPubKey.Desc).data ∧
  Plain (NullString v.Prevout.ScriptPubKey.Hex).data ∧
  Plain (NullString v.Prevout.ScriptPubKey.Address).data ∧
  Plain (NullString v.Prevout.ScriptPubKey.Type_).data

/-- The text fields of the blocks row of a block are plain. -/
def PlainHeader (block : Block) : Prop :=
  Plain block.BlockHash.data ∧ Plain block.VersionHex.data ∧ Plain block.MerkleRoot.data ∧
  Plain block.Bits.data ∧ Plain block.Chainwork.data ∧
  Plain (NullString block.PreviousBlockHash).data ∧
  Plain (NullString block.NextBlockHash).data

/-- The text fields of the rows of a transaction, of its inputs and of its outputs are
plain. -/
def PlainTransaction (t : Transaction) : Prop :=
  Plain t.TxID.data ∧ Plain t.Hash.data ∧ Plain t.Hex.data ∧
  (∀ v ∈ t.Vin, PlainVin t v) ∧ (∀ v ∈ t.Vout, PlainVout t v)

/-- The text fields of every row of a block are plain. -/
def PlainBlock (block : Block) : Prop :=
  PlainHeader block ∧ ∀ t ∈ block.Transactions, PlainTransaction t

/-- Whether the text fields of an output are plain can be computed. -/
instance decidablePlainVout (t : Transaction) (v : VoutEntry) : Decidable (PlainVout t v) := by
  unfold PlainVout; infer_instance

/-- Whether the text fields of an input are plain can be computed. -/
instance decidablePlainVin (t : Transaction) (v : VinEntry) : Decidable (PlainVin t v) := by
  unfold PlainVin; infer_instance

/-- Whether the text fields of a blocks row are plain can be computed. -/
instance decidablePlainHeader (block : Block) : Decidable (PlainHeader block) := by
  unfold PlainHeader; infer_instance

/-- Whether the text fields of the rows of a transaction are plain can be computed. -/
instance decidablePlainTransaction (t : Transaction) : Decidable (PlainTransaction t) := by
  unfold PlainTransaction; infer_instance

/-- Whether the text fields of the rows of a block are plain can be computed. -/
instance decidablePlainBlock (block : Block) : Decidable (PlainBlock block) := by
  unfold PlainBlock; infer_instance

/-! ## The poll loop of `main` -/

/-- The error of a query of package `database/sql`: `sql.ErrNoRows`, or any other. -/
inductive QueryError where
  | ErrNoRows
  | other (msg : String)
deriving DecidableEq, Repr

/-- The greatest element of a non-empty list of heights. -/
def maxHeight (h : Int) (hs : List Int) : Int := hs.foldl max h

/-- Modelled from the spec: the query `GetHighestBlock` of package `internal/database` is
not part of the sources. The spec gives it as "`GetHighestLoadedHeight() -> height |
empty`: always re-reads the store (no cached state)": it returns the highest committed
height, and `sql.ErrNoRows` for a store without blocks. `fault = some e` is a query that
fails with the error `e`. On every error the returned `sql.NullInt32` is the zero value,
whose field `Int32` is `0`. The first component is that field `Int32`. -/
def GetHighestBlock (fault : Option String) (committed : Tables) : Int × Option QueryError :=
  match fault with
  | some e => (0, some (QueryError.other e))
  | none =>
    match committed.heights with
    | [] => (0, some QueryError.ErrNoRows)
    | h :: hs => (maxHeight h hs, none)

/-- What the world outside the process answers during one cycle of the loop: the node to
the three RPC methods (`getblockchaininfo` gives the field `blocks`), the store to the
query of the highest block and to the calls of `CopyBlock`. An error answer of the node
stands both for an error that `GetBlockchainInfo`, `GetBlockHash` or `GetBlock` returns to
`main` and for a `log.Fatalf` inside `SendRPCRequest`: either way the process ends there
with that message. -/
structure Env where
  getblockchaininfo : Except String Int
  highestFault : Option String
  getblockhash : Int → Except String String
  getblock : String → Except String Block
  faults : Faults

/-- What the process does that is visible outside it, in order. -/
inductive Event where
  | rpcGetBlockchainInfo
  | queryHighestBlock
  | rpcGetBlockHash (height : Int)
  | rpcGetBlock (hash : String) (verbosity : Int)
  | store (op : WriteOp)
  | upToDate
  | fatal (msg : String)
deriving DecidableEq, Repr

/-- The result of one cycle: whether `log.Fatalf` ended the process, the events of the
cycle, and the store after it. -/
structure CycleResult where
  halted : Bool
  events : List Event
  conn : Conn
deriving DecidableEq, Repr

/-- One iteration of the `for` loop of `main`. The error of `GetHighestBlock` is looked
at only to set `targetBlock = 0` for `sql.ErrNoRows`, a value that is overwritten before
it is read; in every case the loop goes on with the field `Int32` of the value returned.
The counter `startingIndex` incremented at the end is never read. -/
def cycle (tbl : Char → Bool) (env : Env) (conn : Conn) : CycleResult :=
  match env.getblockchaininfo with
  | Except.error e => ⟨true, [Event.rpcGetBlockchainInfo, Event.fatal e], conn⟩
  | Except.ok currentHeight =>
    let highestBlockHeight := (GetHighestBlock env.highestFault conn.committed).1
    if currentHeight ≠ highestBlockHeight then
      let targetBlock := highestBlockHeight + 1
      match env.getblockhash targetBlock with
      | Except.error e =>
        ⟨true, [Event.rpcGetBlockchainInfo, Event.queryHighestBlock,
          Event.rpcGetBlockHash targetBlock, Event.fatal e], conn⟩
      | Except.ok targetBlockhash =>
        match env.getblock targetBlockhash with
        | Except.error e =>
          ⟨true, [Event.rpcGetBlockchainInfo, Event.queryHighestBlock,
            Event.rpcGetBlockHash targetBlock, Event.rpcGetBlock targetBlockhash 3,
            Event.fatal e], conn⟩
        | Except.ok block =>
          let r := CopyBlock tbl env.faults conn block currentHeight
          match r.err with
          | some e =>
            ⟨true, [Event.rpcGetBlockchainInfo, Event.queryHighestBlock,
              Event.rpcGetBlockHash targetBlock, Event.rpcGetBlock targetBlockhash 3]
              ++ r.ops.map Event.store ++ [Event.fatal e], r.conn⟩
          | none =>
            ⟨false, [Event.rpcGetBlockchainInfo, Event.queryHighestBlock,
              Event.rpcGetBlockHash targetBlock, Event.rpcGetBlock targetBlockhash 3]
              ++ r.ops.map Event.store, r.conn⟩
    else
      ⟨false, [Event.rpcGetBlockchainInfo, Event.queryHighestBlock, Event.upToDate], conn⟩

/-- The `for` loop of `main`, run for as many cycles as there are environments, or until
`log.Fatalf` ends the process. -/
def pollLoop (tbl : Char → Bool) : List Env → Conn → CycleResult
  | [], conn => ⟨false, [], conn⟩
  | env :: envs, conn =>
    let r := cycle tbl env conn
    if r.halted then r
    else
      let r2 := pollLoop tbl envs r.conn
      ⟨r2.halted, r.events ++ r2.events, r2.conn⟩

/-- The function `main` after the connections are open: the query of the highest block
into `startingIndex` (whose error and value are both unused), then the loop. -/
def main (tbl : Char → Bool) (envs : List Env) (conn : Conn) : CycleResult :=
  let r := pollLoop tbl envs conn
  ⟨r.halted, Event.queryHighestBlock :: r.events, r.conn⟩

/-- A sequence of process lifetimes over the same store: each run of `main` ends (by
`log.Fatalf`, or by being stopped from outside), and the next one starts on the store
the previous one left. -/
def restarts (tbl : Char → Bool) : List (List Env) → Conn → Conn
  | [], conn => conn
  | envs :: rest, conn => restarts tbl rest (main tbl envs conn).conn

/-- The committed heights are exactly `1, ..., n`, each once. -/
def Contiguous (conn : Conn) (n : Nat) : Prop :=
  conn.committed.heights.Perm ((List.range' 1 n).map Int.ofNat)

/-- The node answers the hash at height `h` with a block whose height field is `h`. -/
def NodeConsistent (env : Env) : Prop :=
  ∀ h hash block, env.getblockhash h = Except.ok hash → env.getblock hash = Except.ok block →
    block.Height = h

/-- The text fields of the blocks row of every block the node answers are plain: they hold
no comma, double quote, carriage return or newline. -/
def PlainNode (env : Env) : Prop :=
  ∀ hash block, env.getblock hash = Except.ok block → PlainHeader block

/-! ## Sample values -/

/-- A table for `IsPrint` above `U+00FF` under which every such rune is printable. -/
def sampleTable : Char → Bool := fun _ => true

/-- A coinbase input as `json.Unmarshal` leaves it: no `txid`, no `vout`, no `prevout`. -/
def coinbaseVin : VinEntry :=
  ⟨some "04ffff001d0104", none, 0, ⟨none, none⟩, [], ⟨false, none, none,
    ⟨none, none, none, none, none⟩⟩, 4294967295⟩

/-- An input that spends output `1` of an earlier transaction. -/
def standardVin : VinEntry :=
  ⟨none, some "f4184fc5", 1, ⟨some "3045 02", some "483045"⟩, ["3044", "02a1"],
    ⟨false, some 9, some ⟨5000000000, -8⟩,
      ⟨some "OP_CHECKSIG", some "pk(04)", some "41ac", none, some "pubkey"⟩⟩, 4294967293⟩

/-- An output of 50 coins. -/
def sampleVout : VoutEntry :=
  ⟨⟨5000000000, -8⟩, 0, ⟨"OP_DUP OP_HASH160", "addr(1A1z)", "76a9", some "1A1z", "pubkeyhash"⟩⟩

/-- A transaction with one coinbase input and one output. -/
def sampleTx : Transaction :=
  ⟨"4a5e1e4b", "4a5e1e4b", 1, 204, 204, 816, 0, [coinbaseVin], [sampleVout], ⟨0, 0⟩, "0100"⟩

/-- A block of height `h` with one transaction. -/
def sampleBlock (h : Int) : Block :=
  ⟨String.mk (List.replicate h.toNat 'a'), 1, h, 1, "00000001", "4a5e1e4b", 1231006505,
    1231006505, 2083236893, "1d00ffff", ⟨1, 0⟩, "0100010001", 1, none, none, 285, 285, 1140,
    [sampleTx]⟩

/-- A store that accepts every call. -/
def noFaults : Faults := fun _ => none

/-- A store that loses the connection at the COPY of the vouts of the first transaction. -/
def voutsFault : Faults :=
  fun op => if op = WriteOp.copyVouts 0 then some "connection lost" else none

/-- A node with tip `tip` whose block at height `h` is `sampleBlock h`, under a hash that
is `h` letters long, and a store that accepts every call. -/
def sampleEnv (tip : Int) : Env :=
  ⟨Except.ok tip, none,
    fun h => if 0 ≤ h ∧ h ≤ tip then Except.ok (String.mk (List.replicate h.toNat 'a'))
      else Except.error "Block height out of range",
    fun hash => Except.ok (sampleBlock hash.length), noFaults⟩

/-- The store without rows. -/
def emptyConn : Conn := ⟨Tables.empty, 0⟩

/-- The store after heights `1` to `5` of the sample node were loaded. -/
def fiveBlocks : Conn :=
  ⟨⟨(List.range' 1 5).map (fun h => blockRow (sampleBlock h)), [], [], []⟩, 5⟩

/-- The sample node with tip `tip`, and a store whose query of the highest block fails
with an error other than `sql.ErrNoRows`. -/
def brokenQueryEnv (tip : Int) : Env :=
  { sampleEnv tip with highestFault := some "connection refused" }

/-- The sample input with its sequence number replaced. -/
def vinWithSequence (s : Int) : VinEntry := { standardVin with Sequence := s }

/-- The sample transaction with the given inputs. -/
def txWithInputs (vins : List VinEntry) : Transaction := { sampleTx with Vin := vins }

/-- An output whose descriptor is the descriptor of a bare multisig script. -/
def multisigVout : VoutEntry :=
  ⟨⟨1000, -8⟩, 0, ⟨"1 02aa 03bb 2 OP_CHECKMULTISIG", "multi(1,02aa,03bb)#x9zt", "5121", none,
    "multisig"⟩⟩

/-- An input that spends a bare multisig output: the descriptor of its prevout has
commas. -/
def multisigVin : VinEntry :=
  { standardVin with
    Prevout := ⟨false, some 9, some ⟨1000, -8⟩,
      ⟨some "1 02aa 03bb 2 OP_CHECKMULTISIG", some "multi(1,02aa,03bb)#x9zt", some "5121", none,
        some "multisig"⟩⟩ }

/-- A block of height `1` whose merkle root text holds the rest of a blocks line, a line
break, and the start of a second blocks line with height `7`. -/
def injectedBlock : Block :=
  { sampleBlock 1 with
    MerkleRoot := "4a5e,2009-01-03 18:15:05+00:00,2009-01-03 18:15:05+00:00,2083236893,"
      ++ "1d00ffff,1,0100010001,1,,,285,285,1140\nbb,1,7,1,00000001,4a5f" }

/-- The sample node with tip `tip`, except that its block at height `1` is
`injectedBlock`. -/
def injectedEnv (tip : Int) : Env :=
  { sampleEnv tip with
    getblock := fun hash =>
      Except.ok (if hash = "a" then injectedBlock else sampleBlock hash.length) }

/-- A segwit transaction: its witness hash differs from its txid. Both of its inputs
have a final sequence. -/
def segwitTx : Transaction :=
  { txWithInputs [vinWithSequence 0xffffffff, vinWithSequence 0xffffffff] with
    TxID := "0e3e2357", Hash := "9b0fc922" }

/-- A transaction whose second input has the sequence `0xfffffffd`. -/
def rbfTx : Transaction :=
  { txWithInputs [vinWithSequence 0xffffffff, vinWithSequence 0xfffffffd] with
    TxID := "6f7cf958", Hash := "6f7cf958" }

/-- A transaction without inputs. -/
def emptyTx : Transaction := { txWithInputs [] with TxID := "aa11", Hash := "aa11" }

/-- A transaction whose fee is `0.00001234`, as `decimal.NewFromString` decodes it. -/
def feeTx : Transaction :=
  { txWithInputs [vinWithSequence 0xffffffff] with
    TxID := "f4184fc5", Hash := "f4184fc5", Fee := ⟨1234, -8⟩ }

/-- A block of height `1` with these transactions after the sample transaction. -/
def flagsBlock : Block :=
  { sampleBlock 1 with NTX := 5, Transactions := [sampleTx, segwitTx, rbfTx, emptyTx, feeTx] }

/-! ## Decoding of an input -/

/-- The object `prevout` of an input in the block payload; every key may be missing. -/
structure PrevoutPayload where
  generated : Option Bool
  height : Option Int
  value : Option Decimal
  scriptPubKey : Option PrevScriptPubKey
deriving DecidableEq, Repr

/-- An element of the array `vin` in the block payload; every key may be missing. -/
structure VinPayload where
  coinbase : Option String
  txid : Option String
  vout : Option Int
  scriptSig : Option ScriptSig
  txinwitness : Option (List String)
  prevout : Option PrevoutPayload
  sequence : Option Int
deriving DecidableEq, Repr

/-- What `json.Unmarshal` makes of an element of `vin` under the declaration of
`Transaction.Vin`: a key that is missing leaves the zero value of its field, which is
`nil` for a pointer and a slice, `0` for an `int64`, `false` for a `bool`, and the struct
of zero values for a struct. -/
def decodeVin (p : VinPayload) : VinEntry :=
  { Coinbase := p.coinbase
    TxID := p.txid
    Vout := p.vout.getD 0
    ScriptSig := p.scriptSig.getD ⟨none, none⟩
    TxInWitness := p.txinwitness.getD []
    Prevout :=
      match p.prevout with
      | none => ⟨false, none, none, ⟨none, none, none, none, none⟩⟩
      | some q =>
        ⟨q.generated.getD false, q.height, q.value,
          q.scriptPubKey.getD ⟨none, none, none, none, none⟩⟩
    Sequence := p.sequence.getD 0 }

/-- The text that the option `NULL ''` of the four COPY statements makes the absent
value: a field that is this text, unquoted, is stored as NULL. -/
def copyNull : String := ""

/-- A coinbase input in the payload: a coinbase marker and a sequence, nothing else. -/
def coinbasePayload : VinPayload :=
  ⟨some "04ffff001d0104", none, none, none, none, none, some 4294967295⟩

/-- A standard input in the payload: no coinbase marker. -/
def standardPayload : VinPayload :=
  ⟨none, some "f4184fc5", some 1, some ⟨some "3045 02", some "483045"⟩, some ["3044", "02a1"],
    some ⟨some false, some 9, some ⟨5000000000, -8⟩,
      some ⟨some "OP_CHECKSIG", some "pk(04)", some "41ac", none, some "pubkey"⟩⟩,
    some 4294967293⟩

/-! ## Decoding of a decimal (`decimal.NewFromString`) -/

/-- The test of `strings.IndexAny(value, "Ee")` on one character. -/
def isE (c : Char) : Bool := c = 'E' ∨ c = 'e'

/-- `decimal.NewFromString` of shopspring/decimal, which `Decimal.UnmarshalJSON` calls on
the text of the literal; `none` is an error. The text after the first `E` or `e` is the
exponent, read by `strconv.ParseInt(_, 10, 32)`; more than one point in what stands
before is an error; the point is taken out, the digits right of it lower the exponent by
their count, and what remains is read as the integer `value`; the exponent must fit an
`int32`. -/
def NewFromString (value : String) : Option Decimal :=
  let mantissa := value.data.takeWhile (fun c => !isE c)
  let expInt : Option Int :=
    match value.data.dropWhile (fun c => !isE c) with
    | [] => some 0
    | _ :: es =>
      (parseSigned es).bind (fun x => if -2 ^ 31 ≤ x ∧ x ≤ 2 ^ 31 - 1 then some x else none)
  match expInt with
  | none => none
  | some exp0 =>
    if 1 < mantissa.count '.' then none
    else
      let intString := mantissa.takeWhile (fun c => c ≠ '.')
        ++ (mantissa.dropWhile (fun c => c ≠ '.')).drop 1
      let exp := exp0 - ((mantissa.dropWhile (fun c => c ≠ '.')).drop 1).length
      match parseSigned intString with
      | none => none
      | some dValue =>
        if exp < -2 ^ 31 ∨ 2 ^ 31 - 1 < exp then none else some ⟨dValue, exp⟩

/-! ## Decimal literals and what they denote -/

/-- The exponent part of a literal: the letter (`E` when `upper`), an optional sign
(`some true` is `-`, `some false` is `+`), and the digits. -/
structure Exponent where
  upper : Bool
  sign : Option Bool
  digits : List (Fin 10)
deriving DecidableEq, Repr

/-- A decimal literal by its parts: an optional `-`, the digits of the integer part, an
optional point with the digits of the fraction, an optional exponent part. -/
structure Literal where
  neg : Bool
  int : List (Fin 10)
  frac : Option (List (Fin 10))
  expo : Option Exponent
deriving DecidableEq, Repr

/-- The characters of the sign of an exponent. -/
def signText (sign : Option Bool) : List Char :=
  match sign with
  | none => []
  | some true => [ '-']
  | some false => [ '+']

/-- The characters of an exponent part. -/
def Exponent.text (e : Exponent) : List Char :=
  (if e.upper then 'E' else 'e') :: (signText e.sign ++ digitsText e.digits)

/-- The integer an exponent part stands for. -/
def Exponent.value (e : Exponent) : Int :=
  match e.sign with
  | some true => -(Int.ofNat (digitsValue e.digits))
  | _ => Int.ofNat (digitsValue e.digits)

/-- The characters of the fraction part of a literal: a point and the digits. -/
def fracText (frac : Option (List (Fin 10))) : List Char :=
  match frac with
  | none => []
  | some f => '.' :: digitsText f

/-- The characters of the exponent part of a literal. -/
def expoText (expo : Option Exponent) : List Char :=
  match expo with
  | none => []
  | some e => e.text

/-- The characters of a literal. -/
def Literal.text (l : Literal) : List Char :=
  (if l.neg then [ '-'] else []) ++ digitsText l.int ++ fracText l.frac ++ expoText l.expo

/-- The digits of the fraction, none without a point. -/
def Literal.fracDigits (l : Literal) : List (Fin 10) := l.frac.getD []

/-- The exponent of a literal, `0` without an exponent part. -/
def Literal.exponent (l : Literal) : Int :=
  match l.expo with
  | none => 0
  | some e => e.value

/-- The number a literal denotes. -/
def Literal.value (l : Literal) : ℚ :=
  (if l.neg then -1 else 1)
    * ((digitsValue l.int : ℚ) + (digitsValue l.fracDigits : ℚ) / 10 ^ l.fracDigits.length)
    * 10 ^ l.exponent

/-- A literal has a digit in its integer part, a digit after its point if it has one, and
a digit in its exponent part if it has one. -/
def Literal.wellFormed (l : Literal) : Bool :=
  !l.int.isEmpty &&
  (match l.frac with
    | none => true
    | some f => !f.isEmpty) &&
  (match l.expo with
    | none => true
    | some e => !e.digits.isEmpty)

/-- The exponent of the literal and the exponent lowered by the count of fraction digits
both fit an `int32`. -/
def Literal.inRange (l : Literal) : Bool :=
  decide (-2 ^ 31 ≤ l.exponent - l.fracDigits.length) && decide (-2 ^ 31 ≤ l.exponent) &&
    decide (l.exponent ≤ 2 ^ 31 - 1)

/-- The longest run of decimal digits at the start of a text, and the rest. -/
def spanDigits : List Char → List (Fin 10) × List Char
  | [] => ([], [])
  | c :: cs =>
    match digitOf c with
    | some d => (d :: (spanDigits cs).1, (spanDigits cs).2)
    | none => ([], c :: cs)

/-- A text read as an exponent part that reaches to its end. -/
def parseExponent (s : List Char) : Option Exponent :=
  match s with
  | [] => none
  | e :: rest =>
    if e = 'e' ∨ e = 'E' then
      let sign : Option Bool :=
        if rest.head? = some '-' then some true
        else if rest.head? = some '+' then some false
        else none
      let rest1 := if sign = none then rest else rest.drop 1
      if (spanDigits rest1).1 ≠ [] ∧ (spanDigits rest1).2 = [] then
        some ⟨decide (e = 'E'), sign, (spanDigits rest1).1⟩
      else none
    else none

/-- A text read as the rest of a literal after its integer part `int`. -/
def parseTail (neg : Bool) (int : List (Fin 10)) (s : List Char) : Option Literal :=
  if s = [] then some ⟨neg, int, none, none⟩
  else if s.head? = some '.' then
    if (spanDigits (s.drop 1)).1 = [] then none
    else if (spanDigits (s.drop 1)).2 = [] then
      some ⟨neg, int, some (spanDigits (s.drop 1)).1, none⟩
    else
      (parseExponent (spanDigits (s.drop 1)).2).map
        (fun e => ⟨neg, int, some (spanDigits (s.drop 1)).1, some e⟩)
  else (parseExponent s).map (fun e => ⟨neg, int, none, some e⟩)

/-- A text read as a decimal literal, `none` when it is not one. -/
def parseLiteral (s : List Char) : Option Literal :=
  let neg := decide (s.head? = some '-')
  let s1 := if neg then s.drop 1 else s
  if (spanDigits s1).1 = [] then none else parseTail neg (spanDigits s1).1 (spanDigits s1).2

/-- The number a text denotes when it is a decimal literal. -/
def numeralValue (s : String) : Option ℚ := (parseLiteral s.data).map Literal.value

/-- The literal `0.00001234`. -/
def sampleFeeLiteral : Literal := ⟨false, [0], some [0, 0, 0, 0, 1, 2, 3, 4], none⟩

/-- A text does not start with a digit. -/
def NoDigitHead (s : List Char) : Prop := ∀ c, s.head? = some c → digitOf c = none

/-- The characters of the sign of a literal. -/
def negText (neg : Bool) : List Char := if neg then [ '-'] else []

/-- The decimal that the text of a literal decodes to: the digits of the integer part and
of the fraction as one integer, and the exponent lowered by the count of fraction
digits. -/
def Literal.decoded (l : Literal) : Decimal :=
  ⟨if l.neg then -(Int.ofNat (digitsValue (l.int ++ l.fracDigits)))
    else Int.ofNat (digitsValue (l.int ++ l.fracDigits)),
   l.exponent - l.fracDigits.length⟩

/-- The number a `decimal.Decimal` stands for, `value * 10 ^ exp`. -/
def Decimal.toRat (d : Decimal) : ℚ := (d.value : ℚ) * (10 : ℚ) ^ d.exp

/-! ## Theorems -/

/-! ### The digits of `%d` and `big.Int.String()` -/

theorem digitsValue_append (a b : List (Fin 10)) :
    digitsValue (a ++ b) = digitsValue a * 10 ^ b.length + digitsValue b := by
  induction b using List.reverseRecOn with
  | nil => simp [digitsValue]
  | append_singleton b d ih =>
    have h1 : digitsValue (a ++ (b ++ [d])) = 10 * digitsValue (a ++ b) + d.val := by
      simp [digitsValue, List.foldl_append]
    have h2 : digitsValue (b ++ [d]) = 10 * digitsValue b + d.val := by
      simp [digitsValue, List.foldl_append]
    rw [h1, h2, ih, List.length_append, List.length_singleton, pow_succ]
    ring

theorem digitsValue_singleton (d : Fin 10) : digitsValue [d] = d.val := by
  simp [digitsValue]

theorem toDigitsCore_digits : ∀ (fuel n : Nat) (acc : List (Fin 10)), n < fuel →
    ∃ ds : List (Fin 10), Nat.toDigitsCore 10 fuel n (digitsText acc) = digitsText (ds ++ acc) ∧
      digitsValue ds = n ∧ ds ≠ [] := by
  intro fuel
  induction fuel with
  | zero => intro n acc h; omega
  | succ fuel ih =>
    intro n acc h
    have hd : n % 10 < 10 := Nat.mod_lt _ (by decide)
    simp only [Nat.toDigitsCore]
    by_cases h0 : n / 10 = 0
    · simp only [h0, if_true]
      refine ⟨[⟨n % 10, hd⟩], by simp [digitsText], ?_, by simp⟩
      rw [digitsValue_singleton]
      simp only
      omega
    · simp only [h0, if_false]
      have hlt : n / 10 < fuel := by omega
      obtain ⟨ds, h1, h2, h3⟩ := ih (n / 10) (⟨n % 10, hd⟩ :: acc) hlt
      refine ⟨ds ++ [⟨n % 10, hd⟩], ?_, ?_, by simp⟩
      · have : digitsText (⟨n % 10, hd⟩ :: acc) = Nat.digitChar (n % 10) :: digitsText acc := by
          simp [digitsText]
        rw [← this, h1]
        simp
      · rw [digitsValue_append, h2, digitsValue_singleton]
        simp only [List.length_singleton, pow_one]
        omega

/-- The text of a natural number is a non-empty sequence of decimal digits whose value is
the number. -/
theorem natStr_digits (n : Nat) :
    ∃ ds : List (Fin 10), (natStr n).data = digitsText ds ∧ digitsValue ds = n ∧ ds ≠ [] := by
  obtain ⟨ds, h1, h2, h3⟩ := toDigitsCore_digits (n + 1) n [] (Nat.lt_succ_self n)
  refine ⟨ds, ?_, h2, h3⟩
  have : (natStr n).data = Nat.toDigits 10 n := rfl
  rw [this, Nat.toDigits]
  simpa [digitsText] using h1

theorem digitChar_ne_minus (d : Fin 10) : Nat.digitChar d.val ≠ '-' := by
  revert d; decide

theorem digitChar_injective (a b : Fin 10) (h : Nat.digitChar a.val = Nat.digitChar b.val) :
    a = b := by
  revert a b; decide

theorem digitsText_injective (a b : List (Fin 10)) (h : digitsText a = digitsText b) : a = b := by
  induction a generalizing b with
  | nil => cases b with
    | nil => rfl
    | cons y ys => simp [digitsText] at h
  | cons x xs ih =>
    cases b with
    | nil => simp [digitsText] at h
    | cons y ys =>
      simp only [digitsText, List.map_cons, List.cons.injEq] at h
      rw [digitChar_injective x y h.1, ih ys h.2]

theorem natStr_injective (a b : Nat) (h : natStr a = natStr b) : a = b := by
  obtain ⟨da, ha1, ha2, _⟩ := natStr_digits a
  obtain ⟨db, hb1, hb2, _⟩ := natStr_digits b
  have : digitsText da = digitsText db := by rw [← ha1, ← hb1, h]
  rw [← ha2, ← hb2, digitsText_injective da db this]

theorem natStr_ne_empty (n : Nat) : natStr n ≠ "" := by
  obtain ⟨ds, h1, _, h3⟩ := natStr_digits n
  intro h
  rw [h] at h1
  cases ds with
  | nil => exact h3 rfl
  | cons d ds => simp [digitsText] at h1

theorem fmtInt_ofNat (n : Nat) : fmtInt (Int.ofNat n) = natStr n := rfl

theorem fmtInt_negSucc (n : Nat) : fmtInt (Int.negSucc n) = "-" ++ natStr (n + 1) := rfl

theorem natStr_head (n : Nat) : ∀ c cs, (natStr n).data = c :: cs → c ≠ '-' := by
  intro c cs h
  obtain ⟨ds, h1, _, _⟩ := natStr_digits n
  rw [h1] at h
  cases ds with
  | nil => simp [digitsText] at h
  | cons d ds =>
    simp only [digitsText, List.map_cons, List.cons.injEq] at h
    rw [← h.1]; exact digitChar_ne_minus d

theorem fmtInt_ne_empty (n : Int) : fmtInt n ≠ "" := by
  cases n with
  | ofNat m => rw [fmtInt_ofNat]; exact natStr_ne_empty m
  | negSucc m =>
    rw [fmtInt_negSucc]
    intro h
    have := congrArg String.data h
    simp at this

theorem fmtInt_injective (a b : Int) (h : fmtInt a = fmtInt b) : a = b := by
  cases a with
  | ofNat m =>
    cases b with
    | ofNat k =>
      rw [fmtInt_ofNat, fmtInt_ofNat] at h
      rw [natStr_injective m k h]
    | negSucc k =>
      rw [fmtInt_ofNat, fmtInt_negSucc] at h
      have h2 := congrArg String.data h
      simp only [String.data_append] at h2
      exact absurd rfl (natStr_head m '-' _ h2)
  | negSucc m =>
    cases b with
    | ofNat k =>
      rw [fmtInt_ofNat, fmtInt_negSucc] at h
      have h2 := congrArg String.data h
      simp only [String.data_append] at h2
      exact absurd rfl (natStr_head k '-' _ h2.symm)
    | negSucc k =>
      rw [fmtInt_negSucc, fmtInt_negSucc] at h
      have h2 := congrArg String.data h
      simp only [String.data_append, List.append_cancel_left_eq] at h2
      have h3 : natStr (m + 1) = natStr (k + 1) := String.ext h2
      have := natStr_injective _ _ h3
      have hmk : m = k := by omega
      rw [hmk]

/-! ### Decimal literals: reading back the text of a literal -/

theorem digitOf_digitChar (d : Fin 10) : digitOf (Nat.digitChar d.val) = some d := by
  revert d; decide

theorem digitChar_not_special (d : Fin 10) :
    Nat.digitChar d.val ≠ '.' ∧ Nat.digitChar d.val ≠ '+' ∧ Nat.digitChar d.val ≠ '-' ∧
    Nat.digitChar d.val ≠ 'e' ∧ Nat.digitChar d.val ≠ 'E' := by
  revert d; decide

theorem noDigitHead_nil : NoDigitHead [] := by
  intro c h; simp at h

theorem noDigitHead_cons (c : Char) (cs : List Char) (h : digitOf c = none) :
    NoDigitHead (c :: cs) := by
  intro d hd
  simp only [List.head?_cons, Option.some.injEq] at hd
  rw [← hd]; exact h

theorem spanDigits_digits (ds : List (Fin 10)) (rest : List Char) (h : NoDigitHead rest) :
    spanDigits (digitsText ds ++ rest) = (ds, rest) := by
  induction ds with
  | nil =>
    cases rest with
    | nil => rfl
    | cons c cs =>
      have := h c rfl
      simp [digitsText, spanDigits, this]
  | cons d ds ih =>
    have hd := digitOf_digitChar d
    have e : digitsText (d :: ds) ++ rest = Nat.digitChar d.val :: (digitsText ds ++ rest) := rfl
    rw [e]
    simp only [spanDigits, hd, ih]

theorem digitsText_head (d : Fin 10) (ds : List (Fin 10)) (rest : List Char) :
    (digitsText (d :: ds) ++ rest).head? = some (Nat.digitChar d.val) := by
  simp [digitsText]

theorem signText_digits_head (sign : Option Bool) (ds : List (Fin 10)) (h : ds ≠ []) :
    ((signText sign ++ digitsText ds).head? = some '-' ↔ sign = some true) ∧
    ((signText sign ++ digitsText ds).head? = some '+' ↔ sign = some false) := by
  cases ds with
  | nil => exact absurd rfl h
  | cons d ds =>
    have hs := digitChar_not_special d
    cases sign with
    | none =>
      have hhd : (signText none ++ digitsText (d :: ds)).head? = some (Nat.digitChar d.val) := by
        simp [signText, digitsText]
      rw [hhd]
      simp only [Option.some.injEq, reduceCtorEq, iff_false]
      exact ⟨hs.2.2.1, hs.2.1⟩
    | some b =>
      cases b <;> simp [signText]

theorem parseExponent_text (e : Exponent) (h : e.digits ≠ []) :
    parseExponent e.text = some e := by
  obtain ⟨upper, sign, digits⟩ := e
  simp only at h
  have hh := signText_digits_head sign digits h
  have hletter : ((if upper = true then 'E' else 'e') = 'e' ∨
      (if upper = true then 'E' else 'e') = 'E') := by
    cases upper <;> simp
  have hup : decide ((if upper = true then 'E' else 'e') = 'E') = upper := by
    cases upper <;> decide
  have hsign : (if (signText sign ++ digitsText digits).head? = some '-' then some true
      else if (signText sign ++ digitsText digits).head? = some '+' then some false
      else none) = sign := by
    cases sign with
    | none =>
      have h1 : ¬ (signText none ++ digitsText digits).head? = some '-' := by rw [hh.1]; simp
      have h2 : ¬ (signText none ++ digitsText digits).head? = some '+' := by rw [hh.2]; simp
      rw [if_neg h1, if_neg h2]
    | some b =>
      cases b with
      | true => rw [if_pos (hh.1.2 rfl)]
      | false =>
        have h1 : ¬ (signText (some false) ++ digitsText digits).head? = some '-' := by
          rw [hh.1]; simp
        rw [if_neg h1, if_pos (hh.2.2 rfl)]
  have hrest : (if sign = none then signText sign ++ digitsText digits
      else (signText sign ++ digitsText digits).drop 1) = digitsText digits ++ [] := by
    cases sign with
    | none => simp [signText]
    | some b => cases b <;> simp [signText]
  simp only [parseExponent, Exponent.text, hletter, if_true, hup, hsign, hrest,
    spanDigits_digits digits [] noDigitHead_nil]
  simp [h]

theorem expoText_noDigitHead (expo : Option Exponent) : NoDigitHead (expoText expo) := by
  cases expo with
  | none => exact noDigitHead_nil
  | some e =>
    obtain ⟨upper, sign, digits⟩ := e
    apply noDigitHead_cons
    cases upper
    · exact (by decide : digitOf 'e' = none)
    · exact (by decide : digitOf 'E' = none)

theorem expoText_head (expo : Option Exponent) : (expoText expo).head? ≠ some '.' := by
  cases expo with
  | none => simp [expoText]
  | some e =>
    obtain ⟨upper, sign, digits⟩ := e
    cases upper <;> simp [expoText, Exponent.text]

theorem parseExponent_expoText (e : Exponent) (h : e.digits ≠ []) :
    parseExponent (expoText (some e)) = some e := parseExponent_text e h

theorem exponent_text_ne_nil (e : Exponent) : e.text ≠ [] := by
  simp [Exponent.text]

theorem parseTail_text (neg : Bool) (int : List (Fin 10)) (frac : Option (List (Fin 10)))
    (expo : Option Exponent) (hf : ∀ f, frac = some f → f ≠ [])
    (he : ∀ e, expo = some e → e.digits ≠ []) :
    parseTail neg int (fracText frac ++ expoText expo) = some ⟨neg, int, frac, expo⟩ := by
  cases frac with
  | none =>
    simp only [fracText, List.nil_append]
    cases expo with
    | none => simp [parseTail, expoText]
    | some e =>
      have h1 : expoText (some e) ≠ [] := exponent_text_ne_nil e
      have h2 := expoText_head (some e)
      simp only [parseTail, h1, h2, if_false, parseExponent_expoText e (he e rfl), Option.map_some']
  | some f =>
    have hfne := hf f rfl
    have hsp := spanDigits_digits f (expoText expo) (expoText_noDigitHead expo)
    simp only [parseTail, fracText, List.cons_append, reduceCtorEq, if_false, List.head?_cons,
      if_true, List.drop_succ_cons, List.drop_zero, hsp, hfne]
    cases expo with
    | none => simp [expoText]
    | some e =>
      have h1 : expoText (some e) ≠ [] := exponent_text_ne_nil e
      simp only [h1, if_false, parseExponent_expoText e (he e rfl), Option.map_some']

theorem wellFormed_iff (l : Literal) :
    l.wellFormed = true ↔
      l.int ≠ [] ∧ (∀ f, l.frac = some f → f ≠ []) ∧ (∀ e, l.expo = some e → e.digits ≠ []) := by
  obtain ⟨neg, int, frac, expo⟩ := l
  cases frac <;> cases expo <;>
    simp [Literal.wellFormed, List.isEmpty_iff, and_assoc]

theorem literal_text_eq (l : Literal) :
    l.text = (if l.neg then [ '-'] else []) ++ (digitsText l.int ++
      (fracText l.frac ++ expoText l.expo)) := by
  simp [Literal.text, List.append_assoc]

theorem tail_noDigitHead (frac : Option (List (Fin 10))) (expo : Option Exponent) :
    NoDigitHead (fracText frac ++ expoText expo) := by
  cases frac with
  | none => simpa [fracText] using expoText_noDigitHead expo
  | some f => exact noDigitHead_cons _ _ (by decide)

theorem parseLiteral_minus (s : List Char) :
    parseLiteral ('-' :: s) =
      if (spanDigits s).1 = [] then none else parseTail true (spanDigits s).1 (spanDigits s).2 := by
  simp [parseLiteral]

theorem parseLiteral_plain (s : List Char) (h : s.head? ≠ some '-') :
    parseLiteral s =
      if (spanDigits s).1 = [] then none else parseTail false (spanDigits s).1 (spanDigits s).2 := by
  simp [parseLiteral, h]

/-- The text of a well-formed literal reads back as the literal. -/
theorem parseLiteral_text (l : Literal) (h : l.wellFormed = true) :
    parseLiteral l.text = some l := by
  obtain ⟨hint, hf, he⟩ := (wellFormed_iff l).1 h
  rw [literal_text_eq]
  obtain ⟨neg, int, frac, expo⟩ := l
  simp only at hint hf he ⊢
  cases int with
  | nil => exact absurd rfl hint
  | cons d ds =>
    have hsp := spanDigits_digits (d :: ds) _ (tail_noDigitHead frac expo)
    have hpt := parseTail_text
    cases neg with
    | true =>
      simp only [if_true, List.singleton_append]
      rw [parseLiteral_minus, hsp]
      simp only [reduceCtorEq, if_false]
      exact hpt true (d :: ds) frac expo hf he
    | false =>
      simp only [Bool.false_eq_true, if_false, List.nil_append]
      rw [parseLiteral_plain _ (by
        rw [digitsText_head]
        simp only [ne_eq, Option.some.injEq]
        exact (digitChar_not_special d).2.2.1), hsp]
      simp only [reduceCtorEq, if_false]
      exact hpt false (d :: ds) frac expo hf he

/-! ### Decoding the text of a literal -/

theorem takeWhile_dropWhile_append (p : Char → Bool) (m e : List Char)
    (hm : ∀ c ∈ m, p c = true) (he : ∀ c, e.head? = some c → p c = false) :
    (m ++ e).takeWhile p = m ∧ (m ++ e).dropWhile p = e := by
  induction m with
  | nil =>
    cases e with
    | nil => simp
    | cons c cs =>
      have := he c rfl
      simp [List.takeWhile, List.dropWhile, this]
  | cons x xs ih =>
    have hx := hm x (List.mem_cons_self _ _)
    have := ih (fun c hc => hm c (List.mem_cons_of_mem _ hc))
    simp [List.takeWhile, List.dropWhile, hx, this.1, this.2]

theorem parseDigitsAux_digits (ds : List (Fin 10)) : ∀ acc : Nat,
    parseDigitsAux acc (digitsText ds) = some (acc * 10 ^ ds.length + digitsValue ds) := by
  induction ds with
  | nil => intro acc; simp [parseDigitsAux, digitsText, digitsValue]
  | cons d ds ih =>
    intro acc
    have e : digitsText (d :: ds) = Nat.digitChar d.val :: digitsText ds := rfl
    have hv : digitsValue (d :: ds) = d.val * 10 ^ ds.length + digitsValue ds := by
      have := digitsValue_append [d] ds
      simpa [digitsValue_singleton] using this
    rw [e]
    simp only [parseDigitsAux, digitOf_digitChar, ih, hv, List.length_cons, pow_succ]
    congr 1
    ring

theorem parseDigits_digits (ds : List (Fin 10)) (h : ds ≠ []) :
    parseDigits (digitsText ds) = some (digitsValue ds) := by
  have hne : digitsText ds ≠ [] := by
    cases ds with
    | nil => exact absurd rfl h
    | cons d ds => simp [digitsText]
  simp [parseDigits, hne, parseDigitsAux_digits]

theorem parseSigned_signText (sign : Option Bool) (ds : List (Fin 10)) (h : ds ≠ []) :
    parseSigned (signText sign ++ digitsText ds) =
      some (match sign with
        | some true => -(Int.ofNat (digitsValue ds))
        | _ => Int.ofNat (digitsValue ds)) := by
  have hh := signText_digits_head sign ds h
  unfold parseSigned
  cases sign with
  | none =>
    have h1 : ¬ (signText none ++ digitsText ds).head? = some '-' := by rw [hh.1]; simp
    have h2 : ¬ (signText none ++ digitsText ds).head? = some '+' := by rw [hh.2]; simp
    rw [if_neg h2, if_neg h1]
    simp [signText, parseDigits_digits ds h]
  | some b =>
    cases b with
    | true =>
      have h2 : ¬ (signText (some true) ++ digitsText ds).head? = some '+' := by
        rw [hh.2]; simp
      rw [if_neg h2, if_pos (hh.1.2 rfl)]
      simp [signText, parseDigits_digits ds h]
    | false =>
      rw [if_pos (hh.2.2 rfl)]
      simp [signText, parseDigits_digits ds h]

theorem negText_eq_signText (neg : Bool) :
    negText neg = signText (if neg then some true else none) := by
  cases neg <;> rfl

theorem mem_digitsText (ds : List (Fin 10)) (c : Char) (h : c ∈ digitsText ds) :
    ∃ d : Fin 10, c = Nat.digitChar d.val := by
  simp only [digitsText, List.mem_map] at h
  obtain ⟨d, _, hd⟩ := h
  exact ⟨d, hd.symm⟩

theorem digitChar_not_isE (d : Fin 10) : isE (Nat.digitChar d.val) = false := by
  revert d; decide

theorem mantissa_not_isE (neg : Bool) (int : List (Fin 10)) (frac : Option (List (Fin 10))) :
    ∀ c ∈ negText neg ++ digitsText int ++ fracText frac, (!isE c) = true := by
  intro c hc
  simp only [List.mem_append] at hc
  rcases hc with (hc | hc) | hc
  · cases neg
    · simp [negText] at hc
    · simp only [negText, if_true, List.mem_singleton] at hc
      rw [hc]; decide
  · obtain ⟨d, hd⟩ := mem_digitsText int c hc
    rw [hd, digitChar_not_isE]; rfl
  · cases frac with
    | none => simp [fracText] at hc
    | some f =>
      simp only [fracText, List.mem_cons] at hc
      rcases hc with hc | hc
      · rw [hc]; decide
      · obtain ⟨d, hd⟩ := mem_digitsText f c hc
        rw [hd, digitChar_not_isE]; rfl

theorem expoText_head_isE (expo : Option Exponent) :
    ∀ c, (expoText expo).head? = some c → (!isE c) = false := by
  intro c hc
  cases expo with
  | none => simp [expoText] at hc
  | some e =>
    obtain ⟨upper, sign, digits⟩ := e
    simp only [expoText, Exponent.text, List.head?_cons, Option.some.injEq] at hc
    rw [← hc]
    cases upper
    · exact (by decide : (!isE 'e') = false)
    · exact (by decide : (!isE 'E') = false)

theorem count_point_digits (ds : List (Fin 10)) : (digitsText ds).count '.' = 0 := by
  rw [List.count_eq_zero]
  intro h
  obtain ⟨d, hd⟩ := mem_digitsText ds _ h
  exact (digitChar_not_special d).1 hd.symm

theorem count_point_mantissa (neg : Bool) (int : List (Fin 10))
    (frac : Option (List (Fin 10))) :
    (negText neg ++ digitsText int ++ fracText frac).count '.' ≤ 1 := by
  have h1 : (negText neg).count '.' = 0 := by cases neg <;> decide
  rw [List.count_append, List.count_append, h1, count_point_digits]
  cases frac with
  | none => simp [fracText]
  | some f => simp [fracText, List.count_cons, count_point_digits]

theorem split_at_point (neg : Bool) (int : List (Fin 10)) (frac : Option (List (Fin 10))) :
    (negText neg ++ digitsText int ++ fracText frac).takeWhile (fun c => c ≠ '.') =
      negText neg ++ digitsText int ∧
    ((negText neg ++ digitsText int ++ fracText frac).dropWhile (fun c => c ≠ '.')).drop 1 =
      digitsText (frac.getD []) := by
  have h := takeWhile_dropWhile_append (fun c => decide (c ≠ '.'))
    (negText neg ++ digitsText int) (fracText frac)
    (by
      intro c hc
      simp only [List.mem_append] at hc
      rcases hc with hc | hc
      · cases neg
        · simp [negText] at hc
        · simp only [negText, if_true, List.mem_singleton] at hc
          rw [hc]; decide
      · obtain ⟨d, hd⟩ := mem_digitsText int c hc
        simp only [hd, ne_eq, decide_not, Bool.not_eq_true', decide_eq_false_iff_not]
        exact (digitChar_not_special d).1)
    (by
      intro c hc
      cases frac with
      | none => simp [fracText] at hc
      | some f =>
        simp only [fracText, List.head?_cons, Option.some.injEq] at hc
        rw [← hc]; decide)
  refine ⟨h.1, ?_⟩
  rw [h.2]
  cases frac with
  | none => simp [fracText, digitsText]
  | some f => simp [fracText]

theorem parseSigned_mantissa (neg : Bool) (ds : List (Fin 10)) (h : ds ≠ []) :
    parseSigned (negText neg ++ digitsText ds) =
      some (if neg then -(Int.ofNat (digitsValue ds)) else Int.ofNat (digitsValue ds)) := by
  rw [negText_eq_signText, parseSigned_signText _ ds h]
  cases neg <;> rfl

theorem digitsText_append (a b : List (Fin 10)) :
    digitsText (a ++ b) = digitsText a ++ digitsText b := by
  simp [digitsText]

theorem inRange_iff (l : Literal) :
    l.inRange = true ↔ -2 ^ 31 ≤ l.exponent - l.fracDigits.length ∧ -2 ^ 31 ≤ l.exponent ∧
      l.exponent ≤ 2 ^ 31 - 1 := by
  simp [Literal.inRange, and_assoc]

theorem NewFromString_text (l : Literal) (hw : l.wellFormed = true) (hr : l.inRange = true) :
    NewFromString (String.mk l.text) = some l.decoded := by
  obtain ⟨hint, hf, he⟩ := (wellFormed_iff l).1 hw
  obtain ⟨hr1, hr2, hr3⟩ := (inRange_iff l).1 hr
  have htext : l.text = (negText l.neg ++ digitsText l.int ++ fracText l.frac) ++ expoText l.expo := by
    simp [Literal.text, negText]
  have hsplit := takeWhile_dropWhile_append (fun c => !isE c)
    (negText l.neg ++ digitsText l.int ++ fracText l.frac) (expoText l.expo)
    (mantissa_not_isE l.neg l.int l.frac) (expoText_head_isE l.expo)
  have hpoint := split_at_point l.neg l.int l.frac
  have hcount := count_point_mantissa l.neg l.int l.frac
  have hexp : (match expoText l.expo with
      | [] => some 0
      | _ :: es =>
        (parseSigned es).bind
          (fun x => if -2 ^ 31 ≤ x ∧ x ≤ 2 ^ 31 - 1 then some x else none)) = some l.exponent := by
    cases hexpo : l.expo with
    | none => simp [expoText, Literal.exponent, hexpo]
    | some e =>
      have hd := he e hexpo
      simp only [Literal.exponent, hexpo] at hr2 hr3
      simp only [expoText, Exponent.text, parseSigned_signText e.sign e.digits hd,
        Literal.exponent, hexpo]
      have : (match e.sign with
        | some true => -(Int.ofNat (digitsValue e.digits))
        | _ => Int.ofNat (digitsValue e.digits)) = e.value := by
        unfold Exponent.value
        rfl
      rw [this]
      show (if -2 ^ 31 ≤ e.value ∧ e.value ≤ 2 ^ 31 - 1 then some e.value else none) = _
      rw [if_pos ⟨hr2, hr3⟩]
  have hint2 : l.int ++ l.fracDigits ≠ [] := by
    intro h
    exact hint (List.append_eq_nil.1 h).1
  unfold NewFromString
  simp only [htext, hsplit.1, hsplit.2, hexp, hpoint.1, hpoint.2]
  rw [if_neg (by omega)]
  have hstr : negText l.neg ++ digitsText l.int ++ digitsText (l.frac.getD []) =
      negText l.neg ++ digitsText (l.int ++ l.fracDigits) := by
    simp [digitsText_append, Literal.fracDigits]
  rw [hstr, parseSigned_mantissa l.neg _ hint2]
  simp only
  have hlen : (digitsText (l.frac.getD [])).length = l.fracDigits.length := by
    simp [digitsText, Literal.fracDigits]
  rw [hlen]
  have hlen0 : (0 : Int) ≤ l.fracDigits.length := Int.natCast_nonneg _
  rw [if_neg (by omega)]
  rfl

/-! ### What the written text of a decimal denotes -/

theorem decoded_toRat (l : Literal) : l.decoded.toRat = l.value := by
  unfold Decimal.toRat Literal.decoded Literal.value
  simp only
  have hV : digitsValue (l.int ++ l.fracDigits) =
      digitsValue l.int * 10 ^ l.fracDigits.length + digitsValue l.fracDigits :=
    digitsValue_append _ _
  have h10 : (10 : ℚ) ≠ 0 := by norm_num
  rw [zpow_sub₀ h10, zpow_natCast, hV]
  have hp : (10 : ℚ) ^ l.fracDigits.length ≠ 0 := pow_ne_zero _ h10
  cases l.neg
  · simp only [Bool.false_eq_true, if_false, Int.ofNat_eq_coe, Int.cast_natCast, Nat.cast_add,
      Nat.cast_mul, Nat.cast_pow, Nat.cast_ofNat]
    field_simp
  · simp only [if_true, Int.ofNat_eq_coe, Int.cast_neg, Int.cast_natCast, Nat.cast_add,
      Nat.cast_mul, Nat.cast_pow, Nat.cast_ofNat]
    field_simp

theorem numeralValue_text (l : Literal) (h : l.wellFormed = true) :
    numeralValue (String.mk l.text) = some l.value := by
  simp [numeralValue, parseLiteral_text l h]

theorem fmtInt_literal (n : Int) :
    ∃ l : Literal, l.wellFormed = true ∧ String.mk l.text = fmtInt n ∧ l.value = (n : ℚ) := by
  cases n with
  | ofNat m =>
    obtain ⟨ds, h1, h2, h3⟩ := natStr_digits m
    refine ⟨⟨false, ds, none, none⟩, ?_, ?_, ?_⟩
    · rw [wellFormed_iff]; exact ⟨h3, by simp, by simp⟩
    · rw [fmtInt_ofNat]
      apply String.ext
      simp [Literal.text, fracText, expoText, h1]
    · simp [Literal.value, Literal.fracDigits, Literal.exponent, digitsValue, h2]
      rw [← h2]; rfl
  | negSucc m =>
    obtain ⟨ds, h1, h2, h3⟩ := natStr_digits (m + 1)
    refine ⟨⟨true, ds, none, none⟩, ?_, ?_, ?_⟩
    · rw [wellFormed_iff]; exact ⟨h3, by simp, by simp⟩
    · rw [fmtInt_negSucc]
      apply String.ext
      simp [Literal.text, fracText, expoText, h1]
    · have : digitsValue ds = m + 1 := h2
      simp [Literal.value, Literal.fracDigits, Literal.exponent, this, Int.negSucc_eq]
      rfl

theorem digitChar_eq_zero (d : Fin 10) : Nat.digitChar d.val = '0' ↔ d = 0 := by
  revert d; decide

theorem dropZeros_digits : ∀ r : List (Fin 10),
    ∃ r2 : List (Fin 10), dropZeros (digitsText r) = digitsText r2 ∧
      (digitsValue r2.reverse : ℚ) / 10 ^ r2.length = (digitsValue r.reverse : ℚ) / 10 ^ r.length := by
  intro r
  induction r with
  | nil => exact ⟨[], rfl, rfl⟩
  | cons d r ih =>
    by_cases hd : d = 0
    · obtain ⟨r2, h1, h2⟩ := ih
      refine ⟨r2, ?_, ?_⟩
      · have : digitsText (d :: r) = '0' :: digitsText r := by
          rw [hd]; rfl
        rw [this]
        simp only [dropZeros, if_true]
        exact h1
      · rw [h2, List.reverse_cons, digitsValue_append, digitsValue_singleton, hd]
        have h10 : (10 : ℚ) ≠ 0 := by norm_num
        simp only [List.length_singleton, pow_one, Fin.val_zero, add_zero, Nat.cast_mul,
          Nat.cast_ofNat, List.length_cons, pow_succ]
        field_simp
        ring
    · refine ⟨d :: r, ?_, rfl⟩
      have hne : Nat.digitChar d.val ≠ '0' := fun h => hd ((digitChar_eq_zero d).1 h)
      have : digitsText (d :: r) = Nat.digitChar d.val :: digitsText r := rfl
      rw [this]
      simp only [dropZeros, hne, if_false]

theorem trimTrailingZeros_digits (fp : List (Fin 10)) :
    ∃ t : List (Fin 10), trimTrailingZeros (digitsText fp) = digitsText t ∧
      (digitsValue t : ℚ) / 10 ^ t.length = (digitsValue fp : ℚ) / 10 ^ fp.length := by
  obtain ⟨r2, h1, h2⟩ := dropZeros_digits fp.reverse
  refine ⟨r2.reverse, ?_, ?_⟩
  · unfold trimTrailingZeros
    have : (digitsText fp).reverse = digitsText fp.reverse := by simp [digitsText]
    rw [this, h1]
    simp [digitsText]
  · simpa using h2

theorem digitsValue_replicate_zero (n : Nat) : digitsValue (List.replicate n (0 : Fin 10)) = 0 := by
  induction n with
  | zero => rfl
  | succ n ih =>
    rw [List.replicate_succ']
    rw [digitsValue_append, ih, digitsValue_singleton]
    simp

/-- The integer part and the fractional part of `Decimal.string` as digits. -/
theorem parts_digits (ds : List (Fin 10)) (k : Nat) :
    ∃ ip fp : List (Fin 10), ip ≠ [] ∧ fp.length = k ∧
      intPart (digitsText ds) k = digitsText ip ∧
      fractionalPart (digitsText ds) k = digitsText fp ∧
      digitsValue ip * 10 ^ k + digitsValue fp = digitsValue ds := by
  have hlen : (digitsText ds).length = ds.length := by simp [digitsText]
  by_cases hk : k < ds.length
  · refine ⟨ds.take (ds.length - k), ds.drop (ds.length - k), ?_, ?_, ?_, ?_, ?_⟩
    · intro h
      have := congrArg List.length h
      simp only [List.length_take, List.length_nil] at this
      omega
    · simp only [List.length_drop]; omega
    · simp [intPart, hlen, hk, digitsText, List.map_take]
    · simp [fractionalPart, hlen, hk, digitsText, List.map_drop]
    · have h1 := digitsValue_append (ds.take (ds.length - k)) (ds.drop (ds.length - k))
      rw [List.take_append_drop] at h1
      have h2 : (ds.drop (ds.length - k)).length = k := by
        simp only [List.length_drop]; omega
      rw [h2] at h1
      exact h1.symm
  · refine ⟨[0], List.replicate (k - ds.length) 0 ++ ds, by simp, ?_, ?_, ?_, ?_⟩
    · simp only [List.length_append, List.length_replicate]; omega
    · simp only [intPart, hlen, hk, if_false]; rfl
    · rw [fractionalPart, hlen, if_neg hk]
      simp only [digitsText, List.map_append, List.map_replicate]
      rfl
    · rw [digitsValue_append, digitsValue_replicate_zero, digitsValue_singleton]
      simp

theorem decimalNumber_literal (neg : Bool) (ds : List (Fin 10)) (k : Nat) :
    ∃ l : Literal, l.wellFormed = true ∧ l.neg = neg ∧
      l.text = negText neg ++ decimalNumber (digitsText ds) k ∧
      l.value = (if neg then -1 else 1) * ((digitsValue ds : ℚ) / 10 ^ k) := by
  obtain ⟨ip, fp, hip, hfp, h1, h2, h3⟩ := parts_digits ds k
  obtain ⟨t, ht1, ht2⟩ := trimTrailingZeros_digits fp
  have h10 : (10 : ℚ) ≠ 0 := by norm_num
  have hval : ((digitsValue ip : ℚ) + (digitsValue t : ℚ) / 10 ^ t.length) =
      (digitsValue ds : ℚ) / 10 ^ k := by
    rw [ht2, hfp, ← h3]
    push_cast
    field_simp
  have htlen : (digitsText t).length = t.length := by simp [digitsText]
  by_cases hte : t = []
  · refine ⟨⟨neg, ip, none, none⟩, ?_, rfl, ?_, ?_⟩
    · rw [wellFormed_iff]; exact ⟨hip, by simp, by simp⟩
    · have e0 : (digitsText ([] : List (Fin 10))).length = 0 := rfl
      simp only [decimalNumber, h2, ht1, hte, e0, lt_self_iff_false, if_false, h1]
      simp [Literal.text, fracText, expoText, negText]
    · have := hval
      rw [hte] at this
      simp only [digitsValue, List.foldl_nil, Nat.cast_zero, List.length_nil, pow_zero,
        div_one, add_zero] at this
      simp only [Literal.value, Literal.fracDigits, Literal.exponent, Option.getD_none,
        List.length_nil, pow_zero, div_one, zpow_zero, mul_one]
      simp only [digitsValue, List.foldl_nil, Nat.cast_zero, add_zero]
      rw [← this]
  · refine ⟨⟨neg, ip, some t, none⟩, ?_, rfl, ?_, ?_⟩
    · rw [wellFormed_iff]
      refine ⟨hip, ?_, by simp⟩
      intro f hf
      simp only [Option.some.injEq] at hf
      rw [← hf]; exact hte
    · have hpos : 0 < t.length := List.length_pos.2 hte
      simp only [decimalNumber, h2, ht1, htlen, hpos, if_true, h1]
      simp [Literal.text, fracText, expoText, negText]
    · simp only [Literal.value, Literal.fracDigits, Literal.exponent, Option.getD_some,
        zpow_zero, mul_one]
      rw [hval]

/-- The text `Decimal.String()` writes is the text of a well-formed literal that denotes
the number of the decimal. -/
theorem Decimal_String_literal (d : Decimal) :
    ∃ l : Literal, l.wellFormed = true ∧ String.mk l.text = d.String ∧ l.value = d.toRat := by
  unfold Decimal.String
  split
  · rename_i hexp
    obtain ⟨l, hw, ht, hv⟩ := fmtInt_literal (d.value * 10 ^ d.exp.toNat)
    refine ⟨l, hw, ht, ?_⟩
    rw [hv]
    unfold Decimal.toRat
    have : ((10 : ℚ) ^ d.exp) = (10 : ℚ) ^ d.exp.toNat := by
      rw [← zpow_natCast, Int.toNat_of_nonneg hexp]
    rw [this]
    push_cast
    rfl
  · rename_i hexp
    obtain ⟨ds, h1, h2, h3⟩ := natStr_digits d.value.natAbs
    obtain ⟨l, hw, hn, ht, hv⟩ :=
      decimalNumber_literal (decide (d.value < 0)) ds (-d.exp).toNat
    have htext : String.mk l.text = (String.mk (if d.value < 0 then
        '-' :: decimalNumber (natStr d.value.natAbs).data (-d.exp).toNat
        else decimalNumber (natStr d.value.natAbs).data (-d.exp).toNat)) := by
      rw [ht, h1]
      by_cases hneg : d.value < 0 <;> simp [negText, hneg]
    refine ⟨l, hw, htext, ?_⟩
    rw [hv, h2]
    unfold Decimal.toRat
    have h10 : (10 : ℚ) ≠ 0 := by norm_num
    have hk : ((10 : ℚ) ^ d.exp) = 1 / (10 : ℚ) ^ (-d.exp).toNat := by
      rw [← zpow_natCast, Int.toNat_of_nonneg (by omega), zpow_neg]
      simp
    rw [hk]
    by_cases hneg : d.value < 0
    · have h := Int.ofNat_natAbs_of_nonpos (le_of_lt hneg)
      have hq : (d.value : ℚ) = -((d.value.natAbs : ℕ) : ℚ) := by
        have h4 : d.value = -((d.value.natAbs : ℕ) : ℤ) := by rw [h]; ring
        calc (d.value : ℚ) = ((-((d.value.natAbs : ℕ) : ℤ) : ℤ) : ℚ) :=
              congrArg (fun z : ℤ => (z : ℚ)) h4
          _ = -((d.value.natAbs : ℕ) : ℚ) := by rw [Int.cast_neg, Int.cast_natCast]
      rw [hq]
      simp only [hneg, decide_True, if_true]
      ring
    · have h := Int.natAbs_of_nonneg (le_of_not_lt hneg)
      have hq : (d.value : ℚ) = ((d.value.natAbs : ℕ) : ℚ) := by
        calc (d.value : ℚ) = ((((d.value.natAbs : ℕ) : ℤ) : ℤ) : ℚ) :=
              congrArg (fun z : ℤ => (z : ℚ)) h.symm
          _ = ((d.value.natAbs : ℕ) : ℚ) := by rw [Int.cast_natCast]
      rw [hq]
      simp only [hneg, decide_False, Bool.false_eq_true, if_false]
      ring

/-- The text `Decimal.String()` writes denotes the number of the decimal. -/
theorem numeralValue_String (d : Decimal) : numeralValue d.String = some d.toRat := by
  obtain ⟨l, hw, ht, hv⟩ := Decimal_String_literal d
  rw [← ht, numeralValue_text l hw, hv]

theorem sampleFeeLiteral_value : sampleFeeLiteral.value = 1234 / 100000000 := by
  have h1 : digitsValue [0, 0, 0, 0, 1, 2, 3, 4] = 1234 := by decide
  have h2 : digitsValue [0] = 0 := by decide
  simp only [sampleFeeLiteral, Literal.value, Literal.fracDigits, Literal.exponent,
    Option.getD_some, h1, h2]
  norm_num

/-! ### The absent-value convention -/

theorem intPart_ne_nil (str : List Char) (k : Nat) : intPart str k ≠ [] := by
  unfold intPart
  split
  · intro h3
    have := congrArg List.length h3
    simp only [List.length_take, List.length_nil] at this
    omega
  · simp

theorem decimalNumber_ne_nil (str : List Char) (k : Nat) : decimalNumber str k ≠ [] := by
  unfold decimalNumber
  simp only
  split
  · intro h
    simp only [List.append_assoc, List.append_eq_nil] at h
    exact intPart_ne_nil str k h.1
  · exact intPart_ne_nil str k

theorem Decimal_String_ne_empty (d : Decimal) : d.String ≠ "" := by
  unfold Decimal.String
  split
  · exact fmtInt_ne_empty _
  · intro h
    have h2 := congrArg String.data h
    simp only at h2
    split at h2
    · simp at h2
    · exact decimalNumber_ne_nil _ _ h2

/-! ### How the store reads lines of fields -/

theorem readLines_plain_step (o : CsvOptions) (hq : o.quote = Char.ofNat 34) (eol : EolType)
    (cur : List Char) (c : Char) (rest : List Char)
    (hrest : rest ≠ []) (h1 : c ≠ Char.ofNat 34) (h2 : c ≠ Char.ofNat 13)
    (h3 : c ≠ Char.ofNat 10) :
    readLines o eol false false cur (c :: rest) = readLines o eol false false (c :: cur) rest := by
  cases rest with
  | nil => exact absurd rfl hrest
  | cons d rest =>
    rw [readLines]
    simp [hq, h1, h2, h3]

theorem readLines_plain (o : CsvOptions) (hq : o.quote = Char.ofNat 34) (s : List Char)
    (hs : ∀ c ∈ s, c ≠ Char.ofNat 34 ∧ c ≠ Char.ofNat 13 ∧ c ≠ Char.ofNat 10) :
    ∀ (eol : EolType) (cur rest : List Char), rest ≠ [] →
      readLines o eol false false cur (s ++ rest) =
        readLines o eol false false (s.reverse ++ cur) rest := by
  induction s with
  | nil => intro eol cur rest _; rfl
  | cons c s ih =>
    intro eol cur rest hrest
    have hc := hs c (List.mem_cons_self _ _)
    rw [List.cons_append, readLines_plain_step o hq eol cur c (s ++ rest) (by simp [hrest])
      hc.1 hc.2.1 hc.2.2, ih (fun x hx => hs x (List.mem_cons_of_mem _ hx)) eol (c :: cur) rest hrest]
    simp

theorem readLines_newline (o : CsvOptions) (hq : o.quote = Char.ofNat 34) (eol : EolType)
    (heol : eol = EolType.unknown ∨ eol = EolType.nl) (cur : List Char) :
    readLines o eol false false cur [Char.ofNat 10] = some [cur.reverse] := by
  rw [readLines]
  rcases heol with rfl | rfl <;> simp [hq]

theorem readLines_newline_cons (o : CsvOptions) (hq : o.quote = Char.ofNat 34) (eol : EolType)
    (heol : eol = EolType.unknown ∨ eol = EolType.nl) (cur : List Char) (d : Char)
    (rest : List Char) :
    readLines o eol false false cur (Char.ofNat 10 :: d :: rest) =
      (readLines o EolType.nl false false [] (d :: rest)).map (fun ls => cur.reverse :: ls) := by
  rw [readLines]
  rcases heol with rfl | rfl <;> simp [hq]

theorem readLines_escaped (body : List Char) (h : Escaped vinsVoutsOptions body) :
    ∀ (eol : EolType) (cur rest : List Char), rest ≠ [] →
      readLines vinsVoutsOptions eol true false cur (body ++ rest) =
        readLines vinsVoutsOptions eol true false (body.reverse ++ cur) rest := by
  induction h with
  | nil => intro eol cur rest _; rfl
  | single c tl h1 h2 _ ih =>
    intro eol cur rest hrest
    have hne : tl ++ rest ≠ [] := by simp [hrest]
    obtain ⟨d, tl2, htl⟩ := List.exists_cons_of_ne_nil hne
    rw [List.cons_append, htl, readLines]
    have h1x : c ≠ Char.ofNat 34 := h1
    have h2x : c ≠ Char.ofNat 92 := h2
    simp only [vinsVoutsOptions, h1x, h2x, and_false, if_false, false_and, ne_eq,
      not_false_eq_true, if_true, Bool.true_eq_false]
    rw [← htl]
    have := ih eol (c :: cur) rest hrest
    simp only [vinsVoutsOptions] at this
    rw [this]
    simp
  | pair x tl _ ih =>
    intro eol cur rest hrest
    have hne : tl ++ rest ≠ [] := by simp [hrest]
    obtain ⟨d, tl2, htl⟩ := List.exists_cons_of_ne_nil hne
    have hq : (Char.ofNat 92 = Char.ofNat 34) = False := by decide
    have h13 : (Char.ofNat 92 = Char.ofNat 13) = False := by decide
    have h10 : (Char.ofNat 92 = Char.ofNat 10) = False := by decide
    rw [List.cons_append, List.cons_append, htl]
    show readLines vinsVoutsOptions eol true false cur (Char.ofNat 92 :: x :: d :: tl2) = _
    rw [readLines]
    simp only [vinsVoutsOptions, hq, h13, h10, and_true, if_true, Bool.not_false, false_and,
      if_false, ne_eq, not_true_eq_false]
    rw [readLines]
    by_cases hx : x = Char.ofNat 92
    · subst hx
      simp only [hq, h13, h10, and_true, if_true, Bool.not_true, false_and, if_false, ne_eq,
        not_true_eq_false]
      rw [← htl]
      have := ih eol (Char.ofNat 92 :: Char.ofNat 92 :: cur) rest hrest
      simp only [vinsVoutsOptions] at this
      rw [this]
      simp
    · simp only [hx, and_false, if_false, Bool.true_eq_false, ne_eq, not_false_eq_true,
        if_true, false_and]
      rw [← htl]
      have := ih eol (x :: Char.ofNat 92 :: cur) rest hrest
      simp only [vinsVoutsOptions] at this
      rw [this]
      simp

theorem neutral_plain (o : CsvOptions) (hq : o.quote = Char.ofNat 34) (s : List Char)
    (h : Plain s) : Neutral o s := by
  intro eol cur rest hrest
  exact readLines_plain o hq s (fun c hc => (h c hc).2) eol cur rest hrest

theorem neutral_comma (o : CsvOptions) (hq : o.quote = Char.ofNat 34) : Neutral o [ ','] := by
  intro eol cur rest hrest
  exact readLines_plain o hq [ ','] (by intro c hc; simp at hc; subst hc; decide) eol cur rest
    hrest

theorem neutral_append (o : CsvOptions) (a b : List Char) (ha : Neutral o a)
    (hb : Neutral o b) : Neutral o (a ++ b) := by
  intro eol cur rest hrest
  rw [List.append_assoc, ha eol cur (b ++ rest) (by simp [hrest]), hb eol _ rest hrest]
  simp

theorem neutral_quoted (body : List Char) (h : Escaped vinsVoutsOptions body) :
    Neutral vinsVoutsOptions (Char.ofNat 34 :: (body ++ [Char.ofNat 34])) := by
  intro eol cur rest hrest
  have hne : body ++ (Char.ofNat 34 :: rest) ≠ [] := by simp
  obtain ⟨d, tl, htl⟩ := List.exists_cons_of_ne_nil hne
  obtain ⟨d2, tl2, hrest2⟩ := List.exists_cons_of_ne_nil hrest
  have e1 : (Char.ofNat 34 :: (body ++ [Char.ofNat 34])) ++ rest =
      Char.ofNat 34 :: (body ++ (Char.ofNat 34 :: rest)) := by simp
  rw [e1, htl, readLines]
  have open1 : readLines vinsVoutsOptions eol true false (Char.ofNat 34 :: cur) (d :: tl) =
      readLines vinsVoutsOptions eol false false
        ((Char.ofNat 34 :: (body ++ [Char.ofNat 34])).reverse ++ cur) rest := by
    rw [← htl, readLines_escaped body h eol _ (Char.ofNat 34 :: rest) (by simp), hrest2,
      readLines]
    simp [vinsVoutsOptions]
  rw [← open1]
  simp [vinsVoutsOptions]

theorem neutral_fieldOK (f : List Char) (hf : FieldOK f) : Neutral vinsVoutsOptions f := by
  rcases hf with hp | ⟨body, hb, rfl⟩
  · exact neutral_plain vinsVoutsOptions rfl f hp
  · exact neutral_quoted body hb

theorem neutral_joinFields (o : CsvOptions) (hq : o.quote = Char.ofNat 34) :
    ∀ fields : List (List Char), (∀ f ∈ fields, Neutral o f) →
      Neutral o (joinFields fields) := by
  intro fields
  induction fields with
  | nil => intro _ eol cur rest _; rfl
  | cons f fs ih =>
    intro h
    cases fs with
    | nil => exact h f (List.mem_cons_self _ _)
    | cons g gs =>
      have hf := h f (List.mem_cons_self _ _)
      have hrest := ih (fun x hx => h x (List.mem_cons_of_mem _ hx))
      have : joinFields (f :: g :: gs) = f ++ ([ ','] ++ joinFields (g :: gs)) := rfl
      rw [this]
      exact neutral_append o _ _ hf (neutral_append o _ _ (neutral_comma o hq) hrest)

/-- Lines that the cutting into lines reads through, each closed by a newline, are read
as these lines. -/
theorem readLines_lines (o : CsvOptions) (hq : o.quote = Char.ofNat 34) :
    ∀ (lines : List (List Char)), (∀ l ∈ lines, Neutral o l) →
    ∀ eol, eol = EolType.unknown ∨ eol = EolType.nl →
      readLines o eol false false [] (lines.map (fun l => l ++ [Char.ofNat 10])).flatten =
        some lines := by
  intro lines
  induction lines with
  | nil => intro _ eol _; simp [readLines]
  | cons l ls ih =>
    intro h eol heol
    have hl := h l (List.mem_cons_self _ _)
    have e1 : ((l :: ls).map (fun l => l ++ [Char.ofNat 10])).flatten =
        l ++ (Char.ofNat 10 :: (ls.map (fun l => l ++ [Char.ofNat 10])).flatten) := by simp
    rw [e1, hl eol [] _ (by simp), List.append_nil]
    cases hrest : (ls.map (fun l => l ++ [Char.ofNat 10])).flatten with
    | nil =>
      have hls : ls = [] := by
        cases ls with
        | nil => rfl
        | cons m ms => simp at hrest
      rw [readLines_newline o hq eol heol, hls]
      simp
    | cons d rest =>
      rw [readLines_newline_cons o hq eol heol, ← hrest,
        ih (fun x hx => h x (List.mem_cons_of_mem _ hx)) EolType.nl (Or.inr rfl)]
      simp

/-! The cutting of a line into fields. -/

theorem readAttributes_plain (o : CsvOptions) (hd : o.delim = ',')
    (hq : o.quote = Char.ofNat 34) (s : List Char)
    (hs : ∀ c ∈ s, c ≠ ',' ∧ c ≠ Char.ofNat 34) :
    ∀ (saw : Bool) (out rest : List Char),
      readAttributes o false saw out (s ++ rest) =
        readAttributes o false saw (s.reverse ++ out) rest := by
  induction s with
  | nil => intro saw out rest; rfl
  | cons c s ih =>
    intro saw out rest
    have hc := hs c (List.mem_cons_self _ _)
    have h1 : c ≠ o.delim := by rw [hd]; exact hc.1
    have h2 : c ≠ o.quote := by rw [hq]; exact hc.2
    rw [List.cons_append]
    conv_lhs => rw [readAttributes]
    rw [if_neg h1, if_neg h2, ih (fun x hx => hs x (List.mem_cons_of_mem _ hx))]
    simp

theorem readAttributes_delim (o : CsvOptions) (hd : o.delim = ',') (saw : Bool)
    (out rest : List Char) :
    readAttributes o false saw out (',' :: rest) =
      (readAttributes o false false [] rest).map (fun fs => endField o saw out :: fs) := by
  conv_lhs => rw [readAttributes]
  rw [if_pos hd.symm]

theorem readAttributes_open (saw : Bool) (out rest : List Char) :
    readAttributes vinsVoutsOptions false saw out (Char.ofNat 34 :: rest) =
      readAttributes vinsVoutsOptions true true out rest := by
  conv_lhs => rw [readAttributes]
  have h1 : ¬ (Char.ofNat 34 = vinsVoutsOptions.delim) := by decide
  have h2 : Char.ofNat 34 = vinsVoutsOptions.quote := rfl
  rw [if_neg h1, if_pos h2]

theorem readAttributes_close (saw : Bool) (out rest : List Char) :
    readAttributes vinsVoutsOptions true saw out (Char.ofNat 34 :: rest) =
      readAttributes vinsVoutsOptions false saw out rest := by
  have h2 : Char.ofNat 34 = vinsVoutsOptions.quote := rfl
  cases rest with
  | nil =>
    conv_lhs => rw [readAttributes]
    rw [if_pos h2]
  | cons n rest =>
    conv_lhs => rw [readAttributes]
    have h1 : ¬ (Char.ofNat 34 = vinsVoutsOptions.escape ∧
        (n = vinsVoutsOptions.escape ∨ n = vinsVoutsOptions.quote)) := by
      intro h; exact absurd h.1 (by decide)
    rw [if_neg h1, if_pos h2]

theorem readAttributes_inside (c : Char) (saw : Bool) (out rest : List Char)
    (hrest : rest ≠ []) (h1 : c ≠ vinsVoutsOptions.quote) (h2 : c ≠ vinsVoutsOptions.escape) :
    readAttributes vinsVoutsOptions true saw out (c :: rest) =
      readAttributes vinsVoutsOptions true saw (c :: out) rest := by
  obtain ⟨n, tl, rfl⟩ := List.exists_cons_of_ne_nil hrest
  conv_lhs => rw [readAttributes]
  have h3 : ¬ (c = vinsVoutsOptions.escape ∧
      (n = vinsVoutsOptions.escape ∨ n = vinsVoutsOptions.quote)) := fun h => h2 h.1
  rw [if_neg h3, if_neg h1]

theorem readAttributes_escaped (body : List Char) (h : Escaped vinsVoutsOptions body) :
    ∃ w, ∀ (saw : Bool) (out rest : List Char),
      readAttributes vinsVoutsOptions true saw out (body ++ Char.ofNat 34 :: rest) =
        readAttributes vinsVoutsOptions false saw (w ++ out) rest := by
  induction h with
  | nil => exact ⟨[], fun saw out rest => readAttributes_close saw out rest⟩
  | single c tl h1 h2 _ ih =>
    obtain ⟨w, hw⟩ := ih
    refine ⟨w ++ [c], fun saw out rest => ?_⟩
    rw [List.cons_append, readAttributes_inside c saw out _ (by simp) h1 h2, hw]
    simp
  | pair x tl _ ih =>
    obtain ⟨w, hw⟩ := ih
    by_cases hx : x = vinsVoutsOptions.escape ∨ x = vinsVoutsOptions.quote
    · refine ⟨w ++ [x], fun saw out rest => ?_⟩
      rw [List.cons_append, List.cons_append]
      conv_lhs => rw [readAttributes]
      rw [if_pos ⟨rfl, hx⟩, hw]
      simp
    · refine ⟨w ++ [x, vinsVoutsOptions.escape], fun saw out rest => ?_⟩
      rw [List.cons_append, List.cons_append]
      conv_lhs => rw [readAttributes]
      have hne : ¬ (vinsVoutsOptions.escape = vinsVoutsOptions.quote) := by decide
      rw [if_neg (fun h => hx h.2), if_neg hne]
      have hx1 : x ≠ vinsVoutsOptions.quote := fun h => hx (Or.inr h)
      have hx2 : x ≠ vinsVoutsOptions.escape := fun h => hx (Or.inl h)
      rw [readAttributes_inside x saw _ _ (by simp) hx1 hx2, hw]
      simp

theorem endField_plain (o : CsvOptions) (hn : o.null = "") (s : List Char) :
    endField o false s.reverse = readBack (String.mk s) := by
  unfold endField readBack
  by_cases h : s = []
  · subst h; simp [hn]
  · have h2 : String.mk s ≠ "" := by
      intro h3
      exact h (congrArg String.data h3)
    simp [hn, h, h2]

/-- A plain text is read as one field, whatever follows it on the line: NULL when it is
empty, else the text. -/
theorem fieldReads_plain (o : CsvOptions) (hd : o.delim = ',') (hq : o.quote = Char.ofNat 34)
    (hn : o.null = "") (f : List Char) (hp : Plain f) :
    FieldReads o f ∧ fieldValue o f = readBack (String.mk f) := by
  have h1 : readAttributes o false false [] f = some [readBack (String.mk f)] := by
    have := readAttributes_plain o hd hq f (fun c hc => ⟨(hp c hc).1, (hp c hc).2.1⟩) false [] []
    simp only [List.append_nil] at this
    rw [this, readAttributes, endField_plain o hn]
  have h2 : fieldValue o f = readBack (String.mk f) := by
    unfold fieldValue
    rw [h1]
  refine ⟨⟨by rw [h2]; exact h1, ?_⟩, h2⟩
  intro rest
  rw [readAttributes_plain o hd hq f (fun c hc => ⟨(hp c hc).1, (hp c hc).2.1⟩) false [] _,
    List.append_nil, readAttributes_delim o hd, endField_plain o hn, h2]

/-- A quoted string is read as one field that is not NULL, whatever follows it on the
line. -/
theorem fieldReads_quoted (body : List Char) (hb : Escaped vinsVoutsOptions body) :
    FieldReads vinsVoutsOptions (Char.ofNat 34 :: (body ++ [Char.ofNat 34])) ∧
    ∃ s, fieldValue vinsVoutsOptions (Char.ofNat 34 :: (body ++ [Char.ofNat 34])) = some s := by
  obtain ⟨w, hw⟩ := readAttributes_escaped body hb
  have h1 : readAttributes vinsVoutsOptions false false []
      (Char.ofNat 34 :: (body ++ [Char.ofNat 34])) = some [endField vinsVoutsOptions true w] := by
    rw [readAttributes_open, hw, List.append_nil, readAttributes]
  have h2 : fieldValue vinsVoutsOptions (Char.ofNat 34 :: (body ++ [Char.ofNat 34])) =
      endField vinsVoutsOptions true w := by
    unfold fieldValue
    rw [h1]
  refine ⟨⟨by rw [h2]; exact h1, ?_⟩, ⟨String.mk w.reverse, by rw [h2]; simp [endField]⟩⟩
  intro rest
  have e1 : (Char.ofNat 34 :: (body ++ [Char.ofNat 34])) ++ ',' :: rest =
      Char.ofNat 34 :: (body ++ Char.ofNat 34 :: ',' :: rest) := by simp
  rw [e1, readAttributes_open, hw, List.append_nil, readAttributes_delim vinsVoutsOptions rfl, h2]

theorem fieldReads_fieldOK (f : List Char) (hf : FieldOK f) : FieldReads vinsVoutsOptions f := by
  rcases hf with hp | ⟨body, hb, rfl⟩
  · exact (fieldReads_plain vinsVoutsOptions rfl rfl rfl f hp).1
  · exact (fieldReads_quoted body hb).1

theorem readAttributes_joinFields (o : CsvOptions) : ∀ fields : List (List Char), fields ≠ [] →
    (∀ f ∈ fields, FieldReads o f) →
    readAttributes o false false [] (joinFields fields) = some (fields.map (fieldValue o)) := by
  intro fields
  induction fields with
  | nil => intro h; exact absurd rfl h
  | cons f fs ih =>
    intro _ hall
    obtain ⟨hv2, hv3⟩ := hall f (List.mem_cons_self _ _)
    cases fs with
    | nil => exact hv2
    | cons g gs =>
      have h1 := ih (by simp) (fun x hx => hall x (List.mem_cons_of_mem _ hx))
      have : joinFields (f :: g :: gs) = f ++ ',' :: joinFields (g :: gs) := rfl
      rw [this, hv3, h1]
      rfl

theorem readAllAttributes_lines (o : CsvOptions) (vals : List Char → List (Option String)) :
    ∀ lines : List (List Char),
      (∀ l ∈ lines, readAttributes o false false [] l = some (vals l)) →
      readAllAttributes o lines = some (lines.map vals) := by
  intro lines
  induction lines with
  | nil => intro _; rfl
  | cons l ls ih =>
    intro h
    rw [readAllAttributes, h l (List.mem_cons_self _ _),
      ih (fun x hx => h x (List.mem_cons_of_mem _ hx))]
    rfl

theorem intercalate_go_data (sep : String) : ∀ (fs : List String) (acc : String),
    (String.intercalate.go acc sep fs).data =
      acc.data ++ (fs.map (fun f => sep.data ++ f.data)).flatten := by
  intro fs
  induction fs with
  | nil => intro acc; simp [String.intercalate.go]
  | cons f fs ih =>
    intro acc
    simp [String.intercalate.go, ih, List.append_assoc]

theorem joinFields_cons (f : List Char) (fs : List (List Char)) :
    joinFields (f :: fs) = f ++ (fs.map (fun g => ',' :: g)).flatten := by
  induction fs generalizing f with
  | nil => simp [joinFields]
  | cons g gs ih =>
    have : joinFields (f :: g :: gs) = f ++ ',' :: joinFields (g :: gs) := rfl
    rw [this, ih g]
    simp

theorem csvLine_data (fields : List String) :
    (csvLine fields).data = joinFields (fields.map String.data) ++ [Char.ofNat 10] := by
  cases fields with
  | nil => rfl
  | cons f fs =>
    have h1 : (csvLine (f :: fs)).data =
        (String.intercalate.go f "," fs).data ++ [Char.ofNat 10] := by
      simp [csvLine, String.intercalate]
    rw [h1, intercalate_go_data, List.map_cons, joinFields_cons]
    congr 2
    simp [List.map_map, Function.comp_def]

theorem foldl_append_data : ∀ (l : List String) (acc : String),
    (l.foldl (fun r s => r ++ s) acc).data = acc.data ++ (l.map String.data).flatten := by
  intro l
  induction l with
  | nil => intro acc; simp
  | cons s l ih => intro acc; simp [ih, List.append_assoc]

theorem join_data (l : List String) : (String.join l).data = (l.map String.data).flatten := by
  unfold String.join
  rw [foldl_append_data]
  rfl

/-- Lines of fields, each field one the store reads as one field, are read by the store
as one row for each line, with one value for each field. -/
theorem copyRead_lines (o : CsvOptions) (hq : o.quote = Char.ofNat 34)
    (lines : List (List String)) (hne : ∀ l ∈ lines, l ≠ [])
    (hN : ∀ l ∈ lines, ∀ f ∈ l, Neutral o f.data)
    (hR : ∀ l ∈ lines, ∀ f ∈ l, FieldReads o f.data) :
    copyRead o (String.join (lines.map csvLine)) =
      some (lines.map (fun l => l.map (fun f => fieldValue o f.data))) := by
  unfold copyRead
  have e1 : (String.join (lines.map csvLine)).data =
      ((lines.map (fun l => joinFields (l.map String.data))).map
        (fun l => l ++ [Char.ofNat 10])).flatten := by
    rw [join_data, List.map_map, List.map_map]
    congr 1
    apply List.map_congr_left
    intro l _
    exact csvLine_data l
  rw [e1, readLines_lines o hq _ _ EolType.unknown (Or.inl rfl)]
  · rw [Option.some_bind,
      readAllAttributes_lines o (fun l => (readAttributes o false false [] l).getD [])]
    · rw [List.map_map]
      congr 1
      apply List.map_congr_left
      intro l hl
      simp only [Function.comp]
      rw [readAttributes_joinFields o _ (by simpa using hne l hl)
        (by
          intro f hf
          obtain ⟨g, hg, rfl⟩ := List.mem_map.1 hf
          exact hR l hl g hg)]
      simp [List.map_map, Function.comp_def]
    · intro l hl
      obtain ⟨m, hm, rfl⟩ := List.mem_map.1 hl
      rw [readAttributes_joinFields o _ (by simpa using hne m hm)
        (by
          intro f hf
          obtain ⟨g, hg, rfl⟩ := List.mem_map.1 hf
          exact hR m hm g hg)]
      rfl
  · intro l hl
    obtain ⟨m, hm, rfl⟩ := List.mem_map.1 hl
    apply neutral_joinFields o hq
    intro f hf
    obtain ⟨g, hg, rfl⟩ := List.mem_map.1 hf
    exact hN m hm g hg

/-- Lines of plain fields are read by the store as one row for each line, each value the
text of its field, or NULL where the text is empty. -/
theorem copyRead_plain_lines (o : CsvOptions) (hd : o.delim = ',')
    (hq : o.quote = Char.ofNat 34) (hn : o.null = "")
    (lines : List (List String)) (hne : ∀ l ∈ lines, l ≠ [])
    (hp : ∀ l ∈ lines, ∀ f ∈ l, Plain f.data) :
    copyRead o (String.join (lines.map csvLine)) = some (lines.map (fun l => l.map readBack)) := by
  rw [copyRead_lines o hq lines hne (fun l hl f hf => neutral_plain o hq _ (hp l hl f hf))
    (fun l hl f hf => (fieldReads_plain o hd hq hn _ (hp l hl f hf)).1)]
  congr 1
  apply List.map_congr_left
  intro l hl
  apply List.map_congr_left
  intro f hf
  exact (fieldReads_plain o hd hq hn _ (hp l hl f hf)).2

theorem join_singleton (s : String) : String.join [s] = s := by
  simp [String.join]

/-! The texts `CopyBlock` writes for numbers and for the witness stack. -/

theorem digitChar_plain (d : Fin 10) :
    Nat.digitChar d.val ≠ ',' ∧ Nat.digitChar d.val ≠ Char.ofNat 34 ∧
    Nat.digitChar d.val ≠ Char.ofNat 13 ∧ Nat.digitChar d.val ≠ Char.ofNat 10 := by
  revert d; decide

theorem plain_digitsText (ds : List (Fin 10)) : Plain (digitsText ds) := by
  intro c hc
  obtain ⟨d, rfl⟩ := mem_digitsText ds c hc
  exact digitChar_plain d

theorem plain_append (a b : List Char) (ha : Plain a) (hb : Plain b) : Plain (a ++ b) := by
  intro c hc
  rcases List.mem_append.1 hc with h | h
  · exact ha c h
  · exact hb c h

theorem plain_negText (neg : Bool) : Plain (negText neg) := by
  intro c hc
  cases neg
  · simp [negText] at hc
  · simp only [negText, if_true, List.mem_singleton] at hc
    subst hc; decide

theorem plain_fracText (frac : Option (List (Fin 10))) : Plain (fracText frac) := by
  cases frac with
  | none => intro c hc; simp [fracText] at hc
  | some f =>
    intro c hc
    simp only [fracText, List.mem_cons] at hc
    rcases hc with rfl | hc
    · decide
    · exact plain_digitsText f c hc

theorem plain_signText (sign : Option Bool) : Plain (signText sign) := by
  intro c hc
  cases sign with
  | none => simp [signText] at hc
  | some b =>
    cases b
    · simp only [signText, List.mem_singleton] at hc
      subst hc; decide
    · simp only [signText, List.mem_singleton] at hc
      subst hc; decide

theorem plain_expoText (expo : Option Exponent) : Plain (expoText expo) := by
  cases expo with
  | none => intro c hc; simp [expoText] at hc
  | some e =>
    obtain ⟨upper, sign, digits⟩ := e
    have hl : Plain [if upper = true then 'E' else 'e'] := by
      intro c hc
      simp only [List.mem_singleton] at hc
      subst hc
      cases upper
      · exact (by decide : ('e' : Char) ≠ ',' ∧ ('e' : Char) ≠ Char.ofNat 34 ∧
          ('e' : Char) ≠ Char.ofNat 13 ∧ ('e' : Char) ≠ Char.ofNat 10)
      · exact (by decide : ('E' : Char) ≠ ',' ∧ ('E' : Char) ≠ Char.ofNat 34 ∧
          ('E' : Char) ≠ Char.ofNat 13 ∧ ('E' : Char) ≠ Char.ofNat 10)
    exact plain_append _ _ hl (plain_append _ _ (plain_signText sign) (plain_digitsText digits))

theorem plain_literal (l : Literal) : Plain l.text :=
  plain_append _ _ (plain_append _ _ (plain_append _ _ (plain_negText l.neg)
    (plain_digitsText l.int)) (plain_fracText l.frac)) (plain_expoText l.expo)

theorem plain_fmtInt (n : Int) : Plain (fmtInt n).data := by
  obtain ⟨l, _, ht, _⟩ := fmtInt_literal n
  rw [← ht]
  exact plain_literal l

theorem plain_Decimal_String (d : Decimal) : Plain d.String.data := by
  obtain ⟨l, _, ht, _⟩ := Decimal_String_literal d
  rw [← ht]
  exact plain_literal l

theorem plain_nil : Plain [] := by
  intro c hc; simp at hc

theorem plain_NullInt64 (n : Option Int) : Plain (NullInt64 n).data := by
  cases n with
  | none => exact plain_nil
  | some v => exact plain_fmtInt v

theorem plain_NullDecimal (d : Option Decimal) : Plain (NullDecimal d).data := by
  cases d with
  | none => exact plain_nil
  | some v => exact plain_Decimal_String v

theorem hexDigit_ne (n : Nat) :
    hexDigit n ≠ vinsVoutsOptions.quote ∧ hexDigit n ≠ vinsVoutsOptions.escape := by
  have key : ∀ m : Fin 16, Nat.digitChar m.val ≠ vinsVoutsOptions.quote ∧
      Nat.digitChar m.val ≠ vinsVoutsOptions.escape := by decide
  exact key ⟨n % 16, Nat.mod_lt n (by decide)⟩

theorem escaped_hex (ns : List Nat) : Escaped vinsVoutsOptions (ns.map hexDigit) := by
  induction ns with
  | nil => exact Escaped.nil
  | cons n ns ih => exact Escaped.single _ _ (hexDigit_ne n).1 (hexDigit_ne n).2 ih

theorem escaped_append (a b : List Char) (ha : Escaped vinsVoutsOptions a)
    (hb : Escaped vinsVoutsOptions b) : Escaped vinsVoutsOptions (a ++ b) := by
  induction ha with
  | nil => exact hb
  | single c tl h1 h2 _ ih => exact Escaped.single c _ h1 h2 ih
  | pair x tl _ ih => exact Escaped.pair x _ ih

theorem escaped_pair (x : Char) (ns : List Nat) :
    Escaped vinsVoutsOptions (Char.ofNat 92 :: x :: ns.map hexDigit) :=
  Escaped.pair x _ (escaped_hex ns)

theorem appendEscapedRune_escaped (tbl : Char → Bool) (r : Char) :
    Escaped vinsVoutsOptions (appendEscapedRune tbl r) := by
  unfold appendEscapedRune
  by_cases h1 : r = Char.ofNat 34 ∨ r = Char.ofNat 92
  · rw [if_pos h1]; exact escaped_pair r []
  rw [if_neg h1]
  by_cases h2 : IsPrint tbl r = true
  · rw [if_pos h2]
    exact Escaped.single r [] (fun e => h1 (Or.inl e)) (fun e => h1 (Or.inr e)) Escaped.nil
  rw [if_neg h2]
  by_cases c0 : r.toNat = 7
  · rw [if_pos c0]; exact escaped_pair _ []
  rw [if_neg c0]
  by_cases c1 : r.toNat = 8
  · rw [if_pos c1]; exact escaped_pair _ []
  rw [if_neg c1]
  by_cases c2 : r.toNat = 12
  · rw [if_pos c2]; exact escaped_pair _ []
  rw [if_neg c2]
  by_cases c3 : r.toNat = 10
  · rw [if_pos c3]; exact escaped_pair _ []
  rw [if_neg c3]
  by_cases c4 : r.toNat = 13
  · rw [if_pos c4]; exact escaped_pair _ []
  rw [if_neg c4]
  by_cases c5 : r.toNat = 9
  · rw [if_pos c5]; exact escaped_pair _ []
  rw [if_neg c5]
  by_cases c6 : r.toNat = 11
  · rw [if_pos c6]; exact escaped_pair _ []
  rw [if_neg c6]
  by_cases hx : r.toNat < 0x20 ∨ r.toNat = 0x7F
  · rw [if_pos hx]; exact escaped_pair 'x' [r.toNat / 16, r.toNat]
  rw [if_neg hx]
  by_cases hu : r.toNat < 0x10000
  · rw [if_pos hu]
    exact escaped_pair 'u' [r.toNat / 4096, r.toNat / 256, r.toNat / 16, r.toNat]
  rw [if_neg hu]
  exact escaped_pair 'U'
    [r.toNat / 268435456, r.toNat / 16777216, r.toNat / 1048576, r.toNat / 65536,
      r.toNat / 4096, r.toNat / 256, r.toNat / 16, r.toNat]

theorem escapeRunes_escaped (tbl : Char → Bool) (s : List Char) :
    Escaped vinsVoutsOptions (escapeRunes tbl s) := by
  induction s with
  | nil => exact Escaped.nil
  | cons r rs ih => exact escaped_append _ _ (appendEscapedRune_escaped tbl r) ih

theorem fieldOK_fmtQuote (tbl : Char → Bool) (s : String) : FieldOK (fmtQuote tbl s).data :=
  Or.inr ⟨escapeRunes tbl s.data, escapeRunes_escaped tbl s.data, rfl⟩

theorem plain_NullString (s : Option String) (h : ∀ v, s = some v → Plain v.data) :
    Plain (NullString s).data := by
  cases s with
  | none => exact plain_nil
  | some v => exact h v rfl

theorem plain_of_decide (s : List Char)
    (h : s.all (fun c => decide (c ≠ ',' ∧ c ≠ Char.ofNat 34 ∧ c ≠ Char.ofNat 13 ∧
      c ≠ Char.ofNat 10)) = true) : Plain s := by
  intro c hc
  have := List.all_eq_true.1 h c hc
  simpa using this

theorem plain_replicate (n : Nat) (c : Char) (hc : Plain [c]) : Plain (List.replicate n c) := by
  intro x hx
  rw [List.eq_of_mem_replicate hx]
  exact hc c (List.mem_singleton_self c)

theorem plain_pad (w n : Nat) : Plain (pad w n).data := by
  unfold pad
  simp only [String.data_append]
  refine plain_append _ _ (plain_replicate _ _ (plain_of_decide _ (by decide))) ?_
  have := plain_fmtInt (Int.ofNat n)
  rw [fmtInt_ofNat] at this
  exact this

theorem plain_formatTime (sec : Int) : Plain (formatTime sec).data := by
  unfold formatTime
  simp only [String.data_append]
  have hy : Plain (if (civilFromDays (sec / 86400)).1 < 0 then "-" else "").data := by
    by_cases h : (civilFromDays (sec / 86400)).1 < 0
    · rw [if_pos h]; exact plain_of_decide _ (by decide)
    · rw [if_neg h]; exact plain_of_decide _ (by decide)
  refine plain_append _ _ (plain_append _ _ (plain_append _ _ (plain_append _ _
    (plain_append _ _ (plain_append _ _ (plain_append _ _ (plain_append _ _ (plain_append _ _
    (plain_append _ _ (plain_append _ _ (plain_append _ _ hy (plain_pad _ _))
    (plain_of_decide _ (by decide))) (plain_pad _ _)) (plain_of_decide _ (by decide)))
    (plain_pad _ _)) (plain_of_decide _ (by decide))) (plain_pad _ _))
    (plain_of_decide _ (by decide))) (plain_pad _ _)) (plain_of_decide _ (by decide)))
    (plain_pad _ _)) (plain_of_decide _ (by decide))

theorem formatTime_ne_empty (sec : Int) : formatTime sec ≠ "" := by
  intro h
  have h2 := congrArg String.data h
  unfold formatTime at h2
  simp only [String.data_append] at h2
  have h3 := congrArg List.length h2
  simp at h3

/-! What the store reads from the text of a number, a time and a pointer. -/

theorem readBack_fmtInt (n : Int) : readBack (fmtInt n) = some (fmtInt n) := by
  unfold readBack
  rw [if_neg (fmtInt_ne_empty n)]

theorem readBack_Decimal_String (d : Decimal) : readBack d.String = some d.String := by
  unfold readBack
  rw [if_neg (Decimal_String_ne_empty d)]

theorem readBack_formatTime (sec : Int) : readBack (formatTime sec) = some (formatTime sec) := by
  unfold readBack
  rw [if_neg (formatTime_ne_empty sec)]

theorem readBack_fmtBool (b : Bool) : readBack (fmtBool b) = some (fmtBool b) := by
  cases b <;> rfl

theorem readBack_NullString (s : Option String) : readBack (NullString s) = s.bind readBack := by
  cases s <;> rfl

theorem readBack_NullInt64 (n : Option Int) : readBack (NullInt64 n) = n.map fmtInt := by
  cases n with
  | none => rfl
  | some v => exact readBack_fmtInt v

theorem readBack_NullDecimal (d : Option Decimal) :
    readBack (NullDecimal d) = d.map Decimal.String := by
  cases d with
  | none => rfl
  | some v => exact readBack_Decimal_String v

/-- The text `%d` writes for an integer is read back as that integer. -/
theorem parseSigned_fmtInt (n : Int) : parseSigned (fmtInt n).data = some n := by
  cases n with
  | ofNat m =>
    obtain ⟨ds, h1, h2, h3⟩ := natStr_digits m
    rw [fmtInt_ofNat, h1]
    have := parseSigned_signText none ds h3
    simp only [signText, List.nil_append] at this
    rw [this, h2]
  | negSucc m =>
    obtain ⟨ds, h1, h2, h3⟩ := natStr_digits (m + 1)
    rw [fmtInt_negSucc]
    have e : ("-" ++ natStr (m + 1)).data = signText (some true) ++ digitsText ds := by
      rw [String.data_append, h1]; rfl
    rw [e, parseSigned_signText (some true) ds h3]
    simp only [h2]
    rfl

/-! ### The rows the store reads from the texts of a block -/

theorem rbfLoop_iff (vins : List VinEntry) :
    rbfLoop vins = true ↔ ∃ v ∈ vins, v.Sequence < 0xfffffffe := by
  induction vins with
  | nil => simp [rbfLoop]
  | cons v vs ih =>
    simp only [rbfLoop, List.mem_cons, exists_eq_or_imp]
    by_cases h : v.Sequence < 0xfffffffe
    · simp [h]
    · simp [h, ih]

theorem fmtBool_segwit (t : Transaction) :
    fmtBool (segwit t) = if t.TxID ≠ t.Hash then "true" else "false" := by
  unfold segwit fmtBool
  by_cases h : t.TxID ≠ t.Hash
  · simp [h]
  · simp [h]

theorem fmtBool_rbf (t : Transaction) :
    fmtBool (rbf t) = if ∃ v ∈ t.Vin, v.Sequence < 0xfffffffe then "true" else "false" := by
  unfold rbf fmtBool
  by_cases h : ∃ v ∈ t.Vin, v.Sequence < 0xfffffffe
  · rw [if_pos h, if_pos ((rbfLoop_iff t.Vin).2 h)]
  · rw [if_neg h, if_neg (fun h2 => h ((rbfLoop_iff t.Vin).1 h2))]

theorem readBack_flag (p : Prop) [Decidable p] :
    readBack (if p then "true" else "false") = some (if p then "true" else "false") := by
  split <;> rfl

theorem blockFields_readBack (block : Block) :
    (blockFields block).map readBack = blockRow block := by
  simp only [blockFields, blockRow, List.map, readBack_fmtInt, readBack_formatTime,
    readBack_Decimal_String, readBack_NullString]

theorem transactionFields_readBack (block : Block) (t : Transaction) :
    (transactionFields block t).map readBack = transactionRow block t := by
  simp only [transactionFields, transactionRow, List.map, readBack_fmtInt, readBack_formatTime,
    readBack_Decimal_String, fmtBool_segwit, fmtBool_rbf, readBack_flag]

theorem voutFields_readBack (t : Transaction) (v : VoutEntry) :
    (voutFields t v).map readBack = voutRow t v := by
  simp only [voutFields, voutRow, List.map, readBack_fmtInt, readBack_Decimal_String,
    readBack_NullString]

theorem fieldValue_plain (s : String) (h : Plain s.data) :
    fieldValue vinsVoutsOptions s.data = readBack s :=
  (fieldReads_plain vinsVoutsOptions rfl rfl rfl s.data h).2

theorem vinFields_fieldValue (tbl : Char → Bool) (t : Transaction) (v : VinEntry)
    (h : PlainVin t v) :
    (vinFields tbl t v).map (fun f => fieldValue vinsVoutsOptions f.data) = vinRow tbl t v := by
  obtain ⟨h0, h1, h2, h3, h4, h5, h6, h7, h8, h9⟩ := h
  simp only [vinFields, vinRow, List.map, fieldValue_plain _ h0, fieldValue_plain _ h1,
    fieldValue_plain _ h2, fieldValue_plain _ h3, fieldValue_plain _ h4, fieldValue_plain _ h5,
    fieldValue_plain _ h6, fieldValue_plain _ h7, fieldValue_plain _ h8, fieldValue_plain _ h9,
    fieldValue_plain _ (plain_fmtInt _), fieldValue_plain _ (plain_NullInt64 _),
    fieldValue_plain _ (plain_NullDecimal _), readBack_fmtInt, readBack_NullString,
    readBack_NullInt64, readBack_NullDecimal]

theorem plain_blockFields (block : Block) (h : PlainHeader block) :
    ∀ f ∈ blockFields block, Plain f.data := by
  obtain ⟨h0, h1, h2, h3, h4, h5, h6⟩ := h
  intro f hf
  simp only [blockFields, List.mem_cons, List.mem_singleton, List.not_mem_nil, or_false] at hf
  rcases hf with rfl | rfl | rfl | rfl | rfl | rfl | rfl | rfl | rfl | rfl | rfl | rfl | rfl |
    rfl | rfl | rfl | rfl | rfl
  · exact h0
  · exact plain_fmtInt _
  · exact plain_fmtInt _
  · exact plain_fmtInt _
  · exact h1
  · exact h2
  · exact plain_formatTime _
  · exact plain_formatTime _
  · exact plain_fmtInt _
  · exact h3
  · exact plain_Decimal_String _
  · exact h4
  · exact plain_fmtInt _
  · exact h5
  · exact h6
  · exact plain_fmtInt _
  · exact plain_fmtInt _
  · exact plain_fmtInt _

theorem plain_fmtBool (b : Bool) : Plain (fmtBool b).data := by
  cases b
  · exact plain_of_decide _ (by decide)
  · exact plain_of_decide _ (by decide)

theorem plain_transactionFields (block : Block) (t : Transaction)
    (hb : Plain block.BlockHash.data) (h0 : Plain t.TxID.data) (h1 : Plain t.Hash.data)
    (h2 : Plain t.Hex.data) : ∀ f ∈ transactionFields block t, Plain f.data := by
  intro f hf
  simp only [transactionFields, List.mem_cons, List.mem_singleton, List.not_mem_nil,
    or_false] at hf
  rcases hf with rfl | rfl | rfl | rfl | rfl | rfl | rfl | rfl | rfl | rfl | rfl | rfl | rfl |
    rfl
  · exact h0
  · exact h1
  · exact plain_fmtBool _
  · exact plain_fmtBool _
  · exact plain_fmtInt _
  · exact plain_fmtInt _
  · exact plain_fmtInt _
  · exact plain_fmtInt _
  · exact plain_fmtInt _
  · exact plain_Decimal_String _
  · exact h2
  · exact hb
  · exact plain_fmtInt _
  · exact plain_formatTime _

theorem plain_voutFields (t : Transaction) (v : VoutEntry) (h : PlainVout t v) :
    ∀ f ∈ voutFields t v, Plain f.data := by
  obtain ⟨h0, h1, h2, h3, h4, h5⟩ := h
  intro f hf
  simp only [voutFields, List.mem_cons, List.mem_singleton, List.not_mem_nil, or_false] at hf
  rcases hf with rfl | rfl | rfl | rfl | rfl | rfl | rfl | rfl
  · exact h0
  · exact plain_Decimal_String _
  · exact plain_fmtInt _
  · exact h1
  · exact h2
  · exact h3
  · exact h4
  · exact h5

theorem fieldOK_vinFields (tbl : Char → Bool) (t : Transaction) (v : VinEntry)
    (h : PlainVin t v) : ∀ f ∈ vinFields tbl t v, FieldOK f.data := by
  obtain ⟨h0, h1, h2, h3, h4, h5, h6, h7, h8, h9⟩ := h
  intro f hf
  simp only [vinFields, List.mem_cons, List.mem_singleton, List.not_mem_nil, or_false] at hf
  rcases hf with rfl | rfl | rfl | rfl | rfl | rfl | rfl | rfl | rfl | rfl | rfl | rfl | rfl |
    rfl | rfl
  · exact Or.inl h0
  · exact Or.inl h1
  · exact Or.inl h2
  · exact Or.inl (plain_fmtInt _)
  · exact Or.inl h3
  · exact Or.inl h4
  · exact fieldOK_fmtQuote tbl _
  · exact Or.inl (plain_NullInt64 _)
  · exact Or.inl (plain_NullDecimal _)
  · exact Or.inl h5
  · exact Or.inl h6
  · exact Or.inl h7
  · exact Or.inl h8
  · exact Or.inl h9
  · exact Or.inl (plain_fmtInt _)

/-- The store reads the blocks text of a block with plain text fields as the one row
of the block. -/
theorem blocksCSV_read (block : Block) (h : PlainHeader block) :
    copyRead blocksTransactionsOptions (blocksCSV block) = some [blockRow block] := by
  have := copyRead_plain_lines blocksTransactionsOptions rfl rfl rfl [blockFields block]
    (by intro l hl; simp only [List.mem_singleton] at hl; subst hl; simp [blockFields])
    (by
      intro l hl
      simp only [List.mem_singleton] at hl
      subst hl
      exact plain_blockFields block h)
  rw [List.map_singleton, List.map_singleton, join_singleton, blockFields_readBack] at this
  exact this

/-- The store reads the transactions text of transactions with plain text fields as
their rows, in order. -/
theorem transactionsCSV_read (block : Block) (ts : List Transaction)
    (hb : Plain block.BlockHash.data)
    (h : ∀ t ∈ ts, Plain t.TxID.data ∧ Plain t.Hash.data ∧ Plain t.Hex.data) :
    copyRead blocksTransactionsOptions (String.join (ts.map (transactionLine block))) =
      some (ts.map (transactionRow block)) := by
  have := copyRead_plain_lines blocksTransactionsOptions rfl rfl rfl
    (ts.map (transactionFields block))
    (by
      intro l hl
      obtain ⟨t, _, rfl⟩ := List.mem_map.1 hl
      simp [transactionFields])
    (by
      intro l hl
      obtain ⟨t, ht, rfl⟩ := List.mem_map.1 hl
      exact plain_transactionFields block t hb (h t ht).1 (h t ht).2.1 (h t ht).2.2)
  rw [List.map_map, List.map_map] at this
  rw [show ts.map (transactionLine block) = ts.map (csvLine ∘ transactionFields block) from rfl,
    this]
  congr 1
  apply List.map_congr_left
  intro t _
  exact transactionFields_readBack block t

/-- The store reads the vins text of a transaction whose inputs have plain text fields
as the rows of its inputs, in order. -/
theorem vinsCSV_read (tbl : Char → Bool) (t : Transaction) (h : ∀ v ∈ t.Vin, PlainVin t v) :
    copyRead vinsVoutsOptions (vinsCSV tbl t) = some (t.Vin.map (vinRow tbl t)) := by
  have := copyRead_lines vinsVoutsOptions rfl (t.Vin.map (vinFields tbl t))
    (by
      intro l hl
      obtain ⟨v, _, rfl⟩ := List.mem_map.1 hl
      simp [vinFields])
    (by
      intro l hl f hf
      obtain ⟨v, hv, rfl⟩ := List.mem_map.1 hl
      exact neutral_fieldOK _ (fieldOK_vinFields tbl t v (h v hv) f hf))
    (by
      intro l hl f hf
      obtain ⟨v, hv, rfl⟩ := List.mem_map.1 hl
      exact fieldReads_fieldOK _ (fieldOK_vinFields tbl t v (h v hv) f hf))
  rw [List.map_map, List.map_map] at this
  rw [show vinsCSV tbl t = String.join (t.Vin.map (csvLine ∘ vinFields tbl t)) from rfl, this]
  congr 1
  apply List.map_congr_left
  intro v hv
  exact vinFields_fieldValue tbl t v (h v hv)

/-- The store reads the vouts text of a transaction whose outputs have plain text fields
as the rows of its outputs, in order. -/
theorem voutsCSV_read (t : Transaction) (h : ∀ v ∈ t.Vout, PlainVout t v) :
    copyRead vinsVoutsOptions (voutsCSV t) = some (t.Vout.map (voutRow t)) := by
  have := copyRead_plain_lines vinsVoutsOptions rfl rfl rfl (t.Vout.map (voutFields t))
    (by
      intro l hl
      obtain ⟨v, _, rfl⟩ := List.mem_map.1 hl
      simp [voutFields])
    (by
      intro l hl
      obtain ⟨v, hv, rfl⟩ := List.mem_map.1 hl
      exact plain_voutFields t v (h v hv))
  rw [List.map_map, List.map_map] at this
  rw [show voutsCSV t = String.join (t.Vout.map (csvLine ∘ voutFields t)) from rfl, this]
  congr 1
  apply List.map_congr_left
  intro v _
  exact voutFields_readBack t v

/-- When the free-text fields of an output hold no comma, double quote, carriage return
or newline, the store reads its vouts line as one row of 8 fields, each the text that was
written, or NULL where the text is empty. -/
theorem voutLine_reads_back (t : Transaction) (v : VoutEntry) (h : PlainVout t v) :
    copyRead vinsVoutsOptions (voutLine t v) = some [(voutFields t v).map readBack] ∧
    ((voutFields t v).map readBack).length = 8 := by
  refine ⟨?_, rfl⟩
  have := copyRead_plain_lines vinsVoutsOptions rfl rfl rfl [voutFields t v]
    (by intro l hl; simp only [List.mem_singleton] at hl; subst hl; simp [voutFields])
    (by
      intro l hl
      simp only [List.mem_singleton] at hl
      subst hl
      exact plain_voutFields t v h)
  rw [List.map_singleton, List.map_singleton, join_singleton] at this
  exact this

theorem fmtQuote_not_plain (tbl : Char → Bool) (s : String) : ¬ Plain (fmtQuote tbl s).data := by
  intro h
  exact absurd rfl (h (Char.ofNat 34) (List.mem_cons_self _ _)).2.1

theorem fieldValue_fmtQuote (tbl : Char → Bool) (s : String) :
    ∃ w, fieldValue vinsVoutsOptions (fmtQuote tbl s).data = some w :=
  (fieldReads_quoted (escapeRunes tbl s.data) (escapeRunes_escaped tbl s.data)).2

/-- When the free-text fields of an input hold no comma, double quote, carriage return or
newline, the store reads its vins line as one row of 15 fields: the quoted witness stack
as one field that is not NULL, and every other field as the text that was written, or
NULL where the text is empty. -/
theorem vinLine_reads_back (tbl : Char → Bool) (t : Transaction) (v : VinEntry)
    (h : PlainVin t v) :
    ∃ w : String, copyRead vinsVoutsOptions (vinLine tbl t v) =
      some [[readBack t.TxID, readBack (NullString v.TxID), readBack (NullString v.Coinbase),
        readBack (fmtInt v.Vout), readBack (NullString v.ScriptSig.Asm),
        readBack (NullString v.ScriptSig.Hex), some w,
        readBack (NullInt64 v.Prevout.PrevHeight), readBack (NullDecimal v.Prevout.Value),
        readBack (NullString v.Prevout.ScriptPubKey.Asm),
        readBack (NullString v.Prevout.ScriptPubKey.Desc),
        readBack (NullString v.Prevout.ScriptPubKey.Hex),
        readBack (NullString v.Prevout.ScriptPubKey.Address),
        readBack (NullString v.Prevout.ScriptPubKey.Type_), readBack (fmtInt v.Sequence)]] := by
  obtain ⟨w, hw⟩ := fieldValue_fmtQuote tbl (witness v)
  refine ⟨w, ?_⟩
  have := copyRead_lines vinsVoutsOptions rfl [vinFields tbl t v]
    (by intro l hl; simp only [List.mem_singleton] at hl; subst hl; simp [vinFields])
    (by
      intro l hl f hf
      simp only [List.mem_singleton] at hl
      subst hl
      exact neutral_fieldOK _ (fieldOK_vinFields tbl t v h f hf))
    (by
      intro l hl f hf
      simp only [List.mem_singleton] at hl
      subst hl
      exact fieldReads_fieldOK _ (fieldOK_vinFields tbl t v h f hf))
  simp only [List.map_cons, List.map_nil, join_singleton] at this
  rw [show vinLine tbl t v = csvLine (vinFields tbl t v) from rfl, this,
    vinFields_fieldValue tbl t v h]
  simp only [vinRow, hw, readBack_fmtInt, readBack_NullString, readBack_NullInt64,
    readBack_NullDecimal]

/-! ### The answers of the store to `CopyFrom` -/

theorem copyFrom_fault (faults : Faults) (op : WriteOp) (o : CsvOptions) (n : Nat)
    (data : String) (e : String) (h : faults op = some e) :
    copyFrom faults op o n data = Except.error e := by
  unfold copyFrom
  rw [h]

theorem copyFrom_ok_iff (faults : Faults) (op : WriteOp) (o : CsvOptions) (n : Nat)
    (data : String) (rows : List Row) :
    copyFrom faults op o n data = Except.ok rows ↔
      faults op = none ∧ copyRead o data = some rows ∧ ∀ r ∈ rows, r.length = n := by
  unfold copyFrom
  cases hf : faults op with
  | some e => simp
  | none =>
    cases hr : copyRead o data with
    | none => simp
    | some rs =>
      by_cases hl : ∀ r ∈ rs, r.length = n
      · simp only [if_pos hl, Except.ok.injEq, Option.some.injEq, true_and]
        constructor
        · intro h; subst h; exact ⟨rfl, hl⟩
        · intro h; exact h.1
      · simp only [if_neg hl, Option.some.injEq, true_and]
        constructor
        · intro h; cases h
        · intro h; exact absurd (h.1 ▸ h.2) hl

theorem copyFromBlocks_ok_iff (faults : Faults) (committed : Tables) (data : String)
    (rows : List Row) :
    copyFromBlocks faults committed data = Except.ok rows ↔
      copyFrom faults WriteOp.copyBlocks blocksTransactionsOptions 18 data = Except.ok rows ∧
      (¬ ∃ r ∈ rows, rowHeight r = none) ∧ (rows.filterMap rowHeight).Nodup ∧
      ∀ h ∈ rows.filterMap rowHeight, h ∉ committed.heights := by
  unfold copyFromBlocks
  cases hc : copyFrom faults WriteOp.copyBlocks blocksTransactionsOptions 18 data with
  | error e => simp
  | ok rs =>
    by_cases h1 : ∃ r ∈ rs, rowHeight r = none
    · simp only [if_pos h1, Except.ok.injEq]
      constructor
      · intro h; cases h
      · intro h; exact absurd (h.1 ▸ h1) h.2.1
    · by_cases h2 : (rs.filterMap rowHeight).Nodup ∧
          ∀ h ∈ rs.filterMap rowHeight, h ∉ committed.heights
      · simp only [if_neg h1, if_pos h2, Except.ok.injEq]
        constructor
        · intro h; subst h; exact ⟨rfl, h1, h2.1, h2.2⟩
        · intro h; exact h.1
      · simp only [if_neg h1, if_neg h2, Except.ok.injEq]
        constructor
        · intro h; cases h
        · intro h; exact absurd (h.1 ▸ ⟨h.2.2.1, h.2.2.2⟩) h2

theorem copyFromBlocks_fault (faults : Faults) (committed : Tables) (data : String) (e : String)
    (h : faults WriteOp.copyBlocks = some e) :
    copyFromBlocks faults committed data = Except.error e := by
  unfold copyFromBlocks
  rw [copyFrom_fault faults _ _ _ _ e h]

/-! ### The loop over the transactions -/

theorem join_cons (s : String) (l : List String) : String.join (s :: l) = s ++ String.join l := by
  apply String.ext
  rw [join_data, String.data_append, join_data]
  simp

theorem join_nil : String.join [] = "" := rfl

theorem append_assoc_str (a b c : String) : a ++ b ++ c = a ++ (b ++ c) := by
  apply String.ext
  simp [String.data_append, List.append_assoc]

theorem append_empty_str (a : String) : a ++ "" = a := by
  apply String.ext
  simp [String.data_append]

theorem empty_append_str (a : String) : "" ++ a = a := by
  apply String.ext
  simp [String.data_append]

theorem rowsRead_append (a b : List (WriteOp × String)) :
    rowsRead (a ++ b) = (rowsRead a).append (rowsRead b) := by
  induction a with
  | nil => simp [rowsRead, Tables.append, Tables.empty]
  | cons x xs ih =>
    obtain ⟨op, text⟩ := x
    cases op <;> simp [rowsRead, ih, Tables.append, List.append_assoc]

theorem copyLoop_blocks (tbl : Char → Bool) (faults : Faults) (block : Block) :
    ∀ (ts : List Transaction) (i : Nat) (pending : Tables) (csv : String),
      (copyLoop tbl faults block i ts pending csv).pending.blocks = pending.blocks := by
  intro ts
  induction ts with
  | nil => intro i pending csv; rfl
  | cons t ts ih =>
    intro i pending csv
    simp only [copyLoop]
    cases copyFrom faults (WriteOp.copyVins i) vinsVoutsOptions 15 (vinsCSV tbl t) with
    | error e => rfl
    | ok vinRows =>
      cases copyFrom faults (WriteOp.copyVouts i) vinsVoutsOptions 8 (voutsCSV t) with
      | error e => rfl
      | ok voutRows => simp only; rw [ih]

theorem copyLoop_fail (tbl : Char → Bool) (faults : Faults) (block : Block) :
    ∀ (ts : List Transaction) (i : Nat) (pending : Tables) (csv : String),
      (∃ j, i ≤ j ∧ j < i + ts.length ∧
        (faults (WriteOp.copyVins j) ≠ none ∨ faults (WriteOp.copyVouts j) ≠ none)) →
      (copyLoop tbl faults block i ts pending csv).err ≠ none := by
  intro ts
  induction ts with
  | nil => intro i pending csv ⟨j, h1, h2, _⟩; simp at h2; omega
  | cons t ts ih =>
    intro i pending csv ⟨j, h1, h2, h3⟩
    simp only [copyLoop]
    cases hv : copyFrom faults (WriteOp.copyVins i) vinsVoutsOptions 15 (vinsCSV tbl t) with
    | error e => simp
    | ok vinRows =>
      cases hw : copyFrom faults (WriteOp.copyVouts i) vinsVoutsOptions 8 (voutsCSV t) with
      | error e => simp
      | ok voutRows =>
        simp only
        apply ih
        refine ⟨j, ?_, ?_, h3⟩
        · rcases Nat.eq_or_lt_of_le h1 with h | h
          · subst h
            have a1 := ((copyFrom_ok_iff _ _ _ _ _ _).1 hv).1
            have a2 := ((copyFrom_ok_iff _ _ _ _ _ _).1 hw).1
            simp [a1, a2] at h3
          · omega
        · simp at h2; omega

/-- A run of the loop without error: no call of it was answered by an error, the rows
pending after it are the rows pending before it and the rows the store read from the
texts of the loop, the texts are the vins text and the vouts text of every transaction
in order, and `transactionsCSV` has gained the line of every transaction. -/
theorem copyLoop_spec (tbl : Char → Bool) (faults : Faults) (block : Block) :
    ∀ (ts : List Transaction) (i : Nat) (pending : Tables) (csv : String),
      (copyLoop tbl faults block i ts pending csv).err = none →
      (copyLoop tbl faults block i ts pending csv).pending =
        pending.append (rowsRead (copyLoop tbl faults block i ts pending csv).sent) ∧
      (copyLoop tbl faults block i ts pending csv).sent =
        (ts.enumFrom i).flatMap (fun p =>
          [(WriteOp.copyVins p.1, vinsCSV tbl p.2), (WriteOp.copyVouts p.1, voutsCSV p.2)]) ∧
      (copyLoop tbl faults block i ts pending csv).transactionsCSV =
        csv ++ String.join (ts.map (transactionLine block)) := by
  intro ts
  induction ts with
  | nil =>
    intro i pending csv _
    simp [copyLoop, rowsRead, Tables.append, Tables.empty, join_nil, append_empty_str]
  | cons t ts ih =>
    intro i pending csv
    simp only [copyLoop]
    cases hv : copyFrom faults (WriteOp.copyVins i) vinsVoutsOptions 15 (vinsCSV tbl t) with
    | error e => simp
    | ok vinRows =>
      cases hw : copyFrom faults (WriteOp.copyVouts i) vinsVoutsOptions 8 (voutsCSV t) with
      | error e => simp
      | ok voutRows =>
        simp only
        intro herr
        obtain ⟨i1, i2, i3⟩ := ih (i + 1)
          ⟨pending.blocks, pending.transactions, pending.vins ++ vinRows,
            pending.vouts ++ voutRows⟩ (csv ++ transactionLine block t) herr
        have a1 := ((copyFrom_ok_iff _ _ _ _ _ _).1 hv).2.1
        have a2 := ((copyFrom_ok_iff _ _ _ _ _ _).1 hw).2.1
        refine ⟨?_, ?_, ?_⟩
        · rw [i1]
          simp [rowsRead, a1, a2, Tables.append, List.append_assoc]
        · rw [i2]
          simp [List.enumFrom_cons]
        · rw [i3, List.map_cons, join_cons, append_assoc_str]

theorem copyLoop_sent_initial (tbl : Char → Bool) (faults : Faults) (block : Block) :
    ∀ (ts : List Transaction) (i : Nat) (pending : Tables) (csv : String),
      (copyLoop tbl faults block i ts pending csv).sent <+:
        (ts.enumFrom i).flatMap (fun p =>
          [(WriteOp.copyVins p.1, vinsCSV tbl p.2), (WriteOp.copyVouts p.1, voutsCSV p.2)]) := by
  intro ts
  induction ts with
  | nil => intro i pending csv; simp [copyLoop]
  | cons t ts ih =>
    intro i pending csv
    simp only [copyLoop, List.enumFrom_cons, List.flatMap_cons]
    cases hv : copyFrom faults (WriteOp.copyVins i) vinsVoutsOptions 15 (vinsCSV tbl t) with
    | error e =>
      simp only
      exact ⟨_, rfl⟩
    | ok vinRows =>
      cases hw : copyFrom faults (WriteOp.copyVouts i) vinsVoutsOptions 8 (voutsCSV t) with
      | error e =>
        simp only
        exact ⟨_, rfl⟩
      | ok voutRows =>
        simp only
        obtain ⟨rest, hrest⟩ := ih (i + 1)
          ⟨pending.blocks, pending.transactions, pending.vins ++ vinRows,
            pending.vouts ++ voutRows⟩ (csv ++ transactionLine block t)
        refine ⟨rest, ?_⟩
        simp only [List.cons_append, List.nil_append, List.singleton_append]
        rw [hrest]

/-- The loop over transactions whose inputs and outputs have plain text fields, on a
store that answers no call of the loop by an error: it ends without error, and the rows
pending after it have gained the row of every input and of every output, in order. -/
theorem copyLoop_ok (tbl : Char → Bool) (faults : Faults) (block : Block) :
    ∀ (ts : List Transaction) (i : Nat) (pending : Tables) (csv : String),
      (∀ t ∈ ts, (∀ v ∈ t.Vin, PlainVin t v) ∧ (∀ v ∈ t.Vout, PlainVout t v)) →
      (∀ j, i ≤ j → j < i + ts.length →
        faults (WriteOp.copyVins j) = none ∧ faults (WriteOp.copyVouts j) = none) →
      (copyLoop tbl faults block i ts pending csv).err = none ∧
      (copyLoop tbl faults block i ts pending csv).pending =
        ⟨pending.blocks, pending.transactions,
          pending.vins ++ ts.flatMap (fun t => t.Vin.map (vinRow tbl t)),
          pending.vouts ++ ts.flatMap (fun t => t.Vout.map (voutRow t))⟩ := by
  intro ts
  induction ts with
  | nil => intro i pending csv _ _; simp [copyLoop]
  | cons t ts ih =>
    intro i pending csv hp h
    have h0 := h i (Nat.le_refl i) (by simp)
    have hrest : ∀ j, i + 1 ≤ j → j < i + 1 + ts.length →
        faults (WriteOp.copyVins j) = none ∧ faults (WriteOp.copyVouts j) = none := by
      intro j h1 h2
      exact h j (by omega) (by simp; omega)
    have ht := hp t (List.mem_cons_self _ _)
    have hv : copyFrom faults (WriteOp.copyVins i) vinsVoutsOptions 15 (vinsCSV tbl t) =
        Except.ok (t.Vin.map (vinRow tbl t)) :=
      (copyFrom_ok_iff _ _ _ _ _ _).2 ⟨h0.1, vinsCSV_read tbl t ht.1, by
        intro r hr
        obtain ⟨v, _, rfl⟩ := List.mem_map.1 hr
        rfl⟩
    have hw : copyFrom faults (WriteOp.copyVouts i) vinsVoutsOptions 8 (voutsCSV t) =
        Except.ok (t.Vout.map (voutRow t)) :=
      (copyFrom_ok_iff _ _ _ _ _ _).2 ⟨h0.2, voutsCSV_read t ht.2, by
        intro r hr
        obtain ⟨v, _, rfl⟩ := List.mem_map.1 hr
        rfl⟩
    have ih1 := ih (i + 1)
      ⟨pending.blocks, pending.transactions, pending.vins ++ t.Vin.map (vinRow tbl t),
        pending.vouts ++ t.Vout.map (voutRow t)⟩ (csv ++ transactionLine block t)
      (fun x hx => hp x (List.mem_cons_of_mem _ hx)) hrest
    simp only [copyLoop, hv, hw]
    refine ⟨ih1.1, ?_⟩
    rw [ih1.2]
    simp [List.flatMap_cons, List.append_assoc]

/-! ### `CopyBlock` -/

theorem mem_writePoints (block : Block) (op : WriteOp) :
    op ∈ writePoints block ↔
      op = WriteOp.begin ∨ op = WriteOp.copyBlocks ∨ op = WriteOp.copyTransactions ∨
      op = WriteOp.commit ∨
      ∃ j, j < block.Transactions.length ∧ (op = WriteOp.copyVins j ∨ op = WriteOp.copyVouts j) := by
  simp only [writePoints, List.mem_append, List.mem_cons, List.mem_flatMap, List.mem_range,
    List.mem_singleton, List.not_mem_nil, or_false]
  constructor
  · rintro (((h | h) | ⟨j, hj, h⟩) | h | h)
    · exact Or.inl h
    · exact Or.inr (Or.inl h)
    · exact Or.inr (Or.inr (Or.inr (Or.inr ⟨j, hj, h⟩)))
    · exact Or.inr (Or.inr (Or.inl h))
    · exact Or.inr (Or.inr (Or.inr (Or.inl h)))
  · rintro (h | h | h | h | ⟨j, hj, h⟩)
    · exact Or.inl (Or.inl (Or.inl h))
    · exact Or.inl (Or.inl (Or.inr h))
    · exact Or.inr (Or.inl h)
    · exact Or.inr (Or.inr h)
    · exact Or.inl (Or.inr ⟨j, hj, h⟩)

theorem CopyBlock_err_conn (tbl : Char → Bool) (faults : Faults) (conn : Conn) (block : Block)
    (highestBlock : Int) (h : (CopyBlock tbl faults conn block highestBlock).err ≠ none) :
    (CopyBlock tbl faults conn block highestBlock).conn = conn := by
  unfold CopyBlock at h ⊢
  cases hb : faults WriteOp.begin with
  | some e => simp
  | none =>
    cases hc : copyFromBlocks faults conn.committed (blocksCSV block) with
    | error e => simp
    | ok rows =>
      simp only
      cases hl : (copyLoop tbl faults block 0 block.Transactions ⟨rows, [], [], []⟩ "").err with
      | some e => simp
      | none =>
        simp only
        cases ht : copyFrom faults WriteOp.copyTransactions blocksTransactionsOptions 14
            (copyLoop tbl faults block 0 block.Transactions ⟨rows, [], [], []⟩
              "").transactionsCSV with
        | error e => simp
        | ok trows =>
          cases hm : faults WriteOp.commit with
          | some e => simp
          | none => simp [hb, hc, hl, ht, hm] at h

theorem CopyBlock_fault (tbl : Char → Bool) (faults : Faults) (conn : Conn) (block : Block)
    (highestBlock : Int) (h : ∃ op ∈ writePoints block, faults op ≠ none) :
    (CopyBlock tbl faults conn block highestBlock).err ≠ none := by
  obtain ⟨op, hop, hf⟩ := h
  rw [mem_writePoints] at hop
  unfold CopyBlock
  cases hb : faults WriteOp.begin with
  | some e => simp
  | none =>
    cases hc : copyFromBlocks faults conn.committed (blocksCSV block) with
    | error e => simp
    | ok rows =>
      have hcb : faults WriteOp.copyBlocks = none :=
        ((copyFrom_ok_iff _ _ _ _ _ _).1 ((copyFromBlocks_ok_iff _ _ _ _).1 hc).1).1
      simp only
      cases hl : (copyLoop tbl faults block 0 block.Transactions ⟨rows, [], [], []⟩ "").err with
      | some e => simp
      | none =>
        simp only
        cases ht : copyFrom faults WriteOp.copyTransactions blocksTransactionsOptions 14
            (copyLoop tbl faults block 0 block.Transactions ⟨rows, [], [], []⟩
              "").transactionsCSV with
        | error e => simp
        | ok trows =>
          have hct : faults WriteOp.copyTransactions = none :=
            ((copyFrom_ok_iff _ _ _ _ _ _).1 ht).1
          cases hm : faults WriteOp.commit with
          | some e => simp
          | none =>
            exfalso
            rcases hop with h | h | h | h | ⟨j, hj, h⟩
            · subst h; exact hf hb
            · subst h; exact hf hcb
            · subst h; exact hf hct
            · subst h; exact hf hm
            · have := copyLoop_fail tbl faults block block.Transactions 0
                ⟨rows, [], [], []⟩ ""
                ⟨j, Nat.zero_le j, by omega, by
                  rcases h with h | h
                  · subst h; exact Or.inl hf
                  · subst h; exact Or.inr hf⟩
              exact this hl

/-- A run of `CopyBlock` without error: the store has gained, in one commit, exactly the
rows it read from the texts `CopyBlock` gave it, and these texts are all the texts of the
block. -/
theorem CopyBlock_success (tbl : Char → Bool) (faults : Faults) (conn : Conn) (block : Block)
    (highestBlock : Int) (h : (CopyBlock tbl faults conn block highestBlock).err = none) :
    (CopyBlock tbl faults conn block highestBlock).conn =
      ⟨conn.committed.append (rowsRead (CopyBlock tbl faults conn block highestBlock).sent),
        conn.commits + 1⟩ ∧
    (CopyBlock tbl faults conn block highestBlock).sent = payloads tbl block := by
  unfold CopyBlock at h ⊢
  cases hb : faults WriteOp.begin with
  | some e => simp [hb] at h
  | none =>
    cases hc : copyFromBlocks faults conn.committed (blocksCSV block) with
    | error e => simp [hb, hc] at h
    | ok rows =>
      have hread1 : copyRead blocksTransactionsOptions (blocksCSV block) = some rows :=
        ((copyFrom_ok_iff _ _ _ _ _ _).1 ((copyFromBlocks_ok_iff _ _ _ _).1 hc).1).2.1
      simp only
      cases hl : (copyLoop tbl faults block 0 block.Transactions ⟨rows, [], [], []⟩ "").err with
      | some e => simp [hb, hc, hl] at h
      | none =>
        obtain ⟨i1, i2, i3⟩ := copyLoop_spec tbl faults block block.Transactions 0
          ⟨rows, [], [], []⟩ "" hl
        simp only
        cases ht : copyFrom faults WriteOp.copyTransactions blocksTransactionsOptions 14
            (copyLoop tbl faults block 0 block.Transactions ⟨rows, [], [], []⟩
              "").transactionsCSV with
        | error e => simp [hb, hc, hl, ht] at h
        | ok trows =>
          have hread2 := ((copyFrom_ok_iff _ _ _ _ _ _).1 ht).2.1
          cases hm : faults WriteOp.commit with
          | some e => simp [hb, hc, hl, ht, hm] at h
          | none =>
            simp only
            refine ⟨?_, ?_⟩
            · rw [i1]
              simp [rowsRead, rowsRead_append, Tables.append, Tables.empty, hread1, hread2]
            · rw [i2, i3, empty_append_str]
              rfl

theorem CopyBlock_sent_initial (tbl : Char → Bool) (faults : Faults) (conn : Conn)
    (block : Block) (highestBlock : Int) :
    (CopyBlock tbl faults conn block highestBlock).sent <+: payloads tbl block := by
  unfold CopyBlock
  cases hb : faults WriteOp.begin with
  | some e => exact ⟨_, rfl⟩
  | none =>
    cases hc : copyFromBlocks faults conn.committed (blocksCSV block) with
    | error e => exact ⟨_, rfl⟩
    | ok rows =>
      have hp := copyLoop_sent_initial tbl faults block block.Transactions 0 ⟨rows, [], [], []⟩ ""
      simp only
      cases hl : (copyLoop tbl faults block 0 block.Transactions ⟨rows, [], [], []⟩ "").err with
      | some e =>
        simp only
        obtain ⟨rest, hrest⟩ := hp
        refine ⟨rest ++ [(WriteOp.copyTransactions,
          String.join (block.Transactions.map (transactionLine block)))], ?_⟩
        unfold payloads
        rw [← hrest]
        simp
      | none =>
        obtain ⟨_, i2, i3⟩ := copyLoop_spec tbl faults block block.Transactions 0
          ⟨rows, [], [], []⟩ "" hl
        have hall : (WriteOp.copyBlocks, blocksCSV block) ::
            (copyLoop tbl faults block 0 block.Transactions ⟨rows, [], [], []⟩ "").sent ++
            [(WriteOp.copyTransactions, (copyLoop tbl faults block 0 block.Transactions
              ⟨rows, [], [], []⟩ "").transactionsCSV)] = payloads tbl block := by
          rw [i2, i3, empty_append_str]
          rfl
        simp only
        cases ht : copyFrom faults WriteOp.copyTransactions blocksTransactionsOptions 14
            (copyLoop tbl faults block 0 block.Transactions ⟨rows, [], [], []⟩
              "").transactionsCSV with
        | error e => simp only; rw [hall]
        | ok trows =>
          cases hm : faults WriteOp.commit with
          | some e => simp only; rw [hall]
          | none => simp only; rw [hall]

theorem rowHeight_blockRow (block : Block) : rowHeight (blockRow block) = some block.Height := by
  simp [rowHeight, blockRow, parseSigned_fmtInt]

theorem copyFromBlocks_plain (faults : Faults) (committed : Tables) (block : Block)
    (hp : PlainHeader block) (hf : faults WriteOp.copyBlocks = none)
    (hu : block.Height ∉ committed.heights) :
    copyFromBlocks faults committed (blocksCSV block) = Except.ok [blockRow block] := by
  rw [copyFromBlocks_ok_iff, copyFrom_ok_iff]
  refine ⟨⟨hf, blocksCSV_read block hp, ?_⟩, ?_, ?_, ?_⟩
  · intro r hr
    simp only [List.mem_singleton] at hr
    subst hr; rfl
  · simp [rowHeight_blockRow]
  · simp [rowHeight_blockRow]
  · simp [rowHeight_blockRow, hu]

/-- A block whose text fields are all plain, on a store that answers no call by an error
and has no block of its height: `CopyBlock` returns no error, and the store has gained
the rows of the block in one commit. -/
theorem CopyBlock_ok (tbl : Char → Bool) (faults : Faults) (conn : Conn) (block : Block)
    (highestBlock : Int) (hp : PlainBlock block)
    (h : ∀ op ∈ writePoints block, faults op = none)
    (hu : block.Height ∉ conn.committed.heights) :
    (CopyBlock tbl faults conn block highestBlock).err = none ∧
    (CopyBlock tbl faults conn block highestBlock).conn =
      ⟨conn.committed.append (blockRows tbl block), conn.commits + 1⟩ := by
  have hb := h WriteOp.begin ((mem_writePoints block _).2 (Or.inl rfl))
  have hcb := h WriteOp.copyBlocks ((mem_writePoints block _).2 (Or.inr (Or.inl rfl)))
  have ht := h WriteOp.copyTransactions
    ((mem_writePoints block _).2 (Or.inr (Or.inr (Or.inl rfl))))
  have hm := h WriteOp.commit
    ((mem_writePoints block _).2 (Or.inr (Or.inr (Or.inr (Or.inl rfl)))))
  have hc := copyFromBlocks_plain faults conn.committed block hp.1 hcb hu
  have hl := copyLoop_ok tbl faults block block.Transactions 0
    ⟨[blockRow block], [], [], []⟩ ""
    (fun t ht => ⟨(hp.2 t ht).2.2.2.1, (hp.2 t ht).2.2.2.2⟩) (by
      intro j _ hj
      exact ⟨h _ ((mem_writePoints block _).2
          (Or.inr (Or.inr (Or.inr (Or.inr ⟨j, by omega, Or.inl rfl⟩))))),
        h _ ((mem_writePoints block _).2
          (Or.inr (Or.inr (Or.inr (Or.inr ⟨j, by omega, Or.inr rfl⟩)))))⟩)
  obtain ⟨hl1, hl2⟩ := hl
  obtain ⟨_, _, hl3⟩ := copyLoop_spec tbl faults block block.Transactions 0
    ⟨[blockRow block], [], [], []⟩ "" hl1
  have htr : copyFrom faults WriteOp.copyTransactions blocksTransactionsOptions 14
      (copyLoop tbl faults block 0 block.Transactions ⟨[blockRow block], [], [], []⟩
        "").transactionsCSV = Except.ok (block.Transactions.map (transactionRow block)) := by
    rw [hl3, empty_append_str, copyFrom_ok_iff]
    refine ⟨ht, transactionsCSV_read block block.Transactions hp.1.1
      (fun t ht => ⟨(hp.2 t ht).1, (hp.2 t ht).2.1, (hp.2 t ht).2.2.1⟩), ?_⟩
    intro r hr
    obtain ⟨t, _, rfl⟩ := List.mem_map.1 hr
    rfl
  unfold CopyBlock
  simp only [hb, hc, hl1, htr, hm, hl2]
  simp [Tables.append, blockRows]

/-- A block whose blocks row has plain text fields: `CopyBlock` leaves the store as it
was, or it returns no error, the store had no block of that height, and the committed
heights have gained that height. -/
theorem CopyBlock_heights (tbl : Char → Bool) (faults : Faults) (conn : Conn) (block : Block)
    (highestBlock : Int) (hp : PlainHeader block) :
    (CopyBlock tbl faults conn block highestBlock).conn = conn ∨
    ((CopyBlock tbl faults conn block highestBlock).err = none ∧
      block.Height ∉ conn.committed.heights ∧
      (CopyBlock tbl faults conn block highestBlock).conn.committed.heights =
        conn.committed.heights ++ [block.Height]) := by
  unfold CopyBlock
  cases hb : faults WriteOp.begin with
  | some e => simp
  | none =>
    cases hc : copyFromBlocks faults conn.committed (blocksCSV block) with
    | error e => simp
    | ok rows =>
      obtain ⟨c1, _, _, c4⟩ := (copyFromBlocks_ok_iff _ _ _ _).1 hc
      have hrows : rows = [blockRow block] := by
        have := ((copyFrom_ok_iff _ _ _ _ _ _).1 c1).2.1
        rw [blocksCSV_read block hp] at this
        exact (Option.some.inj this).symm
      have hu : block.Height ∉ conn.committed.heights := by
        apply c4
        rw [hrows]
        simp [rowHeight_blockRow]
      simp only
      cases hl : (copyLoop tbl faults block 0 block.Transactions ⟨rows, [], [], []⟩ "").err with
      | some e => simp
      | none =>
        simp only
        cases ht : copyFrom faults WriteOp.copyTransactions blocksTransactionsOptions 14
            (copyLoop tbl faults block 0 block.Transactions ⟨rows, [], [], []⟩
              "").transactionsCSV with
        | error e => simp
        | ok trows =>
          cases hm : faults WriteOp.commit with
          | some e => simp
          | none =>
            right
            refine ⟨rfl, hu, ?_⟩
            simp [Tables.heights, Tables.append, copyLoop_blocks, hrows, rowHeight_blockRow]

/-! ### The sample values have plain text fields -/

theorem plainHeader_sampleBlock (h : Int) : PlainHeader (sampleBlock h) :=
  ⟨plain_replicate _ _ (plain_of_decide _ (by decide)),
    plain_of_decide "00000001".data (by decide), plain_of_decide "4a5e1e4b".data (by decide),
    plain_of_decide "1d00ffff".data (by decide), plain_of_decide "0100010001".data (by decide),
    plain_of_decide [] (by decide), plain_of_decide [] (by decide)⟩

theorem plainVin_coinbaseVin : PlainVin sampleTx coinbaseVin :=
  ⟨plain_of_decide _ (by decide), plain_of_decide _ (by decide), plain_of_decide _ (by decide),
    plain_of_decide _ (by decide), plain_of_decide _ (by decide), plain_of_decide _ (by decide),
    plain_of_decide _ (by decide), plain_of_decide _ (by decide), plain_of_decide _ (by decide),
    plain_of_decide _ (by decide)⟩

theorem plainVout_sampleVout : PlainVout sampleTx sampleVout :=
  ⟨plain_of_decide _ (by decide), plain_of_decide _ (by decide), plain_of_decide _ (by decide),
    plain_of_decide _ (by decide), plain_of_decide _ (by decide), plain_of_decide _ (by decide)⟩

theorem plainTransaction_sampleTx : PlainTransaction sampleTx :=
  ⟨plain_of_decide _ (by decide), plain_of_decide _ (by decide), plain_of_decide _ (by decide),
    fun v hv => by
      have : v = coinbaseVin := by simpa [sampleTx] using hv
      subst this; exact plainVin_coinbaseVin,
    fun v hv => by
      have : v = sampleVout := by simpa [sampleTx] using hv
      subst this; exact plainVout_sampleVout⟩

theorem plainBlock_sampleBlock (h : Int) : PlainBlock (sampleBlock h) :=
  ⟨plainHeader_sampleBlock h, fun t ht => by
    have : t = sampleTx := by simpa [sampleBlock] using ht
    subst this; exact plainTransaction_sampleTx⟩

/-- C1. `CopyBlock` is all-or-nothing. If any of the calls it can make on the store for
the block (begin, COPY blocks, the COPY vins or COPY vouts of any transaction, COPY
transactions, commit) is answered by an error, it returns an error and the committed
store is the one it was given; whenever it returns an error, also one the store gave
because of the text it was sent, the committed store is unchanged. When it returns no
error, it has given the store every text of the block, and the store has gained, in
exactly one commit, exactly the rows it read from these texts. For a block whose text
fields hold no comma, double quote, carriage return or newline, when no call fails and
the store has no block of that height, it returns no error and the rows gained are the
rows of the block: its blocks row, the row of every transaction, of every input and of
every output. -/
theorem CopyBlock_all_or_nothing (tbl : Char → Bool) (faults : Faults) (conn : Conn)
    (block : Block) (highestBlock : Int) :
    ((∃ op ∈ writePoints block, faults op ≠ none) →
      (CopyBlock tbl faults conn block highestBlock).err ≠ none ∧
      (CopyBlock tbl faults conn block highestBlock).conn = conn) ∧
    ((CopyBlock tbl faults conn block highestBlock).err ≠ none →
      (CopyBlock tbl faults conn block highestBlock).conn = conn) ∧
    ((CopyBlock tbl faults conn block highestBlock).err = none →
      (CopyBlock tbl faults conn block highestBlock).sent = payloads tbl block ∧
      (CopyBlock tbl faults conn block highestBlock).conn =
        ⟨conn.committed.append (rowsRead (payloads tbl block)), conn.commits + 1⟩) ∧
    (PlainBlock block → (∀ op ∈ writePoints block, faults op = none) →
      block.Height ∉ conn.committed.heights →
      (CopyBlock tbl faults conn block highestBlock).err = none ∧
      (CopyBlock tbl faults conn block highestBlock).conn =
        ⟨conn.committed.append (blockRows tbl block), conn.commits + 1⟩) :=
  ⟨fun h => ⟨CopyBlock_fault tbl faults conn block highestBlock h,
      CopyBlock_err_conn tbl faults conn block highestBlock
        (CopyBlock_fault tbl faults conn block highestBlock h)⟩,
    CopyBlock_err_conn tbl faults conn block highestBlock,
    fun h => ⟨(CopyBlock_success tbl faults conn block highestBlock h).2, by
      rw [← (CopyBlock_success tbl faults conn block highestBlock h).2]
      exact (CopyBlock_success tbl faults conn block highestBlock h).1⟩,
    CopyBlock_ok tbl faults conn block highestBlock⟩

set_option maxRecDepth 100000 in
/-- C1, at a concrete input: the block `sampleBlock 1` on the empty store, with the COPY
of the vouts of its transaction failing, and with no call failing; the rows committed
then are the blocks row, the transactions row, the vins row and the vouts row of the
block. -/
theorem CopyBlock_all_or_nothing_witness :
    ((CopyBlock sampleTable voutsFault emptyConn (sampleBlock 1) 1).err ≠ none ∧
      (CopyBlock sampleTable voutsFault emptyConn (sampleBlock 1) 1).conn = emptyConn) ∧
    ((CopyBlock sampleTable noFaults emptyConn (sampleBlock 1) 1).err = none ∧
      (CopyBlock sampleTable noFaults emptyConn (sampleBlock 1) 1).conn =
        ⟨emptyConn.committed.append (blockRows sampleTable (sampleBlock 1)),
          emptyConn.commits + 1⟩) ∧
    blockRows sampleTable (sampleBlock 1) =
      ⟨[[some "a", some "1", some "1", some "1", some "00000001", some "4a5e1e4b",
          some "2009-01-03 18:15:05+00:00", some "2009-01-03 18:15:05+00:00",
          some "2083236893", some "1d00ffff", some "1", some "0100010001", some "1", none,
          none, some "285", some "285", some "1140"]],
        [[some "4a5e1e4b", some "4a5e1e4b", some "false", some "false", some "1", some "204",
          some "204", some "816", some "0", some "0", some "0100", some "a", some "1",
          some "2009-01-03 18:15:05+00:00"]],
        [[some "4a5e1e4b", none, some "04ffff001d0104", some "0", none, none, some "\x7b\x7d",
          none, none, none, none, none, none, none, some "4294967295"]],
        [[some "4a5e1e4b", some "50", some "0", some "OP_DUP OP_HASH160", some "addr(1A1z)",
          some "76a9", some "1A1z", some "pubkeyhash"]]⟩ :=
  ⟨(CopyBlock_all_or_nothing sampleTable voutsFault emptyConn (sampleBlock 1) 1).1
      ⟨WriteOp.copyVouts 0, by decide, by decide⟩,
    (CopyBlock_all_or_nothing sampleTable noFaults emptyConn (sampleBlock 1) 1).2.2.2
      (plainBlock_sampleBlock 1) (fun _ _ => rfl) (by decide),
    by decide⟩

/-! ### Contiguity of the committed heights -/

theorem maxHeight_mem (hs : List Int) : ∀ h : Int, maxHeight h hs ∈ h :: hs := by
  induction hs with
  | nil => intro h; simp [maxHeight]
  | cons x xs ih =>
    intro h
    have := ih (max h x)
    simp only [maxHeight, List.foldl_cons] at this ⊢
    rcases List.mem_cons.1 this with h1 | h1
    · rw [h1]
      rcases max_choice h x with h2 | h2 <;> simp [h2]
    · exact List.mem_cons_of_mem _ (List.mem_cons_of_mem _ h1)

theorem le_maxHeight (hs : List Int) : ∀ h : Int, ∀ x ∈ h :: hs, x ≤ maxHeight h hs := by
  induction hs with
  | nil => intro h x hx; simp at hx; simp [maxHeight, hx]
  | cons y ys ih =>
    intro h x hx
    simp only [maxHeight, List.foldl_cons]
    have hm := ih (max h y)
    simp only [maxHeight] at hm
    rcases List.mem_cons.1 hx with h1 | h1
    · exact le_trans (by rw [h1]; exact le_max_left h y) (hm (max h y) (List.mem_cons_self _ _))
    · rcases List.mem_cons.1 h1 with h2 | h2
      · exact le_trans (by rw [h2]; exact le_max_right h y) (hm (max h y) (List.mem_cons_self _ _))
      · exact hm x (List.mem_cons_of_mem _ h2)

theorem mem_heights_of_contiguous (conn : Conn) (n : Nat) (h : Contiguous conn n) (x : Int) :
    x ∈ conn.committed.heights ↔ 1 ≤ x ∧ x ≤ n := by
  rw [h.mem_iff]
  simp only [List.mem_map, List.mem_range'_1]
  constructor
  · rintro ⟨k, ⟨h1, h2⟩, rfl⟩
    simp only [Int.ofNat_eq_coe]
    omega
  · rintro ⟨h1, h2⟩
    refine ⟨x.toNat, ⟨by omega, by omega⟩, ?_⟩
    simp only [Int.ofNat_eq_coe]
    omega

theorem highest_of_contiguous (conn : Conn) (n : Nat) (h : Contiguous conn n) :
    (GetHighestBlock none conn.committed).1 = n := by
  unfold GetHighestBlock
  cases hh : conn.committed.heights with
  | nil =>
    have := h.length_eq
    simp [hh] at this
    simp [← this]
  | cons x xs =>
    simp only
    have hmem := maxHeight_mem xs x
    have hle := le_maxHeight xs x
    rw [← hh] at hmem hle
    have h1 := (mem_heights_of_contiguous conn n h _).1 hmem
    have hn : (n : Int) ∈ conn.committed.heights :=
      (mem_heights_of_contiguous conn n h _).2 ⟨by omega, le_refl _⟩
    have := hle _ hn
    omega

theorem contiguous_succ (conn conn2 : Conn) (n : Nat) (h : Contiguous conn n)
    (h2 : conn2.committed.heights = conn.committed.heights ++ [((n : Int) + 1)]) :
    Contiguous conn2 (n + 1) := by
  unfold Contiguous at h ⊢
  rw [h2, List.range'_1_concat, List.map_append]
  refine List.Perm.append h ?_
  simp [Nat.add_comm]

theorem cycle_step (tbl : Char → Bool) (env : Env) (conn : Conn) (n : Nat)
    (hnode : NodeConsistent env) (hplain : PlainNode env) (h : Contiguous conn n) :
    Contiguous (cycle tbl env conn).conn n ∨ Contiguous (cycle tbl env conn).conn (n + 1) := by
  unfold cycle
  cases hci : env.getblockchaininfo with
  | error e => exact Or.inl h
  | ok currentHeight =>
    simp only
    split
    · cases hbh : env.getblockhash ((GetHighestBlock env.highestFault conn.committed).1 + 1) with
      | error e => exact Or.inl h
      | ok hash =>
        simp only
        cases hgb : env.getblock hash with
        | error e => exact Or.inl h
        | ok block =>
          simp only
          have hheight := hnode _ _ _ hbh hgb
          have hconn : Contiguous (CopyBlock tbl env.faults conn block currentHeight).conn n ∨
              Contiguous (CopyBlock tbl env.faults conn block currentHeight).conn (n + 1) := by
            rcases CopyBlock_heights tbl env.faults conn block currentHeight
              (hplain hash block hgb) with hc | ⟨_, hu, hc⟩
            · rw [hc]; exact Or.inl h
            · right
              apply contiguous_succ conn _ n h
              rw [hc, hheight]
              cases hf : env.highestFault with
              | none => rw [highest_of_contiguous conn n h]
              | some e =>
                rw [hheight, hf] at hu
                simp only [GetHighestBlock, zero_add] at hu ⊢
                have := (mem_heights_of_contiguous conn n h 1).not.1 hu
                have hn : n = 0 := by omega
                simp [hn]
          cases (CopyBlock tbl env.faults conn block currentHeight).err <;> exact hconn
    · exact Or.inl h

theorem pollLoop_contiguous (tbl : Char → Bool) :
    ∀ (envs : List Env) (conn : Conn) (n : Nat),
      (∀ env ∈ envs, NodeConsistent env ∧ PlainNode env) → Contiguous conn n →
      ∃ m, n ≤ m ∧ m ≤ n + envs.length ∧ Contiguous (pollLoop tbl envs conn).conn m := by
  intro envs
  induction envs with
  | nil => intro conn n _ h; exact ⟨n, le_refl _, by simp, h⟩
  | cons env envs ih =>
    intro conn n hnode h
    have hstep := cycle_step tbl env conn n (hnode env (List.mem_cons_self _ _)).1
      (hnode env (List.mem_cons_self _ _)).2 h
    simp only [pollLoop]
    split
    · rcases hstep with h1 | h1
      · exact ⟨n, le_refl _, by simp, h1⟩
      · exact ⟨n + 1, by omega, by simp, h1⟩
    · simp only
      rcases hstep with h1 | h1
      · obtain ⟨m, hm1, hm2, hm3⟩ :=
          ih (cycle tbl env conn).conn n (fun e he => hnode e (List.mem_cons_of_mem _ he)) h1
        exact ⟨m, hm1, by simp; omega, hm3⟩
      · obtain ⟨m, hm1, hm2, hm3⟩ :=
          ih (cycle tbl env conn).conn (n + 1) (fun e he => hnode e (List.mem_cons_of_mem _ he)) h1
        exact ⟨m, by omega, by simp; omega, hm3⟩

theorem restarts_contiguous (tbl : Char → Bool) :
    ∀ (runs : List (List Env)) (conn : Conn) (n : Nat),
      (∀ envs ∈ runs, ∀ env ∈ envs, NodeConsistent env ∧ PlainNode env) → Contiguous conn n →
      ∃ m, n ≤ m ∧ Contiguous (restarts tbl runs conn) m := by
  intro runs
  induction runs with
  | nil => intro conn n _ h; exact ⟨n, le_refl _, h⟩
  | cons envs rest ih =>
    intro conn n hnode h
    obtain ⟨m, hm1, _, hm3⟩ :=
      pollLoop_contiguous tbl envs conn n (hnode envs (List.mem_cons_self _ _)) h
    obtain ⟨m2, hm4, hm5⟩ := ih (main tbl envs conn).conn m
      (fun e he => hnode e (List.mem_cons_of_mem _ he)) hm3
    exact ⟨m2, by omega, hm5⟩

theorem contiguous_zero_of_empty (conn : Conn) (h : conn.committed = Tables.empty) :
    Contiguous conn 0 := by
  simp [Contiguous, h, Tables.empty, Tables.heights]

theorem sampleEnv_consistent (tip : Int) : NodeConsistent (sampleEnv tip) := by
  intro h hash block h1 h2
  simp only [sampleEnv] at h1 h2
  split at h1
  · rename_i hh
    injection h1 with h1
    injection h2 with h2
    subst h1 h2
    simp only [sampleBlock, String.length, List.length_replicate]
    omega
  · cases h1

theorem sampleEnv_plain (tip : Int) : PlainNode (sampleEnv tip) := by
  intro hash block h
  simp only [sampleEnv] at h
  injection h with h
  subst h
  exact plainHeader_sampleBlock _

theorem injectedEnv_consistent (tip : Int) : NodeConsistent (injectedEnv tip) := by
  intro h hash block h1 h2
  simp only [injectedEnv, sampleEnv] at h1 h2
  split at h1
  · rename_i hh
    injection h1 with h1
    injection h2 with h2
    subst h1
    by_cases ha : String.mk (List.replicate h.toNat 'a') = "a"
    · rw [if_pos ha] at h2
      subst h2
      have hl : h.toNat = 1 := by
        have := congrArg String.length ha
        simpa [String.length] using this
      simp only [injectedBlock, sampleBlock]
      omega
    · rw [if_neg ha] at h2
      subst h2
      simp only [sampleBlock, String.length, List.length_replicate]
      omega
  · cases h1

theorem not_contiguous_of_heights (conn : Conn) (n : Nat) (hs : List Int)
    (h : conn.committed.heights = hs) (hn : hs.length ≠ n) : ¬ Contiguous conn n := by
  intro hc
  have := hc.length_eq
  rw [h] at this
  simp at this
  exact hn this

theorem not_contiguous_of_mem (conn : Conn) (n : Nat) (x : Int)
    (h : x ∈ conn.committed.heights) (hx : (n : Int) < x) : ¬ Contiguous conn n := by
  intro hc
  have := (mem_heights_of_contiguous conn n hc x).1 h
  omega

set_option maxRecDepth 100000 in
/-- C2, as stated, fails. The node answers the hash at height `1` with a block whose
height field is `1` and whose merkle root text holds a line break and commas; `CopyBlock`
writes that text unquoted into the blocks line, and the store reads two blocks rows, of
heights `1` and `7`. After one cycle on the empty store the committed heights are `1`
and `7`: neither exactly none, nor exactly `1`. -/
theorem injected_row_breaks_contiguity :
    NodeConsistent (injectedEnv 3) ∧ Contiguous emptyConn 0 ∧
    (cycle sampleTable (injectedEnv 3) emptyConn).halted = false ∧
    (cycle sampleTable (injectedEnv 3) emptyConn).conn.committed.heights = [1, 7] ∧
    ¬ Contiguous (cycle sampleTable (injectedEnv 3) emptyConn).conn 0 ∧
    ¬ Contiguous (cycle sampleTable (injectedEnv 3) emptyConn).conn (0 + 1) := by
  have hh : (cycle sampleTable (injectedEnv 3) emptyConn).conn.committed.heights = [1, 7] := by
    decide
  exact ⟨injectedEnv_consistent 3, contiguous_zero_of_empty emptyConn rfl, by decide, hh,
    not_contiguous_of_heights _ 0 _ hh (by decide),
    not_contiguous_of_heights _ (0 + 1) _ hh (by decide)⟩

/-- C2, amended. Height contiguity is an invariant of the poll loop when the node answers
the hash at height `h` with a block of height `h` whose blocks row has plain text fields
(no comma, double quote, carriage return or newline). A cycle that starts on a store
whose committed heights are exactly `1, ..., n` leaves a store whose committed heights
are exactly `1, ..., n` or exactly `1, ..., n + 1`, whatever the RPC calls, the query of
the highest block and the writes of the load answer (success or error at any step); and
after any number of process lifetimes, each one any number of cycles ended by an error or
from outside and restarted on the store it left, the committed heights are exactly
`1, ..., m` for some `m ≥ n`. -/
theorem height_contiguity (tbl : Char → Bool) (conn : Conn) (n : Nat)
    (h : Contiguous conn n) :
    (∀ env, NodeConsistent env → PlainNode env →
      (Contiguous (cycle tbl env conn).conn n ∨ Contiguous (cycle tbl env conn).conn (n + 1))) ∧
    (∀ runs : List (List Env),
      (∀ envs ∈ runs, ∀ env ∈ envs, NodeConsistent env ∧ PlainNode env) →
      ∃ m, n ≤ m ∧ Contiguous (restarts tbl runs conn) m) :=
  ⟨fun env hnode hplain => cycle_step tbl env conn n hnode hplain h,
    fun runs hnode => restarts_contiguous tbl runs conn n hnode h⟩

/-- C2 amended, at a concrete input: one cycle on the empty store against the sample node
with tip `3`, and two process lifetimes of two cycles and one cycle. -/
theorem height_contiguity_witness :
    (Contiguous (cycle sampleTable (sampleEnv 3) emptyConn).conn 0 ∨
      Contiguous (cycle sampleTable (sampleEnv 3) emptyConn).conn (0 + 1)) ∧
    (∃ m, 0 ≤ m ∧
      Contiguous (restarts sampleTable [[sampleEnv 3, sampleEnv 3], [sampleEnv 3]] emptyConn) m) :=
  ⟨(height_contiguity sampleTable emptyConn 0 (contiguous_zero_of_empty emptyConn rfl)).1
      (sampleEnv 3) (sampleEnv_consistent 3) (sampleEnv_plain 3),
    (height_contiguity sampleTable emptyConn 0 (contiguous_zero_of_empty emptyConn rfl)).2
      [[sampleEnv 3, sampleEnv 3], [sampleEnv 3]]
      (fun envs henvs env henv => by
        simp only [List.mem_cons, List.mem_singleton, List.not_mem_nil, or_false] at henvs
        rcases henvs with h1 | h1
        · subst h1
          simp only [List.mem_cons, List.mem_singleton, List.not_mem_nil, or_false,
            or_self] at henv
          subst henv; exact ⟨sampleEnv_consistent 3, sampleEnv_plain 3⟩
        · subst h1
          simp only [List.mem_singleton] at henv
          subst henv; exact ⟨sampleEnv_consistent 3, sampleEnv_plain 3⟩)⟩

/-! ### Progress on a node that answers every call -/

theorem cycle_idle (tbl : Char → Bool) (env : Env) (conn : Conn) (T : Nat)
    (hinfo : env.getblockchaininfo = Except.ok (T : Int)) (hq : env.highestFault = none)
    (h : Contiguous conn T) :
    cycle tbl env conn =
      ⟨false, [Event.rpcGetBlockchainInfo, Event.queryHighestBlock, Event.upToDate], conn⟩ := by
  unfold cycle
  simp [hinfo, hq, highest_of_contiguous conn T h]

theorem heights_append_blockRows (tbl : Char → Bool) (committed : Tables) (block : Block) :
    (committed.append (blockRows tbl block)).heights = committed.heights ++ [block.Height] := by
  simp [Tables.heights, Tables.append, blockRows, rowHeight_blockRow]

theorem cycle_load (tbl : Char → Bool) (env : Env) (conn : Conn) (T n : Nat)
    (hinfo : env.getblockchaininfo = Except.ok (T : Int)) (hq : env.highestFault = none)
    (hnode : ∀ h : Int, 1 ≤ h → h ≤ T → ∃ hash block,
      env.getblockhash h = Except.ok hash ∧ env.getblock hash = Except.ok block ∧
      block.Height = h ∧ PlainBlock block)
    (hw : ∀ op, env.faults op = none) (hn : n < T) (h : Contiguous conn n) :
    (cycle tbl env conn).halted = false ∧ Contiguous (cycle tbl env conn).conn (n + 1) ∧
    Event.rpcGetBlockHash ((n : Int) + 1) ∈ (cycle tbl env conn).events := by
  obtain ⟨hash, block, h1, h2, h3, h4⟩ := hnode ((n : Int) + 1) (by omega) (by omega)
  have hu : block.Height ∉ conn.committed.heights := by
    rw [mem_heights_of_contiguous conn n h, h3]; omega
  obtain ⟨hok1, hok2⟩ := CopyBlock_ok tbl env.faults conn block (T : Int) h4
    (fun op _ => hw op) hu
  have hne : (T : Int) ≠ (n : Int) := by omega
  unfold cycle
  simp only [hinfo, hq, highest_of_contiguous conn n h, h1, h2, hok1, ne_eq, hne,
    not_false_eq_true, if_true]
  refine ⟨trivial, ?_, by simp⟩
  apply contiguous_succ conn _ n h
  rw [hok2, ← h3]
  exact heights_append_blockRows tbl conn.committed block

theorem pollLoop_progress (tbl : Char → Bool) (env : Env) (T : Nat)
    (hinfo : env.getblockchaininfo = Except.ok (T : Int)) (hq : env.highestFault = none)
    (hnode : ∀ h : Int, 1 ≤ h → h ≤ T → ∃ hash block,
      env.getblockhash h = Except.ok hash ∧ env.getblock hash = Except.ok block ∧
      block.Height = h ∧ PlainBlock block)
    (hw : ∀ op, env.faults op = none) :
    ∀ (k n : Nat) (conn : Conn), n ≤ T → Contiguous conn n →
      (pollLoop tbl (List.replicate k env) conn).halted = false ∧
      Contiguous (pollLoop tbl (List.replicate k env) conn).conn (min (n + k) T) := by
  intro k
  induction k with
  | zero => intro n conn hn h; simp [pollLoop, Nat.min_eq_left hn, h]
  | succ k ih =>
    intro n conn hn h
    simp only [List.replicate_succ, pollLoop]
    rcases Nat.lt_or_ge n T with hlt | hge
    · obtain ⟨c1, c2, _⟩ := cycle_load tbl env conn T n hinfo hq hnode hw hlt h
      obtain ⟨i1, i2⟩ := ih (n + 1) (cycle tbl env conn).conn hlt c2
      simp only [c1, Bool.false_eq_true, if_false]
      refine ⟨i1, ?_⟩
      have : n + 1 + k = n + (k + 1) := by omega
      rw [← this]; exact i2
    · have hnT : n = T := by omega
      subst hnT
      rw [cycle_idle tbl env conn n hinfo hq h]
      obtain ⟨i1, i2⟩ := ih n conn hn h
      simp only [Bool.false_eq_true, if_false]
      refine ⟨i1, ?_⟩
      rw [Nat.min_eq_right (by omega)] at i2 ⊢
      exact i2

theorem sampleEnv_answers (T : Nat) (h : Int) (h1 : 1 ≤ h) (h2 : h ≤ T) :
    ∃ hash block, (sampleEnv T).getblockhash h = Except.ok hash ∧
      (sampleEnv T).getblock hash = Except.ok block ∧ block.Height = h ∧ PlainBlock block := by
  refine ⟨String.mk (List.replicate h.toNat 'a'), sampleBlock h, ?_, ?_, rfl,
    plainBlock_sampleBlock h⟩
  · simp only [sampleEnv]
    rw [if_pos ⟨by omega, h2⟩]
  · simp only [sampleEnv, String.length, List.length_replicate]
    congr 2
    omega

set_option maxRecDepth 100000 in
/-- C3, as stated, fails. The tip is `100`, the store is empty, every RPC call and every
call on the store succeeds, and the block the node has at height `1` has a merkle root
text with a line break and commas, which `CopyBlock` writes unquoted: the first cycle
asks for height `1` and loads it without error, but the store then holds the heights `1`
and `7` and the query of the highest block answers `7`, not `1`; the second cycle loads
height `8`, so after `2` cycles the highest committed height is `8`, not `2`. -/
theorem injected_row_breaks_progress :
    (injectedEnv 100).getblockchaininfo = Except.ok 100 ∧
    (injectedEnv 100).highestFault = none ∧ (∀ op, (injectedEnv 100).faults op = none) ∧
    (cycle sampleTable (injectedEnv 100) emptyConn).halted = false ∧
    Event.rpcGetBlockHash 1 ∈ (cycle sampleTable (injectedEnv 100) emptyConn).events ∧
    (cycle sampleTable (injectedEnv 100) emptyConn).conn.committed.heights = [1, 7] ∧
    GetHighestBlock (injectedEnv 100).highestFault
      (cycle sampleTable (injectedEnv 100) emptyConn).conn.committed = (7, none) ∧
    (pollLoop sampleTable (List.replicate 2 (injectedEnv 100)) emptyConn).halted = false ∧
    (GetHighestBlock (injectedEnv 100).highestFault
      (pollLoop sampleTable (List.replicate 2 (injectedEnv 100)) emptyConn).conn.committed).1
        = 8 := by
  refine ⟨rfl, rfl, fun _ => rfl, ?_, ?_, ?_, ?_, ?_, ?_⟩ <;> decide

/-- C3, amended. End-to-end progress. For a tip height `T ≥ 1` that does not change, a
store without rows, a node that answers every call without error with blocks whose text
fields are all plain (no comma, double quote, carriage return or newline), and a store
that answers every call without error: the first cycle asks for height `1`, commits it,
and the query of the highest block then answers `1`; after `k` cycles the loop has not
stopped and the highest committed height is `min k T`; and every cycle after the `T`-th is
idle: its only events are the chain-info call, the query of the highest block and the
up-to-date message, with no block fetch and no call on the store for writing, and it
leaves the store as it was. -/
theorem end_to_end_progress (tbl : Char → Bool) (env : Env) (T : Nat) (conn : Conn)
    (hT : 1 ≤ T) (hempty : conn.committed = Tables.empty)
    (hinfo : env.getblockchaininfo = Except.ok (T : Int)) (hq : env.highestFault = none)
    (hnode : ∀ h : Int, 1 ≤ h → h ≤ T → ∃ hash block,
      env.getblockhash h = Except.ok hash ∧ env.getblock hash = Except.ok block ∧
      block.Height = h ∧ PlainBlock block)
    (hw : ∀ op, env.faults op = none) :
    ((cycle tbl env conn).halted = false ∧
      Event.rpcGetBlockHash 1 ∈ (cycle tbl env conn).events ∧
      (cycle tbl env conn).conn.committed.heights = [1] ∧
      GetHighestBlock env.highestFault (cycle tbl env conn).conn.committed = (1, none)) ∧
    (∀ k, (pollLoop tbl (List.replicate k env) conn).halted = false ∧
      (GetHighestBlock env.highestFault
        (pollLoop tbl (List.replicate k env) conn).conn.committed).1 = ((min k T : Nat) : Int)) ∧
    (∀ k, T ≤ k →
      cycle tbl env (pollLoop tbl (List.replicate k env) conn).conn =
        ⟨false, [Event.rpcGetBlockchainInfo, Event.queryHighestBlock, Event.upToDate],
          (pollLoop tbl (List.replicate k env) conn).conn⟩) := by
  have h0 := contiguous_zero_of_empty conn hempty
  refine ⟨?_, ?_, ?_⟩
  · obtain ⟨c1, c2, c3⟩ := cycle_load tbl env conn T 0 hinfo hq hnode hw (by omega) h0
    have hperm : (cycle tbl env conn).conn.committed.heights = [1] := by
      have := c2
      unfold Contiguous at this
      simpa using this
    refine ⟨c1, by simpa using c3, hperm, ?_⟩
    simp [GetHighestBlock, hq, hperm, maxHeight]
  · intro k
    obtain ⟨i1, i2⟩ := pollLoop_progress tbl env T hinfo hq hnode hw k 0 conn (by omega) h0
    refine ⟨i1, ?_⟩
    rw [hq, highest_of_contiguous _ _ i2]
    simp
  · intro k hk
    obtain ⟨_, i2⟩ := pollLoop_progress tbl env T hinfo hq hnode hw k 0 conn (by omega) h0
    rw [Nat.zero_add, Nat.min_eq_right hk] at i2
    exact cycle_idle tbl env _ T hinfo hq i2

/-- C3 amended, at tip height `100` on the empty store. -/
theorem end_to_end_progress_witness :
    ((cycle sampleTable (sampleEnv 100) emptyConn).halted = false ∧
      Event.rpcGetBlockHash 1 ∈ (cycle sampleTable (sampleEnv 100) emptyConn).events ∧
      (cycle sampleTable (sampleEnv 100) emptyConn).conn.committed.heights = [1] ∧
      GetHighestBlock (sampleEnv 100).highestFault
        (cycle sampleTable (sampleEnv 100) emptyConn).conn.committed = (1, none)) ∧
    (∀ k, (pollLoop sampleTable (List.replicate k (sampleEnv 100)) emptyConn).halted = false ∧
      (GetHighestBlock (sampleEnv 100).highestFault
        (pollLoop sampleTable (List.replicate k (sampleEnv 100)) emptyConn).conn.committed).1
          = ((min k 100 : Nat) : Int)) ∧
    (∀ k, 100 ≤ k →
      cycle sampleTable (sampleEnv 100)
          (pollLoop sampleTable (List.replicate k (sampleEnv 100)) emptyConn).conn =
        ⟨false, [Event.rpcGetBlockchainInfo, Event.queryHighestBlock, Event.upToDate],
          (pollLoop sampleTable (List.replicate k (sampleEnv 100)) emptyConn).conn⟩) :=
  end_to_end_progress sampleTable (sampleEnv 100) 100 emptyConn (by decide) rfl rfl rfl
    (sampleEnv_answers 100) (fun _ => rfl)

/-! ### Errors in the poll loop -/

theorem cycle_halted (tbl : Char → Bool) (env : Env) (conn : Conn)
    (h : (cycle tbl env conn).halted = true) :
    (cycle tbl env conn).conn = conn ∧
    ∃ e, (cycle tbl env conn).events.getLast? = some (Event.fatal e) := by
  unfold cycle at h ⊢
  cases hci : env.getblockchaininfo with
  | error e => exact ⟨rfl, e, rfl⟩
  | ok currentHeight =>
    simp only [hci] at h ⊢
    split
    · rename_i hne
      rw [if_pos hne] at h
      cases hbh : env.getblockhash ((GetHighestBlock env.highestFault conn.committed).1 + 1) with
      | error e => exact ⟨rfl, e, rfl⟩
      | ok hash =>
        simp only [hbh] at h ⊢
        cases hgb : env.getblock hash with
        | error e => exact ⟨rfl, e, rfl⟩
        | ok block =>
          simp only [hgb] at h ⊢
          cases hr : (CopyBlock tbl env.faults conn block currentHeight).err with
          | none => simp [hr] at h
          | some e =>
            simp only
            refine ⟨CopyBlock_err_conn tbl env.faults conn block currentHeight (by simp [hr]),
              e, ?_⟩
            simp only [List.append_assoc]
            rw [← List.append_assoc]
            exact List.getLast?_concat _
    · rename_i hne
      simp [hne] at h

theorem pollLoop_halted (tbl : Char → Bool) (env : Env) (envs : List Env) (conn : Conn)
    (h : (cycle tbl env conn).halted = true) :
    pollLoop tbl (env :: envs) conn = cycle tbl env conn := by
  simp [pollLoop, h]

theorem cycle_chaininfo_error (tbl : Char → Bool) (env : Env) (conn : Conn) (e : String)
    (h : env.getblockchaininfo = Except.error e) :
    cycle tbl env conn = ⟨true, [Event.rpcGetBlockchainInfo, Event.fatal e], conn⟩ := by
  simp [cycle, h]

theorem cycle_query_error (tbl : Char → Bool) (env : Env) (conn : Conn) (e : String)
    (tip : Int) (hi : env.getblockchaininfo = Except.ok tip) (htip : tip ≠ 0)
    (h : env.highestFault = some e) :
    (GetHighestBlock env.highestFault conn.committed).2 = some (QueryError.other e) ∧
    Event.rpcGetBlockHash 1 ∈ (cycle tbl env conn).events := by
  refine ⟨by simp [GetHighestBlock, h], ?_⟩
  unfold cycle
  simp only [hi, h, GetHighestBlock, ne_eq, htip, not_false_eq_true, if_true, zero_add]
  cases env.getblockhash 1 with
  | error e => simp
  | ok hash =>
    simp only
    cases env.getblock hash with
    | error e => simp
    | ok block =>
      simp only
      cases (CopyBlock tbl env.faults conn block tip).err <;> simp

set_option maxRecDepth 100000 in
/-- C4, at the failing input. The query of the highest block fails with an error other
than `sql.ErrNoRows` while heights `1` to `5` are committed and the tip is `10`: the
cycle does not stop there, it goes on with the value `0`, asks the node for the hash at
height `1`, fetches that block and calls the store to write it. On the empty store the
same cycle loads height `1` and the loop does not stop at all. -/
theorem query_error_not_fatal :
    (GetHighestBlock (brokenQueryEnv 10).highestFault fiveBlocks.committed).2 =
      some (QueryError.other "connection refused") ∧
    (cycle sampleTable (brokenQueryEnv 10) fiveBlocks).events =
      [Event.rpcGetBlockchainInfo, Event.queryHighestBlock, Event.rpcGetBlockHash 1,
        Event.rpcGetBlock "a" 3, Event.store WriteOp.begin, Event.store WriteOp.copyBlocks,
        Event.store WriteOp.rollback,
        Event.fatal "ERROR: error with COPY blocks: duplicate key value violates unique constraint"] ∧
    (cycle sampleTable (brokenQueryEnv 10) emptyConn).halted = false ∧
    (cycle sampleTable (brokenQueryEnv 10) emptyConn).conn.committed.heights = [1] := by
  refine ⟨rfl, ?_, ?_, ?_⟩
  · decide
  · decide
  · decide

/-! ### The height the loop asks the node for -/

theorem mem_events_getBlockHash (tbl : Char → Bool) (env : Env) (conn : Conn) (tip target : Int)
    (hinfo : env.getblockchaininfo = Except.ok tip)
    (hev : Event.rpcGetBlockHash target ∈ (cycle tbl env conn).events) :
    tip ≠ (GetHighestBlock env.highestFault conn.committed).1 ∧
    target = (GetHighestBlock env.highestFault conn.committed).1 + 1 := by
  unfold cycle at hev
  simp only [hinfo] at hev
  by_cases hne : tip ≠ (GetHighestBlock env.highestFault conn.committed).1
  · refine ⟨hne, ?_⟩
    rw [if_pos hne] at hev
    cases hbh : env.getblockhash ((GetHighestBlock env.highestFault conn.committed).1 + 1) with
    | error e =>
      simp only [hbh] at hev
      simpa using hev
    | ok hash =>
      simp only [hbh] at hev
      cases hgb : env.getblock hash with
      | error e =>
        simp only [hgb] at hev
        simpa using hev
      | ok block =>
        simp only [hgb] at hev
        cases hr : (CopyBlock tbl env.faults conn block tip).err with
        | some e =>
          simp only [hr] at hev
          simpa using hev
        | none =>
          simp only [hr] at hev
          simpa using hev
  · rw [if_neg hne] at hev
    simp at hev

theorem getBlockHash_issued (tbl : Char → Bool) (env : Env) (conn : Conn) (tip : Int)
    (hinfo : env.getblockchaininfo = Except.ok tip)
    (hne : tip ≠ (GetHighestBlock env.highestFault conn.committed).1) :
    Event.rpcGetBlockHash ((GetHighestBlock env.highestFault conn.committed).1 + 1) ∈
      (cycle tbl env conn).events := by
  unfold cycle
  simp only [hinfo]
  rw [if_pos hne]
  cases env.getblockhash ((GetHighestBlock env.highestFault conn.committed).1 + 1) with
  | error e => simp
  | ok hash =>
    simp only
    cases env.getblock hash with
    | error e => simp
    | ok block =>
      simp only
      cases (CopyBlock tbl env.faults conn block tip).err <;> simp

/-- C11, as stated, fails: with heights `1` to `5` committed and a node whose tip is `3`,
the cycle asks the node for the hash at height `6`, above the tip. -/
theorem store_ahead_asks_above_tip :
    (sampleEnv 3).getblockchaininfo = Except.ok 3 ∧
    GetHighestBlock (sampleEnv 3).highestFault fiveBlocks.committed = (5, none) ∧
    Event.rpcGetBlockHash 6 ∈ (cycle sampleTable (sampleEnv 3) fiveBlocks).events ∧
    ¬ ((6 : Int) ≤ 3) := by
  refine ⟨rfl, ?_, ?_, ?_⟩ <;> decide

/-- C11, amended. Whenever a cycle issues `getblockhash`, the tip reported by the node
differs from the highest loaded height read from the store, and the height asked for is
that highest height plus one (`1` for an empty store); so it is at most the tip exactly
when the highest height read is below the tip, and it is above the tip when the store is
ahead of the node. Whenever the two heights differ the cycle does issue
`getblockhash`. -/
theorem target_height (tbl : Char → Bool) (env : Env) (conn : Conn) (tip : Int)
    (hinfo : env.getblockchaininfo = Except.ok tip) :
    (∀ target, Event.rpcGetBlockHash target ∈ (cycle tbl env conn).events →
      tip ≠ (GetHighestBlock env.highestFault conn.committed).1 ∧
      target = (GetHighestBlock env.highestFault conn.committed).1 + 1 ∧
      (target ≤ tip ↔ (GetHighestBlock env.highestFault conn.committed).1 < tip) ∧
      (tip < target ↔ tip < (GetHighestBlock env.highestFault conn.committed).1)) ∧
    (conn.committed = Tables.empty →
      (GetHighestBlock env.highestFault conn.committed).1 = 0) ∧
    (tip ≠ (GetHighestBlock env.highestFault conn.committed).1 →
      Event.rpcGetBlockHash ((GetHighestBlock env.highestFault conn.committed).1 + 1) ∈
        (cycle tbl env conn).events) := by
  refine ⟨?_, ?_, getBlockHash_issued tbl env conn tip hinfo⟩
  · intro target hev
    obtain ⟨h1, h2⟩ := mem_events_getBlockHash tbl env conn tip target hinfo hev
    refine ⟨h1, h2, ?_, ?_⟩
    · rw [h2]; omega
    · rw [h2]; constructor <;> intro h <;> omega
  · intro hempty
    cases hf : env.highestFault <;>
      simp [GetHighestBlock, hempty, Tables.empty, Tables.heights]

set_option maxRecDepth 100000 in
/-- C11 amended, at the empty store against a node with tip `100`: the cycle asks for
height `1`, which is at most the tip. -/
theorem target_height_witness :
    (sampleEnv 100).getblockchaininfo = Except.ok 100 ∧
    Event.rpcGetBlockHash 1 ∈ (cycle sampleTable (sampleEnv 100) emptyConn).events ∧
    ((100 : Int) ≠ (GetHighestBlock (sampleEnv 100).highestFault emptyConn.committed).1 ∧
      (1 : Int) = (GetHighestBlock (sampleEnv 100).highestFault emptyConn.committed).1 + 1 ∧
      ((1 : Int) ≤ 100 ↔
        (GetHighestBlock (sampleEnv 100).highestFault emptyConn.committed).1 < 100) ∧
      ((100 : Int) < 1 ↔
        100 < (GetHighestBlock (sampleEnv 100).highestFault emptyConn.committed).1)) :=
  ⟨rfl, by decide,
    (target_height sampleTable (sampleEnv 100) emptyConn 100 rfl).1 1 (by decide)⟩

/-! ### The rows as the store reads them -/

set_option maxRecDepth 100000 in
/-- C5, at the failing input. The descriptor of a bare multisig script,
`multi(1,02aa,03bb)#x9zt`, is written with `%s`, unquoted: read under the options of the
COPY (`FORMAT csv, QUOTE '"', ESCAPE '\', NULL ''`) the vouts line has 10 fields for the 8
columns and the vins line has 17 fields for the 15 columns, and the descriptor column
reads back as `multi(1`. The witness stack, which `%q` quotes, reads back as one field. -/
theorem descriptor_comma_splits_row :
    (voutFields sampleTx multisigVout).length = 8 ∧
    (copyRead vinsVoutsOptions (voutLine sampleTx multisigVout)).map (List.map List.length)
      = some [10] ∧
    copyRead vinsVoutsOptions (voutLine sampleTx multisigVout) =
      some [[some "4a5e1e4b", some "0.00001", some "0", some "1 02aa 03bb 2 OP_CHECKMULTISIG",
        some "multi(1", some "02aa", some "03bb)#x9zt", some "5121", none, some "multisig"]] ∧
    (vinFields sampleTable sampleTx multisigVin).length = 15 ∧
    (copyRead vinsVoutsOptions (vinLine sampleTable sampleTx multisigVin)).map
      (List.map List.length) = some [17] ∧
    copyRead vinsVoutsOptions (vinLine sampleTable sampleTx standardVin) =
      some [[some "4a5e1e4b", some "f4184fc5", none, some "1", some "3045 02", some "483045",
        some "\x7b3044,02a1\x7d", some "9", some "50", some "OP_CHECKSIG", some "pk(04)",
        some "41ac", none, some "pubkey", some "4294967293"]] := by
  refine ⟨rfl, ?_, ?_, rfl, ?_, ?_⟩ <;> decide

/-- C6, as stated, fails for `NullString`: the absent string and the present empty string
are written as the same text, the NULL marker. -/
theorem NullString_nil_eq_empty :
    NullString none = NullString (some "") ∧ NullString (some "") = copyNull ∧
    (none : Option String) ≠ some "" := by
  decide

/-! ### The absent-value convention, settled -/

/-- C6, amended. `NullInt64` and `NullDecimal` write the absent value as a text (the empty
text) that differs from the text of every present value, zero included, and `NullString`
writes it as a text that differs from the text of every present string that is not
empty. `NullInt64` is injective on optional values, `NullString` is injective on the
optional values other than the present empty string, and two present decimals that
`NullDecimal` writes as the same text are the same number. -/
theorem absent_value_convention :
    (∀ n : Int, NullInt64 (some n) ≠ NullInt64 none) ∧
    (∀ d : Decimal, NullDecimal (some d) ≠ NullDecimal none) ∧
    (∀ s : String, s ≠ "" → NullString (some s) ≠ NullString none) ∧
    (∀ a b : Option Int, NullInt64 a = NullInt64 b → a = b) ∧
    (∀ a b : Option String, a ≠ some "" → b ≠ some "" → NullString a = NullString b → a = b) ∧
    (∀ a b : Decimal, NullDecimal (some a) = NullDecimal (some b) → a.toRat = b.toRat) ∧
    NullInt64 (some 0) = "0" ∧ NullDecimal (some ⟨0, 0⟩) = "0" ∧ NullDecimal (some ⟨0, -8⟩) = "0" := by
  refine ⟨fun n => fmtInt_ne_empty n, fun d => Decimal_String_ne_empty d, fun s hs => hs,
    ?_, ?_, ?_, by decide, by decide, by decide⟩
  · intro a b h
    cases a with
    | none =>
      cases b with
      | none => rfl
      | some y => exact absurd h.symm (fmtInt_ne_empty y)
    | some x =>
      cases b with
      | none => exact absurd h (fmtInt_ne_empty x)
      | some y => rw [fmtInt_injective x y h]
  · intro a b ha hb h
    cases a with
    | none =>
      cases b with
      | none => rfl
      | some y =>
        simp only [NullString] at h
        rw [← h] at hb
        exact absurd rfl hb
    | some x =>
      cases b with
      | none =>
        simp only [NullString] at h
        rw [h] at ha
        exact absurd rfl ha
      | some y =>
        simp only [NullString] at h
        rw [h]
  · intro a b h
    simp only [NullDecimal] at h
    have := numeralValue_String a
    rw [h, numeralValue_String b] at this
    exact (Option.some.inj this).symm

/-- C6 amended, at a present script-sig text. -/
theorem absent_value_convention_witness :
    ("483045" : String) ≠ "" ∧ NullString (some "483045") ≠ NullString none :=
  ⟨by decide, absent_value_convention.2.2.1 "483045" (by decide)⟩

/-! ### The texts `CopyBlock` gives to the store -/

theorem mem_payloads (tbl : Char → Bool) (block : Block) (op : WriteOp) (text : String) :
    (op, text) ∈ payloads tbl block ↔
      (op = WriteOp.copyBlocks ∧ text = blocksCSV block) ∨
      (∃ i t, block.Transactions[i]? = some t ∧
        ((op = WriteOp.copyVins i ∧ text = vinsCSV tbl t) ∨
          (op = WriteOp.copyVouts i ∧ text = voutsCSV t))) ∨
      (op = WriteOp.copyTransactions ∧
        text = String.join (block.Transactions.map (transactionLine block))) := by
  unfold payloads
  simp only [List.cons_append, List.mem_cons, List.mem_append, List.mem_flatMap,
    List.mem_singleton, Prod.mk.injEq, Prod.exists, List.not_mem_nil, or_false,
    List.mk_mem_enumFrom_iff_le_and_getElem?_sub, Nat.zero_le, true_and, Nat.sub_zero]

theorem mem_sent (tbl : Char → Bool) (faults : Faults) (conn : Conn) (block : Block)
    (highestBlock : Int) (op : WriteOp) (text : String)
    (h : (op, text) ∈ (CopyBlock tbl faults conn block highestBlock).sent) :
    (op, text) ∈ payloads tbl block :=
  (CopyBlock_sent_initial tbl faults conn block highestBlock).subset h

theorem sent_copyBlocks (tbl : Char → Bool) (faults : Faults) (conn : Conn) (block : Block)
    (highestBlock : Int) (text : String)
    (h : (WriteOp.copyBlocks, text) ∈ (CopyBlock tbl faults conn block highestBlock).sent) :
    text = blocksCSV block := by
  rcases (mem_payloads tbl block _ _).1 (mem_sent tbl faults conn block highestBlock _ _ h) with
    ⟨_, h2⟩ | ⟨i, t, _, ⟨h1, _⟩ | ⟨h1, _⟩⟩ | ⟨h1, _⟩
  · exact h2
  · cases h1
  · cases h1
  · cases h1

theorem sent_copyTransactions (tbl : Char → Bool) (faults : Faults) (conn : Conn)
    (block : Block) (highestBlock : Int) (text : String)
    (h : (WriteOp.copyTransactions, text) ∈
      (CopyBlock tbl faults conn block highestBlock).sent) :
    text = String.join (block.Transactions.map (transactionLine block)) := by
  rcases (mem_payloads tbl block _ _).1 (mem_sent tbl faults conn block highestBlock _ _ h) with
    ⟨h1, _⟩ | ⟨i, t, _, ⟨h1, _⟩ | ⟨h1, _⟩⟩ | ⟨_, h2⟩
  · cases h1
  · cases h1
  · cases h1
  · exact h2

theorem sent_copyVins (tbl : Char → Bool) (faults : Faults) (conn : Conn) (block : Block)
    (highestBlock : Int) (i : Nat) (text : String)
    (h : (WriteOp.copyVins i, text) ∈ (CopyBlock tbl faults conn block highestBlock).sent) :
    ∃ t, block.Transactions[i]? = some t ∧ text = vinsCSV tbl t := by
  rcases (mem_payloads tbl block _ _).1 (mem_sent tbl faults conn block highestBlock _ _ h) with
    ⟨h1, _⟩ | ⟨j, t, ht, ⟨h1, h2⟩ | ⟨h1, _⟩⟩ | ⟨h1, _⟩
  · cases h1
  · cases h1; exact ⟨t, ht, h2⟩
  · cases h1
  · cases h1

theorem sent_copyVouts (tbl : Char → Bool) (faults : Faults) (conn : Conn) (block : Block)
    (highestBlock : Int) (i : Nat) (text : String)
    (h : (WriteOp.copyVouts i, text) ∈ (CopyBlock tbl faults conn block highestBlock).sent) :
    ∃ t, block.Transactions[i]? = some t ∧ text = voutsCSV t := by
  rcases (mem_payloads tbl block _ _).1 (mem_sent tbl faults conn block highestBlock _ _ h) with
    ⟨h1, _⟩ | ⟨j, t, ht, ⟨h1, _⟩ | ⟨h1, h2⟩⟩ | ⟨h1, _⟩
  · cases h1
  · cases h1
  · cases h1; exact ⟨t, ht, h2⟩
  · cases h1

theorem sent_of_success (tbl : Char → Bool) (faults : Faults) (conn : Conn) (block : Block)
    (highestBlock : Int) (h : (CopyBlock tbl faults conn block highestBlock).err = none)
    (op : WriteOp) (text : String) (hp : (op, text) ∈ payloads tbl block) :
    (op, text) ∈ (CopyBlock tbl faults conn block highestBlock).sent := by
  rw [(CopyBlock_success tbl faults conn block highestBlock h).2]
  exact hp

theorem transactions_sent (tbl : Char → Bool) (faults : Faults) (conn : Conn) (block : Block)
    (highestBlock : Int) (h : (CopyBlock tbl faults conn block highestBlock).err = none) :
    ∃ text, (WriteOp.copyTransactions, text) ∈
      (CopyBlock tbl faults conn block highestBlock).sent :=
  ⟨_, sent_of_success tbl faults conn block highestBlock h _ _
    ((mem_payloads tbl block _ _).2 (Or.inr (Or.inr ⟨rfl, rfl⟩)))⟩

theorem committed_transactions (tbl : Char → Bool) (faults : Faults) (conn : Conn)
    (block : Block) (highestBlock : Int) (hp : PlainBlock block)
    (h : ∀ op ∈ writePoints block, faults op = none)
    (hu : block.Height ∉ conn.committed.heights) :
    (CopyBlock tbl faults conn block highestBlock).conn.committed.transactions =
      conn.committed.transactions ++ block.Transactions.map (transactionRow block) := by
  rw [(CopyBlock_ok tbl faults conn block highestBlock hp h hu).2]
  rfl

/-- C9. Segwit flag. Whenever `CopyBlock` gives a text to the COPY of `transactions`,
that text has one line for each transaction of the block, in order, and the third field
of the line is `true` when the txid of the transaction differs from its witness hash and
`false` when they are equal; a run without error gives that text to the store. For a
block whose text fields hold no comma, double quote, carriage return or newline, when no
call on the store fails and the store has no block of that height, the rows the store
has gained in `transactions` hold that value in the column `segwit`. -/
theorem segwit_flag (tbl : Char → Bool) (faults : Faults) (conn : Conn) (block : Block)
    (highestBlock : Int) :
    (∀ text, (WriteOp.copyTransactions, text) ∈
        (CopyBlock tbl faults conn block highestBlock).sent →
      text = String.join (block.Transactions.map (fun t =>
        csvLine ([t.TxID, t.Hash, if t.TxID ≠ t.Hash then "true" else "false"] ++
          (transactionFields block t).drop 3)))) ∧
    ((CopyBlock tbl faults conn block highestBlock).err = none →
      ∃ text, (WriteOp.copyTransactions, text) ∈
        (CopyBlock tbl faults conn block highestBlock).sent) ∧
    (PlainBlock block → (∀ op ∈ writePoints block, faults op = none) →
      block.Height ∉ conn.committed.heights →
      (CopyBlock tbl faults conn block highestBlock).conn.committed.transactions.map
          (fun r => r[2]?) =
        conn.committed.transactions.map (fun r => r[2]?) ++
          block.Transactions.map (fun t =>
            some (some (if t.TxID ≠ t.Hash then "true" else "false")))) := by
  refine ⟨?_, transactions_sent tbl faults conn block highestBlock, ?_⟩
  · intro text h
    rw [sent_copyTransactions tbl faults conn block highestBlock text h]
    refine congrArg String.join (List.map_congr_left ?_)
    intro t _
    refine congrArg csvLine ?_
    simp only [transactionFields, fmtBool_segwit, List.take, List.drop, List.cons_append,
      List.nil_append]
  · intro hp h hu
    rw [committed_transactions tbl faults conn block highestBlock hp h hu, List.map_append,
      List.map_map]
    refine congrArg (fun l => _ ++ l) (List.map_congr_left ?_)
    intro t _
    simp only [Function.comp, transactionRow, List.getElem?_cons_succ, List.getElem?_cons_zero]

set_option maxRecDepth 100000 in
/-- C9, at a block with five transactions, of which only the second has a witness hash
that differs from its txid. -/
theorem segwit_flag_witness :
    PlainBlock flagsBlock ∧
    flagsBlock.Transactions.map (fun t => decide (t.TxID ≠ t.Hash)) =
      [false, true, false, false, false] ∧
    (CopyBlock sampleTable noFaults emptyConn flagsBlock 1).conn.committed.transactions.map
        (fun r => r[2]?) =
      emptyConn.committed.transactions.map (fun r => r[2]?) ++
        flagsBlock.Transactions.map (fun t =>
          some (some (if t.TxID ≠ t.Hash then "true" else "false"))) ∧
    (CopyBlock sampleTable noFaults emptyConn flagsBlock 1).conn.committed.transactions.map
        (fun r => r[2]?) =
      [some (some "false"), some (some "true"), some (some "false"), some (some "false"),
        some (some "false")] :=
  ⟨by decide, by decide,
    (segwit_flag sampleTable noFaults emptyConn flagsBlock 1).2.2 (by decide) (fun _ _ => rfl)
      (by decide),
    by decide⟩

/-- C10. RBF flag. Whenever `CopyBlock` gives a text to the COPY of `transactions`, that
text has one line for each transaction of the block, in order, and the fourth field of
the line is `true` when some input of the transaction has a sequence below `0xfffffffe`
and `false` otherwise, so it is `false` without inputs; a run without error gives that
text to the store. For a block whose text fields hold no comma, double quote, carriage
return or newline, when no call on the store fails and the store has no block of that
height, the rows the store has gained in `transactions` hold that value in the column
`replace_by_fee`. -/
theorem rbf_flag (tbl : Char → Bool) (faults : Faults) (conn : Conn) (block : Block)
    (highestBlock : Int) :
    (∀ text, (WriteOp.copyTransactions, text) ∈
        (CopyBlock tbl faults conn block highestBlock).sent →
      text = String.join (block.Transactions.map (fun t =>
        csvLine ((transactionFields block t).take 3 ++
          (if ∃ v ∈ t.Vin, v.Sequence < 0xfffffffe then "true" else "false") ::
          (transactionFields block t).drop 4)))) ∧
    ((CopyBlock tbl faults conn block highestBlock).err = none →
      ∃ text, (WriteOp.copyTransactions, text) ∈
        (CopyBlock tbl faults conn block highestBlock).sent) ∧
    (PlainBlock block → (∀ op ∈ writePoints block, faults op = none) →
      block.Height ∉ conn.committed.heights →
      (CopyBlock tbl faults conn block highestBlock).conn.committed.transactions.map
          (fun r => r[3]?) =
        conn.committed.transactions.map (fun r => r[3]?) ++
          block.Transactions.map (fun t =>
            some (some (if ∃ v ∈ t.Vin, v.Sequence < 0xfffffffe then "true" else "false")))) ∧
    (∀ t : Transaction, t.Vin = [] →
      (if ∃ v ∈ t.Vin, v.Sequence < 0xfffffffe then "true" else "false") = "false") := by
  refine ⟨?_, transactions_sent tbl faults conn block highestBlock, ?_, ?_⟩
  · intro text h
    rw [sent_copyTransactions tbl faults conn block highestBlock text h]
    refine congrArg String.join (List.map_congr_left ?_)
    intro t _
    refine congrArg csvLine ?_
    simp only [transactionFields, fmtBool_rbf, List.take, List.drop, List.cons_append,
      List.nil_append]
  · intro hp h hu
    rw [committed_transactions tbl faults conn block highestBlock hp h hu, List.map_append,
      List.map_map]
    refine congrArg (fun l => _ ++ l) (List.map_congr_left ?_)
    intro t _
    simp only [Function.comp, transactionRow, List.getElem?_cons_succ, List.getElem?_cons_zero]
  · intro t ht
    rw [ht]
    rfl

set_option maxRecDepth 100000 in
/-- C10, at a block whose transactions have the input sequences `[0xffffffff]`,
`[0xffffffff, 0xffffffff]`, `[0xffffffff, 0xfffffffd]`, none, and `[0xffffffff]`: only
the third is written with `replace_by_fee` true. -/
theorem rbf_flag_witness :
    PlainBlock flagsBlock ∧
    flagsBlock.Transactions.map (fun t => t.Vin.map (fun v => v.Sequence)) =
      [[0xffffffff], [0xffffffff, 0xffffffff], [0xffffffff, 0xfffffffd], [], [0xffffffff]] ∧
    (CopyBlock sampleTable noFaults emptyConn flagsBlock 1).conn.committed.transactions.map
        (fun r => r[3]?) =
      emptyConn.committed.transactions.map (fun r => r[3]?) ++
        flagsBlock.Transactions.map (fun t =>
          some (some (if ∃ v ∈ t.Vin, v.Sequence < 0xfffffffe then "true" else "false"))) ∧
    (CopyBlock sampleTable noFaults emptyConn flagsBlock 1).conn.committed.transactions.map
        (fun r => r[3]?) =
      [some (some "false"), some (some "false"), some (some "true"), some (some "false"),
        some (some "false")] :=
  ⟨by decide, by decide,
    (rbf_flag sampleTable noFaults emptyConn flagsBlock 1).2.2.1 (by decide) (fun _ _ => rfl)
      (by decide),
    by decide⟩

/-! ### The decimal fields -/

theorem NullDecimal_eq (d : Option Decimal) :
    NullDecimal d = (d.map Decimal.String).getD "" := by
  cases d <;> rfl

theorem committed_rows (tbl : Char → Bool) (faults : Faults) (conn : Conn)
    (block : Block) (highestBlock : Int) (hp : PlainBlock block)
    (h : ∀ op ∈ writePoints block, faults op = none)
    (hu : block.Height ∉ conn.committed.heights) :
    (CopyBlock tbl faults conn block highestBlock).conn.committed.blocks =
      conn.committed.blocks ++ [blockRow block] ∧
    (CopyBlock tbl faults conn block highestBlock).conn.committed.vins =
      conn.committed.vins ++ block.Transactions.flatMap (fun t => t.Vin.map (vinRow tbl t)) ∧
    (CopyBlock tbl faults conn block highestBlock).conn.committed.vouts =
      conn.committed.vouts ++ block.Transactions.flatMap (fun t => t.Vout.map (voutRow t)) := by
  rw [(CopyBlock_ok tbl faults conn block highestBlock hp h hu).2]
  exact ⟨rfl, rfl, rfl⟩

theorem map_flatMap_rows {α β : Type} (f : Row → Option (Option String)) (ts : List α)
    (g : α → List β) (row : α → β → Row) :
    (ts.flatMap (fun t => (g t).map (row t))).map f =
      ts.flatMap (fun t => (g t).map (fun v => f (row t v))) := by
  induction ts with
  | nil => rfl
  | cons t ts ih => simp [List.flatMap_cons, ih, List.map_map, Function.comp_def]

/-- C8. Decimal fidelity. A decimal literal of the block payload (an optional `-`, digits,
an optional point with digits, an optional exponent part) whose exponent fits an `int32`
is decoded without error into a decimal whose text `Decimal.String()` denotes exactly the
number the literal denotes, a rational number computed with no rounding at any step; and
the text of every decimal denotes exactly the number the decimal holds. That text is what
`CopyBlock` writes: whenever it gives a text to a COPY, the difficulty is the eleventh
field of the blocks line, the fee the tenth field of the line of each transaction, the
output value the second field of the line of each output and the prevout value, when
there is one, the ninth field of the line of each input. For a block whose text fields
hold no comma, double quote, carriage return or newline, when no call on the store fails
and the store has no block of that height, the rows the store has gained hold these
texts in the columns `difficulty`, `fee` and `value`. -/
theorem decimal_fidelity (l : Literal) (hw : l.wellFormed = true) (hr : l.inRange = true) :
    (∃ d : Decimal, NewFromString (String.mk l.text) = some d ∧ d.toRat = l.value ∧
      numeralValue (String.mk l.text) = some l.value ∧
      numeralValue d.String = some l.value) ∧
    (∀ d : Decimal, numeralValue d.String = some d.toRat) ∧
    (∀ (tbl : Char → Bool) (faults : Faults) (conn : Conn) (block : Block) (highestBlock : Int),
      (∀ text, (WriteOp.copyBlocks, text) ∈
          (CopyBlock tbl faults conn block highestBlock).sent →
        text = csvLine ((blockFields block).take 10 ++
          block.Difficulty.String :: (blockFields block).drop 11)) ∧
      (∀ text, (WriteOp.copyTransactions, text) ∈
          (CopyBlock tbl faults conn block highestBlock).sent →
        text = String.join (block.Transactions.map (fun t =>
          csvLine ((transactionFields block t).take 9 ++
            t.Fee.String :: (transactionFields block t).drop 10)))) ∧
      (∀ i text, (WriteOp.copyVouts i, text) ∈
          (CopyBlock tbl faults conn block highestBlock).sent →
        ∃ t, block.Transactions[i]? = some t ∧
          text = String.join (t.Vout.map (fun v =>
            csvLine (t.TxID :: v.Value.String :: (voutFields t v).drop 2)))) ∧
      (∀ i text, (WriteOp.copyVins i, text) ∈
          (CopyBlock tbl faults conn block highestBlock).sent →
        ∃ t, block.Transactions[i]? = some t ∧
          text = String.join (t.Vin.map (fun v =>
            csvLine ((vinFields tbl t v).take 8 ++
              (v.Prevout.Value.map Decimal.String).getD "" :: (vinFields tbl t v).drop 9))))) ∧
    (∀ (tbl : Char → Bool) (faults : Faults) (conn : Conn) (block : Block) (highestBlock : Int),
      PlainBlock block → (∀ op ∈ writePoints block, faults op = none) →
      block.Height ∉ conn.committed.heights →
      (CopyBlock tbl faults conn block highestBlock).conn.committed.blocks.map
          (fun r => r[10]?) =
        conn.committed.blocks.map (fun r => r[10]?) ++ [some (some block.Difficulty.String)] ∧
      (CopyBlock tbl faults conn block highestBlock).conn.committed.transactions.map
          (fun r => r[9]?) =
        conn.committed.transactions.map (fun r => r[9]?) ++
          block.Transactions.map (fun t => some (some t.Fee.String)) ∧
      (CopyBlock tbl faults conn block highestBlock).conn.committed.vouts.map
          (fun r => r[1]?) =
        conn.committed.vouts.map (fun r => r[1]?) ++
          block.Transactions.flatMap (fun t => t.Vout.map (fun v => some (some v.Value.String))) ∧
      (CopyBlock tbl faults conn block highestBlock).conn.committed.vins.map
          (fun r => r[8]?) =
        conn.committed.vins.map (fun r => r[8]?) ++
          block.Transactions.flatMap (fun t =>
            t.Vin.map (fun v => some (v.Prevout.Value.map Decimal.String)))) := by
  refine ⟨⟨l.decoded, NewFromString_text l hw hr, decoded_toRat l, numeralValue_text l hw, ?_⟩,
    numeralValue_String, ?_, ?_⟩
  · rw [numeralValue_String, decoded_toRat]
  · intro tbl faults conn block highestBlock
    refine ⟨?_, ?_, ?_, ?_⟩
    · intro text h
      rw [sent_copyBlocks tbl faults conn block highestBlock text h]
      refine congrArg csvLine ?_
      simp only [blockFields, List.take, List.drop, List.cons_append, List.nil_append]
    · intro text h
      rw [sent_copyTransactions tbl faults conn block highestBlock text h]
      refine congrArg String.join (List.map_congr_left ?_)
      intro t _
      refine congrArg csvLine ?_
      simp only [transactionFields, List.take, List.drop, List.cons_append, List.nil_append]
    · intro i text h
      obtain ⟨t, ht, h2⟩ := sent_copyVouts tbl faults conn block highestBlock i text h
      refine ⟨t, ht, ?_⟩
      rw [h2]
      refine congrArg String.join (List.map_congr_left ?_)
      intro v _
      refine congrArg csvLine ?_
      simp only [voutFields, List.drop]
    · intro i text h
      obtain ⟨t, ht, h2⟩ := sent_copyVins tbl faults conn block highestBlock i text h
      refine ⟨t, ht, ?_⟩
      rw [h2]
      refine congrArg String.join (List.map_congr_left ?_)
      intro v _
      refine congrArg csvLine ?_
      simp only [vinFields, NullDecimal_eq, List.take, List.drop, List.cons_append,
        List.nil_append]
  · intro tbl faults conn block highestBlock hp h hu
    obtain ⟨r1, r2, r3⟩ := committed_rows tbl faults conn block highestBlock hp h hu
    refine ⟨?_, ?_, ?_, ?_⟩
    · rw [r1, List.map_append]
      rfl
    · rw [committed_transactions tbl faults conn block highestBlock hp h hu, List.map_append,
        List.map_map]
      refine congrArg (fun l => _ ++ l) (List.map_congr_left ?_)
      intro t _
      simp only [Function.comp, transactionRow, List.getElem?_cons_succ,
        List.getElem?_cons_zero]
    · rw [r3, List.map_append, map_flatMap_rows]
      rfl
    · rw [r2, List.map_append, map_flatMap_rows]
      rfl

set_option maxRecDepth 100000 in
/-- C8, at the fee `0.00001234`: it decodes to `1234 * 10 ^ -8`, which is written as the
text `0.00001234`; the store reads that text in the column `fee` of the row of the
transaction that has this fee, and the text denotes the number of the literal. -/
theorem decimal_fidelity_witness :
    sampleFeeLiteral.wellFormed = true ∧ sampleFeeLiteral.inRange = true ∧
    String.mk sampleFeeLiteral.text = "0.00001234" ∧
    NewFromString "0.00001234" = some ⟨1234, -8⟩ ∧
    (Decimal.mk 1234 (-8)).String = "0.00001234" ∧
    (∃ d : Decimal, NewFromString (String.mk sampleFeeLiteral.text) = some d ∧
      d.toRat = sampleFeeLiteral.value ∧
      numeralValue (String.mk sampleFeeLiteral.text) = some sampleFeeLiteral.value ∧
      numeralValue d.String = some sampleFeeLiteral.value) ∧
    feeTx.Fee = ⟨1234, -8⟩ ∧ feeTx ∈ flagsBlock.Transactions ∧
    (CopyBlock sampleTable noFaults emptyConn flagsBlock 1).conn.committed.transactions.map
        (fun r => r[9]?) =
      emptyConn.committed.transactions.map (fun r => r[9]?) ++
        flagsBlock.Transactions.map (fun t => some (some t.Fee.String)) ∧
    (CopyBlock sampleTable noFaults emptyConn flagsBlock 1).conn.committed.transactions.map
        (fun r => r[9]?) =
      [some (some "0"), some (some "0"), some (some "0"), some (some "0"),
        some (some "0.00001234")] :=
  ⟨by decide, by decide, by decide, by decide, by decide,
    (decimal_fidelity sampleFeeLiteral (by decide) (by decide)).1,
    by decide, by decide,
    ((decimal_fidelity sampleFeeLiteral (by decide) (by decide)).2.2.2 sampleTable noFaults
      emptyConn flagsBlock 1 (by decide) (fun _ _ => rfl) (by decide)).2.1,
    by decide⟩

/-! ### The optional fields of an input -/

theorem NullString_eq (s : Option String) : NullString s = s.getD copyNull := by
  cases s <;> rfl

theorem NullInt64_eq (n : Option Int) : NullInt64 n = (n.map fmtInt).getD copyNull := by
  cases n <;> rfl

theorem NullDecimal_eq_copyNull (d : Option Decimal) :
    NullDecimal d = (d.map Decimal.String).getD copyNull := by
  cases d <;> rfl

theorem decodeVin_scriptSig_asm (p : VinPayload) :
    (decodeVin p).ScriptSig.Asm = p.scriptSig.bind ScriptSig.Asm := by
  cases h : p.scriptSig <;> simp [decodeVin, h]

theorem decodeVin_scriptSig_hex (p : VinPayload) :
    (decodeVin p).ScriptSig.Hex = p.scriptSig.bind ScriptSig.Hex := by
  cases h : p.scriptSig <;> simp [decodeVin, h]

theorem decodeVin_prevHeight (p : VinPayload) :
    (decodeVin p).Prevout.PrevHeight = p.prevout.bind PrevoutPayload.height := by
  cases h : p.prevout <;> simp [decodeVin, h]

theorem decodeVin_value (p : VinPayload) :
    (decodeVin p).Prevout.Value = p.prevout.bind PrevoutPayload.value := by
  cases h : p.prevout <;> simp [decodeVin, h]

theorem decodeVin_scriptPubKey (p : VinPayload) :
    (decodeVin p).Prevout.ScriptPubKey =
      (p.prevout.bind PrevoutPayload.scriptPubKey).getD ⟨none, none, none, none, none⟩ := by
  cases h : p.prevout <;> simp [decodeVin, h]

theorem scriptPubKey_field (f : PrevScriptPubKey → Option String)
    (hf : f ⟨none, none, none, none, none⟩ = none) (s : Option PrevScriptPubKey) :
    f (s.getD ⟨none, none, none, none, none⟩) = s.bind f := by
  cases s with
  | none => exact hf
  | some v => rfl

/-- The line written for a decoded input, field by field of the payload: a text, a
number or a decimal that the payload does not have is written as the NULL text, except
the output index and the sequence, which are written as the integer `0`. -/
theorem vinLine_decodeVin (tbl : Char → Bool) (t : Transaction) (p : VinPayload) :
    vinLine tbl t (decodeVin p) =
      csvLine [t.TxID, p.txid.getD copyNull, p.coinbase.getD copyNull, fmtInt (p.vout.getD 0),
        (p.scriptSig.bind ScriptSig.Asm).getD copyNull,
        (p.scriptSig.bind ScriptSig.Hex).getD copyNull,
        fmtQuote tbl ("\x7b" ++ String.intercalate "," (p.txinwitness.getD []) ++ "\x7d"),
        ((p.prevout.bind PrevoutPayload.height).map fmtInt).getD copyNull,
        ((p.prevout.bind PrevoutPayload.value).map Decimal.String).getD copyNull,
        ((p.prevout.bind PrevoutPayload.scriptPubKey).bind PrevScriptPubKey.Asm).getD copyNull,
        ((p.prevout.bind PrevoutPayload.scriptPubKey).bind PrevScriptPubKey.Desc).getD copyNull,
        ((p.prevout.bind PrevoutPayload.scriptPubKey).bind PrevScriptPubKey.Hex).getD copyNull,
        ((p.prevout.bind PrevoutPayload.scriptPubKey).bind PrevScriptPubKey.Address).getD
          copyNull,
        ((p.prevout.bind PrevoutPayload.scriptPubKey).bind PrevScriptPubKey.Type_).getD copyNull,
        fmtInt (p.sequence.getD 0)] := by
  refine congrArg csvLine ?_
  simp only [vinFields, NullString_eq, NullInt64_eq, NullDecimal_eq_copyNull,
    decodeVin_scriptSig_asm, decodeVin_scriptSig_hex, decodeVin_prevHeight, decodeVin_value,
    decodeVin_scriptPubKey, scriptPubKey_field PrevScriptPubKey.Asm rfl,
    scriptPubKey_field PrevScriptPubKey.Desc rfl, scriptPubKey_field PrevScriptPubKey.Hex rfl,
    scriptPubKey_field PrevScriptPubKey.Address rfl,
    scriptPubKey_field PrevScriptPubKey.Type_ rfl]
  rfl

/-- The store reads the vins line of an input with plain text fields as the row of the
input. -/
theorem vinLine_read (tbl : Char → Bool) (t : Transaction) (v : VinEntry) (h : PlainVin t v) :
    copyRead vinsVoutsOptions (vinLine tbl t v) = some [vinRow tbl t v] := by
  have := copyRead_lines vinsVoutsOptions rfl [vinFields tbl t v]
    (by intro l hl; simp only [List.mem_singleton] at hl; subst hl; simp [vinFields])
    (by
      intro l hl f hf
      simp only [List.mem_singleton] at hl
      subst hl
      exact neutral_fieldOK _ (fieldOK_vinFields tbl t v h f hf))
    (by
      intro l hl f hf
      simp only [List.mem_singleton] at hl
      subst hl
      exact fieldReads_fieldOK _ (fieldOK_vinFields tbl t v h f hf))
  simp only [List.map_cons, List.map_nil, join_singleton] at this
  rw [show vinLine tbl t v = csvLine (vinFields tbl t v) from rfl, this,
    vinFields_fieldValue tbl t v h]

theorem vinRow_decodeVin (tbl : Char → Bool) (t : Transaction) (p : VinPayload) :
    vinRow tbl t (decodeVin p) =
      [readBack t.TxID, p.txid.bind readBack, p.coinbase.bind readBack,
        some (fmtInt (p.vout.getD 0)),
        (p.scriptSig.bind ScriptSig.Asm).bind readBack,
        (p.scriptSig.bind ScriptSig.Hex).bind readBack,
        fieldValue vinsVoutsOptions
          (fmtQuote tbl ("\x7b" ++ String.intercalate "," (p.txinwitness.getD []) ++ "\x7d")).data,
        (p.prevout.bind PrevoutPayload.height).map fmtInt,
        (p.prevout.bind PrevoutPayload.value).map Decimal.String,
        ((p.prevout.bind PrevoutPayload.scriptPubKey).bind PrevScriptPubKey.Asm).bind readBack,
        ((p.prevout.bind PrevoutPayload.scriptPubKey).bind PrevScriptPubKey.Desc).bind readBack,
        ((p.prevout.bind PrevoutPayload.scriptPubKey).bind PrevScriptPubKey.Hex).bind readBack,
        ((p.prevout.bind PrevoutPayload.scriptPubKey).bind PrevScriptPubKey.Address).bind
          readBack,
        ((p.prevout.bind PrevoutPayload.scriptPubKey).bind PrevScriptPubKey.Type_).bind readBack,
        some (fmtInt (p.sequence.getD 0))] := by
  simp only [vinRow, decodeVin_scriptSig_asm, decodeVin_scriptSig_hex, decodeVin_prevHeight,
    decodeVin_value, decodeVin_scriptPubKey, scriptPubKey_field PrevScriptPubKey.Asm rfl,
    scriptPubKey_field PrevScriptPubKey.Desc rfl, scriptPubKey_field PrevScriptPubKey.Hex rfl,
    scriptPubKey_field PrevScriptPubKey.Address rfl,
    scriptPubKey_field PrevScriptPubKey.Type_ rfl]
  rfl

set_option maxRecDepth 100000 in
/-- C7, as stated, fails: a coinbase input, whose payload has no output index, is written
with the text `0` in the fourth field of its vins line, and the store reads the
output-index column `vout` of its row as `0`, not as NULL. -/
theorem coinbase_vout_not_null :
    coinbasePayload.vout = none ∧ decodeVin coinbasePayload = coinbaseVin ∧
    vinLine sampleTable sampleTx (decodeVin coinbasePayload) =
      "4a5e1e4b,,04ffff001d0104,0,,,\"\x7b\x7d\",,,,,,,,4294967295\n" ∧
    (sampleBlock 1).Transactions.map (fun t => t.Vin) = [[decodeVin coinbasePayload]] ∧
    (CopyBlock sampleTable noFaults emptyConn (sampleBlock 1) 1).conn.committed.vins =
      [[some "4a5e1e4b", none, some "04ffff001d0104", some "0", none, none, some "\x7b\x7d",
        none, none, none, none, none, none, none, some "4294967295"]] ∧
    (CopyBlock sampleTable noFaults emptyConn (sampleBlock 1) 1).conn.committed.vins.map
      (fun r => r[3]?) = [some (some "0")] := by
  refine ⟨rfl, ?_, ?_, ?_, ?_, ?_⟩ <;> decide

/-- C7, amended. In the vins line written for a decoded input, each of the fields that
the code holds as a pointer (previous txid, coinbase marker, script-sig asm and hex,
prevout height and value, prevout script-pubkey asm, desc, hex, address and type) is the
NULL text when the payload does not have it, whether the object it belongs to is missing
or present without that key; the output index is the decoded integer, which is `0` when
the payload has none. When the text fields are plain, the store reads that line as a row
with NULL in the column of every such absent field and with the integer in `vout`. That
line is what `CopyBlock` writes: the text it gives to the COPY of `vins` for a
transaction is the lines of the inputs of that transaction, in order. -/
theorem null_propagation (tbl : Char → Bool) (t : Transaction) (p : VinPayload) :
    vinLine tbl t (decodeVin p) =
      csvLine [t.TxID, p.txid.getD copyNull, p.coinbase.getD copyNull, fmtInt (p.vout.getD 0),
        (p.scriptSig.bind ScriptSig.Asm).getD copyNull,
        (p.scriptSig.bind ScriptSig.Hex).getD copyNull,
        fmtQuote tbl ("\x7b" ++ String.intercalate "," (p.txinwitness.getD []) ++ "\x7d"),
        ((p.prevout.bind PrevoutPayload.height).map fmtInt).getD copyNull,
        ((p.prevout.bind PrevoutPayload.value).map Decimal.String).getD copyNull,
        ((p.prevout.bind PrevoutPayload.scriptPubKey).bind PrevScriptPubKey.Asm).getD copyNull,
        ((p.prevout.bind PrevoutPayload.scriptPubKey).bind PrevScriptPubKey.Desc).getD copyNull,
        ((p.prevout.bind PrevoutPayload.scriptPubKey).bind PrevScriptPubKey.Hex).getD copyNull,
        ((p.prevout.bind PrevoutPayload.scriptPubKey).bind PrevScriptPubKey.Address).getD
          copyNull,
        ((p.prevout.bind PrevoutPayload.scriptPubKey).bind PrevScriptPubKey.Type_).getD copyNull,
        fmtInt (p.sequence.getD 0)] ∧
    (PlainVin t (decodeVin p) →
      copyRead vinsVoutsOptions (vinLine tbl t (decodeVin p)) =
        some [[readBack t.TxID, p.txid.bind readBack, p.coinbase.bind readBack,
          some (fmtInt (p.vout.getD 0)),
          (p.scriptSig.bind ScriptSig.Asm).bind readBack,
          (p.scriptSig.bind ScriptSig.Hex).bind readBack,
          fieldValue vinsVoutsOptions
            (fmtQuote tbl
              ("\x7b" ++ String.intercalate "," (p.txinwitness.getD []) ++ "\x7d")).data,
          (p.prevout.bind PrevoutPayload.height).map fmtInt,
          (p.prevout.bind PrevoutPayload.value).map Decimal.String,
          ((p.prevout.bind PrevoutPayload.scriptPubKey).bind PrevScriptPubKey.Asm).bind readBack,
          ((p.prevout.bind PrevoutPayload.scriptPubKey).bind PrevScriptPubKey.Desc).bind
            readBack,
          ((p.prevout.bind PrevoutPayload.scriptPubKey).bind PrevScriptPubKey.Hex).bind readBack,
          ((p.prevout.bind PrevoutPayload.scriptPubKey).bind PrevScriptPubKey.Address).bind
            readBack,
          ((p.prevout.bind PrevoutPayload.scriptPubKey).bind PrevScriptPubKey.Type_).bind
            readBack,
          some (fmtInt (p.sequence.getD 0))]]) ∧
    (∀ (faults : Faults) (conn : Conn) (block : Block) (highestBlock : Int) (i : Nat)
        (text : String),
      (WriteOp.copyVins i, text) ∈ (CopyBlock tbl faults conn block highestBlock).sent →
      ∃ t2, block.Transactions[i]? = some t2 ∧
        text = String.join (t2.Vin.map (vinLine tbl t2))) ∧
    (∀ (faults : Faults) (conn : Conn) (block : Block) (highestBlock : Int),
      PlainBlock block → (∀ op ∈ writePoints block, faults op = none) →
      block.Height ∉ conn.committed.heights →
      (CopyBlock tbl faults conn block highestBlock).conn.committed.vins =
        conn.committed.vins ++
          block.Transactions.flatMap (fun t2 => t2.Vin.map (vinRow tbl t2))) := by
  refine ⟨vinLine_decodeVin tbl t p, ?_, ?_, ?_⟩
  · intro h
    rw [vinLine_read tbl t (decodeVin p) h, vinRow_decodeVin]
  · intro faults conn block highestBlock i text h
    exact sent_copyVins tbl faults conn block highestBlock i text h
  · intro faults conn block highestBlock hp h hu
    exact (committed_rows tbl faults conn block highestBlock hp h hu).2.1

set_option maxRecDepth 100000 in
/-- C7 amended, at the coinbase input and at the standard input of the samples: the
store reads the line of the coinbase input with NULL in `prev_txid` and in all seven
prevout columns and with `0` in `vout`, and the line of the standard input with NULL in
`coinbase`. -/
theorem null_propagation_witness :
    PlainVin sampleTx (decodeVin coinbasePayload) ∧
    copyRead vinsVoutsOptions (vinLine sampleTable sampleTx (decodeVin coinbasePayload)) =
      some [[some "4a5e1e4b", none, some "04ffff001d0104", some "0", none, none,
        some "\x7b\x7d", none, none, none, none, none, none, none, some "4294967295"]] ∧
    PlainVin sampleTx (decodeVin standardPayload) ∧
    copyRead vinsVoutsOptions (vinLine sampleTable sampleTx (decodeVin standardPayload)) =
      some [[some "4a5e1e4b", some "f4184fc5", none, some "1", some "3045 02", some "483045",
        some "\x7b3044,02a1\x7d", some "9", some "50", some "OP_CHECKSIG", some "pk(04)",
        some "41ac", none, some "pubkey", some "4294967293"]] :=
  ⟨by decide,
    ((null_propagation sampleTable sampleTx coinbasePayload).2.1 (by decide)).trans (by decide),
    by decide,
    ((null_propagation sampleTable sampleTx standardPayload).2.1 (by decide)).trans (by decide)⟩

end Godex
